import Mathlib

/-!
# Results processing pipeline of the CrUX analyzer front end

A shallow embedding of the filter / sort / summary code of
`frontend/src/app.js`, `frontend/src/components/FilterSort.js` and
`frontend/src/components/DataTable.js`.

Conventions of the embedding.

* JavaScript numbers that arrive in a JSON response are finite doubles; they are
  embedded as rationals.  Only `<`, `<=`, `=== 0` and the sign of a difference
  are used on them, and these agree with the exact rational ones on finite
  doubles.  `NaN` appears only as the result of a comparator and has its own
  constructor in `JSNum`.
* A `null` field of the response is `Option.none`; every field of the data model is
  present in the response, so `undefined` arises only from `find` and `?.`.
* A thrown `TypeError` is `Option.none` of the function that throws.
* An absent `metrics` array behaves at every use (`metrics?.find`,
  `metrics?.forEach`) like the empty array and is embedded as `[]`.
-/

namespace Crux

/-! ## Data model -/

/-- Device class of a measurement. -/
inductive FormFactor where
  | ALL_FORM_FACTORS
  | DESKTOP
  | PHONE
  | TABLET
  deriving DecidableEq, Repr

/-- One metric of one URL, as delivered by the analysis service. -/
structure MetricSample where
  metric_name : String
  p75_value : Option ℚ
  good_ratio : Option ℚ
  needs_improvement_ratio : Option ℚ
  poor_ratio : Option ℚ
  deriving DecidableEq

/-- One analysed URL. -/
structure UrlResult where
  url : String
  form_factor : FormFactor
  overall_performance : Option String
  metrics : List MetricSample
  created_at : String
  deriving DecidableEq

/-- Cross-URL statistics of one metric, computed by the service. -/
structure SummaryStat where
  metric_name : String
  average_p75 : ℚ
  best_url : String
  best_value : ℚ
  worst_url : String
  worst_value : ℚ
  deriving DecidableEq

/-- The response of `POST /analyze/`. -/
structure AnalysisResponse where
  session_id : String
  results : List UrlResult
  summary : Option (List SummaryStat)
  deriving DecidableEq

/-- The `metricThreshold` member of the `filters` argument of `handleFilterChange`. -/
structure MetricThreshold where
  metric : String
  value : ℚ
  deriving DecidableEq

/-- The `filters` argument of `handleFilterChange`. -/
structure Filters where
  performanceFilter : Option String
  metricThreshold : Option MetricThreshold
  deriving DecidableEq

/-- The `sortConfig` argument of `handleFilterChange`. -/
structure SortConfig where
  field : Option String
  direction : String
  deriving DecidableEq

/-! ## JavaScript primitives used by the pipeline -/

/-- A JavaScript number as returned by a sort comparator: `NaN` or a finite value. -/
inductive JSNum where
  | nan
  | num (q : ℚ)
  deriving DecidableEq

/-- JavaScript `x - y` on numbers. -/
def JSNum.sub : JSNum → JSNum → JSNum
  | .num a, .num b => .num (a - b)
  | _, _ => .nan

/-- Truthiness of a JavaScript string: every string but the empty one. -/
def truthyStr (s : String) : Bool := !(s == "")

/-- Truthiness of a finite JavaScript number: every number but zero. -/
def truthyNum (q : ℚ) : Bool := !(q == 0)

/-- The method `String.prototype.toLowerCase` on strings of ASCII characters: the letters
A to Z are lowered and every other character is kept.  (JavaScript also lowers the cased
letters outside ASCII, which this embedding keeps as they are.) -/
def toLowerCase (s : String) : String := String.mk (s.data.map Char.toLower)

/-- Lexicographic three-way comparison of two character sequences by code point. -/
def compareChars : List Char → List Char → Int
  | [], [] => 0
  | [], _ :: _ => -1
  | _ :: _, [] => 1
  | a :: as, b :: bs =>
    if a.toNat < b.toNat then -1
    else if b.toNat < a.toNat then 1
    else compareChars as bs

/-- The method `String.prototype.localeCompare`: a three-way comparison of two strings along a
total order of the strings.  The collation is embedded as the code-point order; the
collation of a locale orders letters of different case and accented letters otherwise,
and agrees with it on words of lower-case ASCII letters. -/
def localeCompare (a b : String) : Int := compareChars a.data b.data

/-- Value of a run of decimal digits, `none` when a character is not a digit. -/
def digitsValue : List Char → Option ℕ
  | [] => some 0
  | cs => cs.foldl
      (fun acc c => acc.bind fun n => if c.isDigit then some (10 * n + (c.toNat - 48)) else none)
      (some 0)

/-- The conversion `ToNumber` applied to a string: surrounding blanks are dropped, the empty string
is `0`, an optionally signed run of decimal digits is its value, and every other
string is `NaN`.  (Fractions, exponents, radix prefixes and `Infinity` are outside
this embedding and come out as `NaN`.) -/
def stringToNumber (s : String) : JSNum :=
  let cs := (s.data.dropWhile Char.isWhitespace).reverse.dropWhile Char.isWhitespace |>.reverse
  match cs with
  | [] => .num 0
  | '-' :: ds => if ds.isEmpty then .nan else
      match digitsValue ds with
      | some n => .num (-(n : ℚ))
      | none => .nan
  | '+' :: ds => if ds.isEmpty then .nan else
      match digitsValue ds with
      | some n => .num (n : ℚ)
      | none => .nan
  | ds =>
      match digitsValue ds with
      | some n => .num (n : ℚ)
      | none => .nan

/-! ## The filter step of `handleFilterChange` (app.js, lines 58-71) -/

/-- The callback of the performance filter:
`result.overall_performance?.toLowerCase() === filters.performanceFilter.toLowerCase()`. -/
def passesPerformance (performanceFilter : String) (result : UrlResult) : Bool :=
  match result.overall_performance with
  | none => false
  | some p => toLowerCase p == toLowerCase performanceFilter

/-- The callback of the metric-threshold filter:
`metric && metric.p75_value && metric.p75_value <= filters.metricThreshold.value`
with `metric = result.metrics?.find(m => m.metric_name === filters.metricThreshold.metric)`. -/
def passesThreshold (t : MetricThreshold) (result : UrlResult) : Bool :=
  match result.metrics.find? (fun m => m.metric_name == t.metric) with
  | none => false
  | some metric =>
    match metric.p75_value with
    | none => false
    | some v => truthyNum v && decide (v ≤ t.value)

/-- Guard of the performance filter:
`filters.performanceFilter && filters.performanceFilter !== 'all'`. -/
def performanceGuard (filters : Filters) : Bool :=
  match filters.performanceFilter with
  | none => false
  | some pf => truthyStr pf && !(pf == "all")

/-- Guard of the metric-threshold filter:
`filters.metricThreshold && filters.metricThreshold.metric && filters.metricThreshold.value`. -/
def thresholdGuard (filters : Filters) : Bool :=
  match filters.metricThreshold with
  | none => false
  | some t => truthyStr t.metric && truthyNum t.value

/-- First filter statement of `handleFilterChange`. -/
def performanceStep (filters : Filters) (results : List UrlResult) : List UrlResult :=
  match filters.performanceFilter with
  | none => results
  | some pf =>
    if performanceGuard filters then results.filter (passesPerformance pf) else results

/-- Second filter statement of `handleFilterChange`. -/
def thresholdStep (filters : Filters) (results : List UrlResult) : List UrlResult :=
  match filters.metricThreshold with
  | none => results
  | some t =>
    if thresholdGuard filters then results.filter (passesThreshold t) else results

/-- The filter step: both filter statements in sequence. -/
def filterStep (filters : Filters) (results : List UrlResult) : List UrlResult :=
  thresholdStep filters (performanceStep filters results)

/-! ## The sort step of `handleFilterChange` (app.js, lines 74-102) -/

/-- The metric key of a result: `metric?.p75_value || 0` with
`metric = result.metrics?.find(m => m.metric_name === field)`. -/
def metricKey (field : String) (result : UrlResult) : ℚ :=
  match result.metrics.find? (fun m => m.metric_name == field) with
  | none => 0
  | some metric =>
    match metric.p75_value with
    | none => 0
    | some v => if truthyNum v then v else 0

/-- The two return statements of the comparator when `aValue` and `bValue` are URLs:
`typeof aValue === 'string'` holds, so `localeCompare` is used. -/
def compareUrl (direction : String) (a b : String) : JSNum :=
  if direction == "asc" then .num (localeCompare a b) else .num (localeCompare b a)

/-- The two return statements of the comparator when `aValue` and `bValue` are ratings.
A string `aValue` takes the `localeCompare` branch, where a null argument is converted
to the string `"null"` and a null receiver throws; a null `aValue` takes the
subtraction branch, where `null` converts to `0` and a string goes through `ToNumber`. -/
def compareRating (direction : String) : Option String → Option String → Option JSNum
  | some a, some b =>
    if direction == "asc" then some (.num (localeCompare a b)) else some (.num (localeCompare b a))
  | some a, none =>
    if direction == "asc" then some (.num (localeCompare a "null")) else none
  | none, some b =>
    if direction == "asc" then some (JSNum.sub (.num 0) (stringToNumber b))
    else some (JSNum.sub (stringToNumber b) (.num 0))
  | none, none =>
    if direction == "asc" then some (JSNum.sub (.num 0) (.num 0))
    else some (JSNum.sub (.num 0) (.num 0))

/-- The two return statements of the comparator when `aValue` and `bValue` are metric
keys: `typeof aValue === 'string'` fails, so the keys are subtracted. -/
def compareMetric (direction : String) (a b : ℚ) : JSNum :=
  if direction == "asc" then JSNum.sub (.num a) (.num b) else JSNum.sub (.num b) (.num a)

/-- The comparator passed to `sort`; `none` is a thrown `TypeError`. -/
def compareFn (field direction : String) (a b : UrlResult) : Option JSNum :=
  if field == "url" then some (compareUrl direction a.url b.url)
  else if field == "overall_performance" then
    compareRating direction a.overall_performance b.overall_performance
  else some (compareMetric direction (metricKey field a) (metricKey field b))

/-- Whether the comparator extracts the same `aValue` and `bValue` from two results:
the URL, the rating, or the metric key, by the three branches on `sortConfig.field`. -/
def sameSortKey (field : String) (a b : UrlResult) : Bool :=
  if field == "url" then a.url == b.url
  else if field == "overall_performance" then a.overall_performance == b.overall_performance
  else metricKey field a == metricKey field b

/-- Whether `SortCompare` reports "first argument before second": the comparator
result is a number below zero (`NaN` counts as `+0`). -/
def JSNum.isNegative : JSNum → Bool
  | .nan => false
  | .num q => decide (q < 0)

/-- One insertion of `Array.prototype.sort`: `sortedRev` is the already sorted prefix,
last element first; the pivot moves towards the front of the array for as long as
the comparator called on (pivot, element) is negative. -/
def insertPivot {α : Type} (cmp : α → α → Option JSNum) (pivot : α) :
    List α → Option (List α)
  | [] => some [pivot]
  | y :: ys =>
    match cmp pivot y with
    | none => none
    | some v =>
      if v.isNegative then (insertPivot cmp pivot ys).map (fun r => y :: r)
      else some (pivot :: y :: ys)

/-- The method `Array.prototype.sort(cmp)` as a stable insertion sort that inserts the elements
from left to right.  With a consistent comparator every conforming engine returns this
list; with an inconsistent one ECMAScript leaves the order to the engine, and this is
the order of an engine that compares each new element with its left neighbours
(`v8Sort` below is the order of V8).  An exception of the comparator aborts the sort. -/
def jsSort {α : Type} (cmp : α → α → Option JSNum) (xs : List α) : Option (List α) :=
  (xs.foldlM (fun sortedRev pivot => insertPivot cmp pivot sortedRev) []).map List.reverse

/-- The sort statement of `handleFilterChange`, guarded by
`sortConfig.field && sortConfig.direction`. -/
def sortStep (sortConfig : SortConfig) (results : List UrlResult) : Option (List UrlResult) :=
  match sortConfig.field with
  | none => some results
  | some field =>
    if truthyStr field && truthyStr sortConfig.direction
    then jsSort (compareFn field sortConfig.direction) results
    else some results

/-! ## Component state of `App` and `handleFilterChange` (app.js, lines 20-105) -/

/-- The two state cells of `App` that the pipeline reads and writes. -/
structure AppState where
  analysisData : Option AnalysisResponse
  filteredData : Option AnalysisResponse
  deriving DecidableEq

/-- State after `handleAnalyze` has received `response`:
`setAnalysisData(response); setFilteredData(response)`. -/
def handleAnalyzeSuccess (response : AnalysisResponse) : AppState :=
  { analysisData := some response, filteredData := some response }

/-- Whether `filtered.results` is still the very array of `analysisData.results` when
the sort statement is reached: `filtered = { ...analysisData }` copies the reference,
and only a filter statement that runs replaces it by a new array. -/
def sharesResultsArray (filters : Filters) : Bool :=
  !(performanceGuard filters) && !(thresholdGuard filters)

/-- The callback `handleFilterChange(filters, sortConfig)`.  `sort` works in place, so
when the array is shared the sorted order is also the new content of
`analysisData.results`.  `none` is an exception thrown by the comparator, which leaves
both state cells as they were. -/
def handleFilterChange (st : AppState) (filters : Filters) (sortConfig : SortConfig) :
    Option AppState :=
  match st.analysisData with
  | none => some st
  | some analysisData =>
    match sortStep sortConfig (filterStep filters analysisData.results) with
    | none => none
    | some sorted =>
      some
        { analysisData :=
            some (if sharesResultsArray filters
                  then { analysisData with results := sorted } else analysisData)
          filteredData := some { analysisData with results := sorted } }

/-- A sequence of edits of the filter and sort controls, each delivered through
`handleFilterChange`. -/
def applyEdits (st : AppState) : List (Filters × SortConfig) → Option AppState
  | [] => some st
  | (filters, sortConfig) :: rest =>
    match handleFilterChange st filters sortConfig with
    | none => none
    | some st1 => applyEdits st1 rest

/-- The `results` of the view that `DataTable` receives (`data={filteredData}`). -/
def viewResults (st : AppState) : Option (List UrlResult) :=
  st.filteredData.map (fun d => d.results)

/-! ## Rating counts of `DataTable` (DataTable.js, lines 364-383) -/

/-- The count fields of the object returned by `summaryStats`. -/
structure SummaryCounts where
  totalUrls : ℕ
  goodCount : ℕ
  needsImprovementCount : ℕ
  poorCount : ℕ
  unknownCount : ℤ
  deriving DecidableEq

/-- The count fields of `summaryStats` for the `data` prop; `none` is the `null`
returned for absent or empty results. -/
def summaryStats (data : Option AnalysisResponse) : Option SummaryCounts :=
  match data with
  | none => none
  | some d =>
    if d.results.length == 0 then none
    else
      let totalUrls := d.results.length
      let goodCount := (d.results.filter (fun r => r.overall_performance == some "Good")).length
      let needsImprovementCount :=
        (d.results.filter (fun r => r.overall_performance == some "Needs Improvement")).length
      let poorCount := (d.results.filter (fun r => r.overall_performance == some "Poor")).length
      some
        { totalUrls := totalUrls
          goodCount := goodCount
          needsImprovementCount := needsImprovementCount
          poorCount := poorCount
          unknownCount := (totalUrls : ℤ) - goodCount - needsImprovementCount - poorCount }

/-! ## Concrete responses used in the examples -/

/-- A sample that carries only a name and a 75th-percentile value. -/
def sampleOf (name : String) (p75 : Option ℚ) : MetricSample :=
  { metric_name := name, p75_value := p75, good_ratio := none,
    needs_improvement_ratio := none, poor_ratio := none }

/-- A desktop result with the given URL, rating and samples. -/
def rowOf (url : String) (rating : Option String) (metrics : List MetricSample) : UrlResult :=
  { url := url, form_factor := FormFactor.DESKTOP, overall_performance := rating,
    metrics := metrics, created_at := "2024-01-01T00:00:00Z" }

/-- A response without service-side summary. -/
def responseOf (results : List UrlResult) : AnalysisResponse :=
  { session_id := "s1", results := results, summary := none }

/-- Criteria with neither filter set. -/
def noFilters : Filters := { performanceFilter := none, metricThreshold := none }

/-- Criteria with only a metric threshold. -/
def thresholdOnly (metric : String) (value : ℚ) : Filters :=
  { performanceFilter := none, metricThreshold := some { metric := metric, value := value } }

/-- Criteria with only a performance filter. -/
def performanceOnly (rating : String) : Filters :=
  { performanceFilter := some rating, metricThreshold := none }

/-- The sort controls in their cleared state, as `FilterSort` sends them. -/
def noSort : SortConfig := { field := none, direction := "asc" }

/-- The three rows of the threshold example: 1800, 3200 and no samples. -/
def lcpRows : List UrlResult :=
  [ rowOf "a" none [sampleOf "Largest Contentful Paint (LCP)" (some 1800)],
    rowOf "b" none [sampleOf "Largest Contentful Paint (LCP)" (some 3200)],
    rowOf "c" none [] ]

/-- A row whose layout-shift value is exactly zero. -/
def clsZeroRow : UrlResult :=
  rowOf "https://a.example" (some "Good") [sampleOf "Cumulative Layout Shift (CLS)" (some 0)]

/-- A row whose layout-shift value is five. -/
def clsFiveRow : UrlResult :=
  rowOf "https://a.example" (some "Poor") [sampleOf "Cumulative Layout Shift (CLS)" (some 5)]

/-- Two rows whose URLs are in descending order. -/
def urlRowsBA : List UrlResult := [rowOf "b" none [], rowOf "a" none []]

/-- One row rated "Good" followed by one rated "Poor". -/
def goodPoorRows : List UrlResult := [rowOf "a" (some "Good") [], rowOf "b" (some "Poor") []]

/-- Two rows with the same rating whose URLs are in descending order. -/
def sameRatingRows : List UrlResult :=
  [rowOf "b" (some "Good") [], rowOf "a" (some "Good") []]

/-- A row without the speed metric after a row that has it with a positive value. -/
def metricRows : List UrlResult :=
  [ rowOf "b" none [sampleOf "Largest Contentful Paint (LCP)" (some 1800)],
    rowOf "a" none [] ]

/-- An unrated row, a row rated "Good" and another unrated row. -/
def unratedAroundGood : List UrlResult :=
  [rowOf "a" none [], rowOf "b" (some "Good") [], rowOf "c" none []]

/-- A row rated "slow", an unrated row above the speed threshold and a row rated
"poor". -/
def unratedBetweenLabels : List UrlResult :=
  [ rowOf "a" (some "slow") [sampleOf "Largest Contentful Paint (LCP)" (some 1800)],
    rowOf "b" none [sampleOf "Largest Contentful Paint (LCP)" (some 3200)],
    rowOf "c" (some "poor") [sampleOf "Largest Contentful Paint (LCP)" (some 1800)] ]

/-! ## Criteria construction of `FilterSort` (FilterSort.js, lines 91-94) -/

/-- The `sorting` object that the effect of `FilterSort` passes to `onFilterChange`:
`{ field: sortConfig.field || null, direction: sortConfig.direction || 'asc' }`. -/
def sortingOf (field direction : String) : SortConfig :=
  { field := if truthyStr field then some field else none
    direction := if truthyStr direction then direction else "asc" }

/-! ## URL entry form (URLInput.js) and `validateURL` (api.js) -/

/-- The members of a parsed URL that the front end reads. -/
structure URLRecord where
  protocol : String
  hostname : String
  pathname : String
  search : String
  deriving DecidableEq

/-- White space and line terminators of ECMAScript, the characters that `trim` strips. -/
def isTrimChar (c : Char) : Bool :=
  let n := c.toNat
  n == 0x09 || n == 0x0A || n == 0x0B || n == 0x0C || n == 0x0D || n == 0x20 || n == 0xA0 ||
    n == 0x1680 || (0x2000 ≤ n && n ≤ 0x200A) || n == 0x2028 || n == 0x2029 || n == 0x202F ||
    n == 0x205F || n == 0x3000 || n == 0xFEFF

/-- The method `String.prototype.trim`. -/
def trim (s : String) : String :=
  String.mk ((s.data.dropWhile isTrimChar).reverse.dropWhile isTrimChar).reverse

/-- The function `validateURL(url)` of api.js.  `parseURL` stands for the constructor
`new URL(url)`, with `none` for the `TypeError` it throws on a string that is not an
absolute URL; the result is `['http:', 'https:'].includes(urlObj.protocol)`. -/
def validateURL (parseURL : String → Option URLRecord) (url : String) : Bool :=
  match parseURL url with
  | none => false
  | some urlObj => urlObj.protocol == "http:" || urlObj.protocol == "https:"

/-- Message for an entry that is not an http(s) URL. -/
def invalidUrlError : String := "Please enter a valid URL (must include http:// or https://)"

/-- Message for the single empty entry. -/
def requiredError : String := "At least one URL is required"

/-- Message for a repeated URL. -/
def duplicateError : String := "Duplicate URL detected"

/-- The error that the first loop of `validateUrls` records for one entry, given the
length of the list. -/
def entryError (parseURL : String → Option URLRecord) (length : ℕ) (url : String) :
    Option String :=
  if truthyStr (trim url) then
    if !validateURL parseURL (trim url) then some invalidUrlError else none
  else if length == 1 then some requiredError
  else none

/-- The array `validUrls` after the first loop of `validateUrls`: the trimmed entries
that are non-empty and pass `validateURL`, in input order. -/
def collectValid (parseURL : String → Option URLRecord) : List String → List String
  | [] => []
  | url :: rest =>
    if truthyStr (trim url) && validateURL parseURL (trim url)
    then trim url :: collectValid parseURL rest
    else collectValid parseURL rest

/-- Insertion of the values into a `Set`, which keeps a value only the first time;
`seen` holds the values already inserted. -/
def setInsertAll (seen : List String) : List String → List String
  | [] => []
  | x :: xs => if seen.contains x then setInsertAll seen xs else x :: setInsertAll (x :: seen) xs

/-- The expression `[...new Set(values)]`: the distinct values in insertion order. -/
def uniqueValues (values : List String) : List String := setInsertAll [] values

/-- The expression `validUrls.filter((url, index) => validUrls.indexOf(url) !== index)`. -/
def duplicatesOf (validUrls : List String) : List String :=
  (validUrls.enum.filter (fun p => !(validUrls.indexOf p.2 == p.1))).map (fun p => p.2)

/-- The object returned by `validateUrls`, together with the `newErrors` it stores with
`setErrors`; `errors` has one slot per entry, `none` for an index without a key. -/
structure Validation where
  errors : List (Option String)
  isValid : Bool
  validUrls : List String
  deriving DecidableEq

/-- The function `validateUrls` of `URLInput`, reading the `urls` state. -/
def validateUrls (parseURL : String → Option URLRecord) (urls : List String) : Validation :=
  let firstErrors := urls.map (entryError parseURL urls.length)
  let validUrls := collectValid parseURL urls
  let uniqueUrls := uniqueValues validUrls
  let newErrors :=
    if uniqueUrls.length != validUrls.length then
      let duplicates := duplicatesOf validUrls
      List.zipWith (fun url e => if duplicates.contains (trim url) then some duplicateError else e)
        urls firstErrors
    else firstErrors
  { errors := newErrors
    isValid := newErrors.all (fun e => e.isNone)
    validUrls := uniqueUrls }

/-- The callback `handleAnalyze` of `URLInput`: the arguments of the call of `onAnalyze`,
or `none` when `onAnalyze` is not invoked. -/
def URLInput.handleAnalyze (parseURL : String → Option URLRecord) (urls : List String)
    (formFactor : FormFactor) : Option (List String × FormFactor) :=
  let v := validateUrls parseURL urls
  if v.isValid && decide (v.validUrls.length > 0) then some (v.validUrls, formFactor) else none

/-- The user actions that change the `urls` state of `URLInput`. -/
inductive UrlAction where
  | change (index : ℕ) (value : String)
  | add
  | remove (index : ℕ)
  deriving DecidableEq

/-- The callbacks `handleUrlChange`, `handleAddUrl` and `handleRemoveUrl` on the `urls`
state.  `handleUrlChange` is bound to the rendered fields only, so its index is below
the length. -/
def urlStep (urls : List String) : UrlAction → List String
  | .change index value => if index < urls.length then urls.set index value else urls
  | .add => if urls.length < 10 then urls ++ [""] else urls
  | .remove index => if urls.length > 1 then urls.eraseIdx index else urls

/-- The `urls` state after a sequence of user actions, from the initial state `['']`. -/
def urlsAfter (actions : List UrlAction) : List String :=
  actions.foldl urlStep [""]

/-- A parser for the URLs of the examples: the scheme is the text before the first
"://", which must be non-empty and made of letters; the rest is kept as host name. -/
def exampleParse (s : String) : Option URLRecord :=
  let scheme := s.data.takeWhile Char.isAlpha
  let rest := s.data.dropWhile Char.isAlpha
  match rest with
  | ':' :: '/' :: '/' :: host =>
    if scheme.isEmpty || host.isEmpty then none
    else some { protocol := String.mk (scheme.map Char.toLower ++ [':'])
                hostname := String.mk host, pathname := "/", search := "" }
  | _ => none

/-- Four results rated "Good", null, "good" and "Fast". -/
def mixedRatingRows : List UrlResult :=
  [rowOf "a" (some "Good") [], rowOf "b" none [], rowOf "c" (some "good") [],
   rowOf "d" (some "Fast") []]

/-- The same URL entered twice, the second time with a leading blank. -/
def repeatedUrls : List String := ["https://a.example", " https://a.example"]

/-- An http URL, an empty entry and an entry without scheme. -/
def mixedUrls : List String := ["https://b.example", "", "a.example"]

/-! ## Rating percentages of `DataTable` (DataTable.js, lines 379-381)

The expression `((count / totalUrls) * 100).toFixed(1)` works on binary64 numbers.
A binary64 operation returns the exact result rounded to 53 significant bits, ties
to even; the values here lie far inside the exponent range, which is not modelled. -/

/-- Rounding of a rational to the nearest integer, ties to the even one. -/
def roundHalfEven (q : ℚ) : ℤ :=
  let f := ⌊q⌋
  let r := q - f
  if r < 1 / 2 then f else if 1 / 2 < r then f + 1 else if f % 2 = 0 then f else f + 1

/-- Rounding of an exact result to binary64: 53 significant bits, ties to even. -/
def roundDouble (q : ℚ) : ℚ :=
  if q = 0 then 0
  else
    let e := Int.log 2 |q| - 52
    (roundHalfEven (q / (2 : ℚ) ^ e) : ℚ) * (2 : ℚ) ^ e

/-- The method `Number.prototype.toFixed(1)` for a number below `10^21`: the integer
`n` for which `n / 10` is nearest to the number, the larger one of two, written with
the decimal point in front of its last digit. -/
def toFixed1 (x : ℚ) : String :=
  let n := (⌊|x| * 10 + 1 / 2⌋).toNat
  (if x < 0 then "-" else "") ++ toString (n / 10) ++ "." ++ toString (n % 10)

/-- The binary64 value of `(count / totalUrls) * 100`. -/
def percentageValue (count totalUrls : ℕ) : ℚ :=
  roundDouble (roundDouble ((count : ℚ) / (totalUrls : ℚ)) * 100)

/-- The string `((count / totalUrls) * 100).toFixed(1)`. -/
def percentageString (count totalUrls : ℕ) : String :=
  toFixed1 (percentageValue count totalUrls)

/-- The percentage as the specification words it: the exact value of
`count / total * 100`, rounded to one decimal place (a value halfway goes up). -/
def exactPercentageString (count total : ℕ) : String :=
  toFixed1 ((count : ℚ) / (total : ℚ) * 100)

/-- The percentage fields of the object returned by `summaryStats`. -/
structure SummaryPercentages where
  goodPercentage : String
  needsImprovementPercentage : String
  poorPercentage : String
  deriving DecidableEq

/-- The percentage fields of `summaryStats` for the `data` prop, computed from the
counts behind the same guard; `none` is the `null` returned for absent or empty
results. -/
def summaryPercentages (data : Option AnalysisResponse) : Option SummaryPercentages :=
  (summaryStats data).map fun s =>
    { goodPercentage := percentageString s.goodCount s.totalUrls
      needsImprovementPercentage := percentageString s.needsImprovementCount s.totalUrls
      poorPercentage := percentageString s.poorCount s.totalUrls }

/-- Three results rated "Good", "Good" and "Poor". -/
def twoGoodOnePoor : List UrlResult :=
  [rowOf "a" (some "Good") [], rowOf "b" (some "Good") [], rowOf "c" (some "Poor") []]

/-- Eighty results, 23 of them rated "Good" and 57 rated "Poor". -/
def eightyRows : List UrlResult :=
  List.replicate 23 (rowOf "g" (some "Good") []) ++ List.replicate 57 (rowOf "p" (some "Poor") [])

/-- Five entries: two URLs, the first one again with a leading blank, an entry without
scheme and an empty entry. -/
def entriesWithRepeat : List String :=
  ["https://b.example", "https://a.example", " https://b.example", "x", ""]

/-- Twelve presses of "Add Another URL". -/
def twelveAdds : List UrlAction := List.replicate 12 UrlAction.add

/-! ## Request submission (api.js, lines 58-97) -/

/-- The `urls` argument of `analyzeURLs`: an array of strings, or a value that is falsy
or not an array. -/
inductive UrlsArg where
  | notArray
  | array (entries : List String)
  deriving DecidableEq

/-- The body that `analyzeURLs` posts to `/analyze/`. -/
structure AnalyzeRequest where
  urls : List String
  form_factor : FormFactor
  deriving DecidableEq

/-- The function `analyzeURLs` up to the `api.post` call: the posted body, or the message
of the `Error` it throws before posting.  `parseURL` stands for `new URL(url)`. -/
def analyzeURLs (parseURL : String → Option URLRecord) (urls : UrlsArg)
    (formFactor : FormFactor) : Except String AnalyzeRequest :=
  match urls with
  | .notArray => .error "At least one URL is required"
  | .array entries =>
    if entries.length == 0 then .error "At least one URL is required"
    else if entries.length > 10 then .error "Maximum 10 URLs allowed per request"
    else
      let validUrls := entries.filter (fun url => (parseURL url).isSome)
      if validUrls.length == 0 then .error "No valid URLs provided"
      else .ok { urls := validUrls, form_factor := formFactor }

/-! ## Dynamic schema: columns, rows and sortable fields
(DataTable.js, lines 239-361; FilterSort.js, lines 35-48) -/

/-- Number of UTF-16 code units of a character. -/
def utf16Size (c : Char) : ℕ := if c.toNat < 0x10000 then 1 else 2

/-- The `length` of a JavaScript string: its number of UTF-16 code units. -/
def jsLength (s : String) : ℕ := (s.data.map utf16Size).sum

/-- The UTF-16 code units of a string. -/
def utf16Units (s : String) : List ℕ :=
  s.data.flatMap fun c =>
    if c.toNat < 0x10000 then [c.toNat]
    else [0xD800 + (c.toNat - 0x10000) / 0x400, 0xDC00 + (c.toNat - 0x10000) % 0x400]

/-- The expression `metricName.replace(/[^a-zA-Z0-9]/g, '_')`: the pattern has no
unicode flag, so every UTF-16 code unit outside the class becomes one underscore. -/
def sanitizeKey (metricName : String) : String :=
  String.mk (metricName.data.flatMap fun c =>
    if c.isAlphanum then [c] else List.replicate (utf16Size c) '_')

/-- The members of a grid column that depend on the data. -/
structure GridColumn where
  field : String
  headerName : String
  deriving DecidableEq

/-- The set `allMetrics` of `columns`, as an array: every `metric_name` of every result
is added to a `Set` in traversal order. -/
def allMetrics (results : List UrlResult) : List String :=
  uniqueValues (results.flatMap fun result => result.metrics.map fun metric => metric.metric_name)

/-- The array `metricColumns` of `columns`. -/
def metricColumns (results : List UrlResult) : List GridColumn :=
  (allMetrics results).map fun metricName =>
    { field := sanitizeKey metricName, headerName := metricName }

/-- The array `baseColumns` of `columns`. -/
def baseColumns : List GridColumn :=
  [ { field := "url", headerName := "URL" },
    { field := "form_factor", headerName := "Device" },
    { field := "overall_performance", headerName := "Overall Rating" } ]

/-- The memo `columns` of `DataTable`. -/
def columns (data : Option AnalysisResponse) : List GridColumn :=
  match data with
  | none => []
  | some d => if d.results.length == 0 then [] else baseColumns ++ metricColumns d.results

/-- Three-way comparison of two sequences of code units. -/
def compareUnits : List ℕ → List ℕ → Int
  | [], [] => 0
  | [], _ :: _ => -1
  | _ :: _, [] => 1
  | a :: as, b :: bs =>
    if a < b then -1
    else if b < a then 1
    else compareUnits as bs

/-- The method `Array.prototype.sort()` without comparator on strings: ascending by
UTF-16 code units.  This order is total, so every stable sort returns the same list. -/
def defaultSort (xs : List String) : List String :=
  xs.insertionSort fun a b => compareUnits (utf16Units a) (utf16Units b) ≤ 0

/-- The memo `availableMetrics` of `FilterSort` for its `data` prop. -/
def availableMetrics (data : List UrlResult) : List String :=
  if data.length == 0 then []
  else
    defaultSort (uniqueValues (data.flatMap fun result =>
      (result.metrics.filter fun metric => metric.p75_value.isSome).map
        fun metric => metric.metric_name))

/-- A property value of a grid row. -/
inductive RowValue where
  | index (n : ℕ)
  | text (s : String)
  | device (f : FormFactor)
  | rating (r : Option String)
  | samples (l : List MetricSample)
  | sample (m : MetricSample)
  deriving DecidableEq

/-- Assignment `obj[key] = value` on an object given as its list of own properties: an
existing key keeps its place and takes the new value, a new key goes to the end. -/
def setProp (obj : List (String × RowValue)) (key : String) (value : RowValue) :
    List (String × RowValue) :=
  match obj with
  | [] => [(key, value)]
  | (k, v) :: rest => if k == key then (k, value) :: rest else (k, v) :: setProp rest key value

/-- Property read `obj[key]`, `none` for `undefined`. -/
def getProp (obj : List (String × RowValue)) (key : String) : Option RowValue :=
  (obj.find? fun p => p.1 == key).map fun p => p.2

/-- The accumulator of `result.metrics?.reduce(...)`: one property per sanitized metric
name, holding the last sample with that key. -/
def metricProps (metrics : List MetricSample) : List (String × RowValue) :=
  metrics.foldl (fun acc metric => setProp acc (sanitizeKey metric.metric_name) (.sample metric)) []

/-- One element of the memo `rows`: the object literal lists the base properties first
and spreads the metric properties after them. -/
def gridRow (index : ℕ) (result : UrlResult) : List (String × RowValue) :=
  (metricProps result.metrics).foldl (fun obj p => setProp obj p.1 p.2)
    [ ("id", .index index), ("url", .text result.url), ("form_factor", .device result.form_factor),
      ("overall_performance", .rating result.overall_performance),
      ("metrics", .samples result.metrics), ("created_at", .text result.created_at) ]

/-- The memo `rows` of `DataTable`. -/
def rows (data : Option AnalysisResponse) : List (List (String × RowValue)) :=
  match data with
  | none => []
  | some d =>
    if d.results.length == 0 then []
    else d.results.enum.map fun p => gridRow p.1 p.2

/-! ## Display helpers (api.js, lines 141-209)

Strings of this section are taken from the Basic Multilingual Plane, where a character
is one UTF-16 code unit, so that `length` and `slice` count characters. -/

/-- The method `String.prototype.slice(start)`: a negative `start` counts from the end. -/
def sliceFrom (s : List Char) (start : ℤ) : List Char :=
  if start < 0 then s.drop ((s.length : ℤ) + start).toNat else s.drop start.toNat

/-- The method `String.prototype.slice(0, end)`: a negative `end` counts from the end. -/
def slicePrefix (s : List Char) (stop : ℤ) : List Char :=
  if stop < 0 then s.take ((s.length : ℤ) + stop).toNat else s.take stop.toNat

/-- The function `formatURL`; `parseURL` stands for `new URL(url)`, whose failure is
caught by the `catch` block. -/
def formatURL (parseURL : String → Option URLRecord) (url : String) (maxLength : ℕ) : String :=
  if url.length ≤ maxLength then url
  else
    match parseURL url with
    | some urlObj =>
      let domain := urlObj.hostname
      let path := urlObj.pathname ++ urlObj.search
      if domain.length + path.length ≤ maxLength then domain ++ path
      else if (path.length : ℤ) ≤ (maxLength : ℤ) - (domain.length : ℤ) - 3 then domain ++ path
      else
        domain ++ "..." ++
          String.mk (sliceFrom path.data (-((maxLength : ℤ) - (domain.length : ℤ) - 6)))
    | none =>
      if url.length > maxLength then
        String.mk (slicePrefix url.data ((maxLength : ℤ) - 3)) ++ "..."
      else url

/-- The function `getPerformanceColor`: a `switch` with strict equality on
`performance?.toLowerCase()`, which is `undefined` for a null rating. -/
def getPerformanceColor (performance : Option String) : String :=
  let key := performance.map toLowerCase
  if key = some "good" then "#4caf50"
  else if key = some "needs improvement" then "#ff9800"
  else if key = some "poor" then "#f44336"
  else "#9e9e9e"

/-- The `value` argument of `formatMetricValue`: null or undefined, a string, or a
finite number. -/
inductive MetricArg where
  | absent
  | text (s : String)
  | number (x : ℚ)
  deriving DecidableEq

/-- A number below one hundred written with two digits. -/
def pad2 (m : ℕ) : String := (if m < 10 then "0" else "") ++ toString m

/-- The method `Number.prototype.toFixed(2)` for a number below `10^21`: the integer
`n` for which `n / 100` is nearest to the number, the larger one of two, written with
the decimal point in front of its last two digits. -/
def toFixed2 (x : ℚ) : String :=
  let n := (⌊|x| * 100 + 1 / 2⌋).toNat
  (if x < 0 then "-" else "") ++ toString (n / 100) ++ "." ++ pad2 (n % 100)

/-- The string conversion of the template literal for an integer of magnitude below
`10^21`: its decimal digits after the sign. -/
def integerToString (x : ℚ) : String :=
  (if x < 0 then "-" else "") ++ toString (⌊|x|⌋).toNat

/-- A comma after every third digit of a reversed sequence of digits that has more
digits to follow. -/
def insertCommas : List Char → List Char
  | a :: b :: c :: d :: rest => a :: b :: c :: ',' :: insertCommas (d :: rest)
  | l => l

/-- The integer digits of the `en-US` number format: groups of three from the right,
separated by commas. -/
def groupThousands (n : ℕ) : String :=
  String.mk (insertCommas (Nat.toDigits 10 n).reverse).reverse

/-- The fraction of the `en-US` number format for `m` thousandths, `m < 1000`: at most
three digits, trailing zeros dropped, nothing at all for zero. -/
def fractionDigits (m : ℕ) : String :=
  if m = 0 then ""
  else if m % 100 = 0 then "." ++ toString (m / 100)
  else if m % 10 = 0 then "." ++ pad2 (m / 10)
  else "." ++ (if m < 100 then "0" else "") ++ pad2 m

/-- The method `Number.prototype.toLocaleString()` in the `en-US` locale with the default
options: the number is rounded to the nearest thousandth, the larger magnitude of two,
the integer digits are grouped and a fraction is printed without trailing zeros.  The
exact value is rounded, as ECMA-402 words it; engines round the shortest decimal form of
the number, which gives the same digits unless the number lies within its rounding error
of a value halfway between two thousandths. -/
def toLocaleString (x : ℚ) : String :=
  let n := (⌊|x| * 1000 + 1 / 2⌋).toNat
  (if x < 0 then "-" else "") ++ groupThousands (n / 1000) ++ fractionDigits (n % 1000)

/-- The remainder `value % 1`, which has the sign of `value`. -/
def remainderOne (x : ℚ) : ℚ := if 0 ≤ x then x - ⌊x⌋ else x - ⌈x⌉

/-- The function `formatMetricValue`. -/
def formatMetricValue (value : MetricArg) (unit : String) : String :=
  match value with
  | .absent => "N/A"
  | .text s => s
  | .number x =>
    if x ≥ 1000 then toLocaleString x ++ unit
    else if remainderOne x ≠ 0 then toFixed2 x ++ unit
    else integerToString x ++ unit

/-- The default of the `unit` parameter of `formatMetricValue`. -/
def defaultUnit : String := "ms"

/-- A parser for the URLs of the examples that splits host name, path and query: the
scheme is the text before the first "://", the host name runs to the next "/", the path
to the next "?". -/
def examplePathParse (s : String) : Option URLRecord :=
  let scheme := s.data.takeWhile Char.isAlpha
  match s.data.dropWhile Char.isAlpha with
  | ':' :: '/' :: '/' :: rest =>
    let host := rest.takeWhile fun c => c != '/' && c != '?'
    let tail := rest.dropWhile fun c => c != '/' && c != '?'
    let path := tail.takeWhile fun c => c != '?'
    if scheme.isEmpty || host.isEmpty then none
    else some { protocol := String.mk (scheme.map Char.toLower ++ [':'])
                hostname := String.mk host
                pathname := String.mk (if path.isEmpty then ['/'] else path)
                search := String.mk (tail.dropWhile fun c => c != '?') }
  | _ => none

/-- A URL of 63 characters whose host name has 34 characters. -/
def longHostUrl : String :=
  "https://performance-dashboards.example.org/reports/2024/january"

/-- Twelve entries, none of which parses. -/
def twelveEntries : List String := List.replicate 12 "nope"

/-- Two results: the first reports "LCP" and "CLS", the second "CLS" again and "INP". -/
def schemaRows : List UrlResult :=
  [rowOf "https://a.example" (some "good") [sampleOf "LCP" (some 2400), sampleOf "CLS" none],
   rowOf "https://b.example" (some "poor") [sampleOf "CLS" (some 1), sampleOf "INP" (some 180)]]

/-- One result whose only metric "CLS" has a null `p75_value`. -/
def clsNullRows : List UrlResult :=
  [rowOf "https://a.example" (some "good") [sampleOf "CLS" none]]

/-- Whether a UTF-16 code unit is in the class `[a-zA-Z0-9]`. -/
def isAlphanumUnit (u : ℕ) : Bool :=
  (48 ≤ u && u ≤ 57) || (65 ≤ u && u ≤ 90) || (97 ≤ u && u ≤ 122)

/-- A result with metrics named "url", "id" and "form factor" next to "LCP". -/
def clashingRow : UrlResult :=
  rowOf "https://a.example" (some "good")
    [sampleOf "LCP" (some 2400), sampleOf "url" (some 1), sampleOf "id" (some 2),
     sampleOf "form factor" (some 3)]

/-- Whether a string consists of ASCII characters, on which `toLowerCase` above is the
lower-casing of JavaScript. -/
def isAscii (s : String) : Bool := s.data.all fun c => decide (c.toNat < 128)

/-- Whether the rating of a result is null or consists of ASCII characters. -/
def asciiRating (result : UrlResult) : Bool :=
  match result.overall_performance with
  | none => true
  | some p => isAscii p

/-! ## The sort of V8 on a short array

For an array of fewer than 64 elements the `Array.prototype.sort` of V8 (TimSort) is
one run, found by `CountAndMakeRun`, that `BinaryInsertionSort` extends over the whole
array; no runs are merged.  With a consistent comparator the result is that of `jsSort`;
with an inconsistent one it is the order that V8 produces. -/

/-- The loop of `CountAndMakeRun`: the number of elements after the first two that
continue the run; `previous` is the last element of the run so far. -/
def runTail {α : Type} (cmp : α → α → Option JSNum) (descending : Bool) :
    α → List α → Option ℕ
  | _, [] => some 0
  | previous, current :: rest =>
    match cmp current previous with
    | none => none
    | some order =>
      if descending then
        if order.isNegative then (runTail cmp descending current rest).map (· + 1)
        else some 0
      else
        if order.isNegative then some 0
        else (runTail cmp descending current rest).map (· + 1)

/-- The function `CountAndMakeRun` at the start of the array: the first run, reversed
when it is strictly descending, and the elements after it.  The first comparison is
`Compare(a[1], a[0])`. -/
def countAndMakeRun {α : Type} (cmp : α → α → Option JSNum) :
    List α → Option (List α × List α)
  | [] => some ([], [])
  | [x] => some ([x], [])
  | x :: y :: rest =>
    match cmp y x with
    | none => none
    | some order =>
      match runTail cmp order.isNegative y rest with
      | none => none
      | some n =>
        some (if order.isNegative then (x :: y :: rest.take n).reverse
              else x :: y :: rest.take n, rest.drop n)

/-- The binary search of `BinaryInsertionSort`: while `left < right` the pivot is
compared with the element at `mid = left + ((right - left) >> 1)`; a negative order
continues in the left half, any other in the right half.  `fuel` bounds the number of
rounds. -/
def searchLeft {α : Type} (cmp : α → α → Option JSNum) (pivot : α) (sorted : List α) :
    ℕ → ℕ → ℕ → Option ℕ
  | 0, left, _ => some left
  | fuel + 1, left, right =>
    if left < right then
      match sorted[left + (right - left) / 2]? with
      | none => some left
      | some element =>
        match cmp pivot element with
        | none => none
        | some order =>
          if order.isNegative then searchLeft cmp pivot sorted fuel left (left + (right - left) / 2)
          else searchLeft cmp pivot sorted fuel (left + (right - left) / 2 + 1) right
    else some left

/-- One round of `BinaryInsertionSort`: the pivot is inserted into the sorted prefix at
the position found by the binary search. -/
def binaryInsert {α : Type} (cmp : α → α → Option JSNum) (sorted : List α) (pivot : α) :
    Option (List α) :=
  (searchLeft cmp pivot sorted sorted.length 0 sorted.length).map fun left =>
    sorted.take left ++ pivot :: sorted.drop left

/-- The sort of V8 on an array of fewer than 64 elements. -/
def v8Sort {α : Type} (cmp : α → α → Option JSNum) (xs : List α) : Option (List α) :=
  match countAndMakeRun cmp xs with
  | none => none
  | some (run, rest) => rest.foldlM (binaryInsert cmp) run

/-- Six results rated "slow", null, "poor", "good", "good" and "poor". -/
def sixRatedRows : List UrlResult :=
  [rowOf "u0" (some "slow") [], rowOf "u1" none [], rowOf "u2" (some "poor") [],
   rowOf "u3" (some "good") [], rowOf "u4" (some "good") [], rowOf "u5" (some "poor") []]

end Crux

namespace Crux

/-! ## Basic facts about the JavaScript primitives -/

theorem truthyStr_iff (s : String) : truthyStr s = true ↔ s ≠ "" := by
  simp [truthyStr]

theorem truthyNum_iff (q : ℚ) : truthyNum q = true ↔ q ≠ 0 := by
  simp [truthyNum]

theorem performanceGuard_of_set (filters : Filters) (pf : String)
    (h : filters.performanceFilter = some pf) (h1 : pf ≠ "") (h2 : pf ≠ "all") :
    performanceGuard filters = true := by
  simp [performanceGuard, h, truthyStr, h1, h2]

theorem thresholdGuard_of_set (filters : Filters) (t : MetricThreshold)
    (h : filters.metricThreshold = some t) (h1 : t.metric ≠ "") (h2 : t.value ≠ 0) :
    thresholdGuard filters = true := by
  simp [thresholdGuard, h, truthyStr, truthyNum, h1, h2]

theorem performanceStep_sublist (filters : Filters) (results : List UrlResult) :
    (performanceStep filters results).Sublist results := by
  unfold performanceStep
  split
  · exact List.Sublist.refl _
  · split
    · exact List.filter_sublist _
    · exact List.Sublist.refl _

theorem thresholdStep_sublist (filters : Filters) (results : List UrlResult) :
    (thresholdStep filters results).Sublist results := by
  unfold thresholdStep
  split
  · exact List.Sublist.refl _
  · split
    · exact List.filter_sublist _
    · exact List.Sublist.refl _

theorem filterStep_sublist (filters : Filters) (results : List UrlResult) :
    (filterStep filters results).Sublist results :=
  (thresholdStep_sublist _ _).trans (performanceStep_sublist _ _)

/-- What the threshold callback accepts: the first sample with the requested name has
a value that is neither null nor zero and does not exceed the threshold. -/
theorem passesThreshold_iff (t : MetricThreshold) (r : UrlResult) :
    passesThreshold t r = true ↔
      ∃ m v, r.metrics.find? (fun m => m.metric_name == t.metric) = some m ∧
        m.p75_value = some v ∧ v ≠ 0 ∧ v ≤ t.value := by
  unfold passesThreshold
  cases hfind : r.metrics.find? (fun m => m.metric_name == t.metric) with
  | none => simp
  | some m =>
    cases hv : m.p75_value with
    | none => simp [hv]
    | some v => simp [hv, truthyNum]

/-! ## Metric threshold (C1, C2, C3) -/

/-- C1, completeness of the metric-threshold filter, fails on a zero value: the row
whose "Cumulative Layout Shift (CLS)" sample has `p75_value = 0` has a non-null value
below the threshold 1, yet the filter step drops it, because the callback tests
`metric.p75_value` for truthiness. -/
theorem threshold_drops_zero_value :
    (sampleOf "Cumulative Layout Shift (CLS)" (some 0)) ∈ clsZeroRow.metrics ∧
      (0 : ℚ) ≤ 1 ∧
      filterStep (thresholdOnly "Cumulative Layout Shift (CLS)" 1) [clsZeroRow] = [] := by
  refine ⟨by decide, by norm_num, by decide⟩

/-- Completeness of the metric-threshold filter for the values the callback can
accept: a result that passes the performance statement and whose first sample named
`t.metric` has a non-null, non-zero value not above the threshold is kept. -/
theorem threshold_keeps_nonzero (filters : Filters) (results : List UrlResult)
    (t : MetricThreshold) (r : UrlResult) (m : MetricSample) (v : ℚ)
    (ht : filters.metricThreshold = some t)
    (hr : r ∈ performanceStep filters results)
    (hm : r.metrics.find? (fun m => m.metric_name == t.metric) = some m)
    (hv : m.p75_value = some v) (hv0 : v ≠ 0) (hle : v ≤ t.value) :
    r ∈ filterStep filters results := by
  unfold filterStep thresholdStep
  rw [ht]
  simp only
  split
  · rw [List.mem_filter]
    exact ⟨hr, (passesThreshold_iff t r).2 ⟨m, v, hm, hv, hv0, hle⟩⟩
  · exact hr

/-- C2, soundness of the metric-threshold filter: with a threshold that names a metric
and has a non-zero value, every result kept by the filter step is a result of the
input whose first sample of that name has a non-null value not above the threshold;
a result without such a sample, with a null value or with a larger value is dropped. -/
theorem threshold_sound (filters : Filters) (results : List UrlResult) (t : MetricThreshold)
    (ht : filters.metricThreshold = some t) (hmetric : t.metric ≠ "") (hvalue : t.value ≠ 0)
    (r : UrlResult) :
    (r ∈ filterStep filters results →
      r ∈ results ∧
      ∃ m v, m ∈ r.metrics ∧ m.metric_name = t.metric ∧
        r.metrics.find? (fun m => m.metric_name == t.metric) = some m ∧
        m.p75_value = some v ∧ v ≤ t.value) ∧
    ((∀ m ∈ r.metrics, m.metric_name ≠ t.metric) → r ∉ filterStep filters results) ∧
    (∀ m, r.metrics.find? (fun m => m.metric_name == t.metric) = some m →
      m.p75_value = none → r ∉ filterStep filters results) ∧
    (∀ m v, r.metrics.find? (fun m => m.metric_name == t.metric) = some m →
      m.p75_value = some v → t.value < v → r ∉ filterStep filters results) := by
  have hg := thresholdGuard_of_set filters t ht hmetric hvalue
  have key : r ∈ filterStep filters results →
      r ∈ results ∧ ∃ m v, r.metrics.find? (fun m => m.metric_name == t.metric) = some m ∧
        m.p75_value = some v ∧ v ≠ 0 ∧ v ≤ t.value := by
    intro h
    refine ⟨(filterStep_sublist filters results).subset h, ?_⟩
    unfold filterStep thresholdStep at h
    rw [ht] at h
    simp only [hg, if_true] at h
    exact (passesThreshold_iff t r).1 (List.mem_filter.1 h).2
  refine ⟨?_, ?_, ?_, ?_⟩
  · intro h
    obtain ⟨hin, m, v, hfind, hv, _, hle⟩ := key h
    refine ⟨hin, m, v, List.mem_of_find?_eq_some hfind, ?_, hfind, hv, hle⟩
    have := List.find?_some hfind
    simpa using this
  · intro hnone h
    obtain ⟨_, m, v, hfind, _, _, _⟩ := key h
    have hname := List.find?_some hfind
    exact hnone m (List.mem_of_find?_eq_some hfind) (by simpa using hname)
  · intro m hfind hnull h
    obtain ⟨_, m1, v, hfind1, hv, _, _⟩ := key h
    rw [hfind] at hfind1
    cases hfind1
    rw [hnull] at hv
    cases hv
  · intro m v hfind hv hlt h
    obtain ⟨_, m1, v1, hfind1, hv1, _, hle⟩ := key h
    rw [hfind] at hfind1
    cases hfind1
    rw [hv] at hv1
    cases hv1
    exact absurd hle (not_le.2 hlt)

/-- Witness of C2: the threshold 2500 on "Largest Contentful Paint (LCP)" over the rows
a = 1800, b = 3200 and c without samples yields exactly the row a, and that row
satisfies the soundness statement. -/
theorem threshold_sound_witness :
    filterStep (thresholdOnly "Largest Contentful Paint (LCP)" 2500) lcpRows =
        [rowOf "a" none [sampleOf "Largest Contentful Paint (LCP)" (some 1800)]] ∧
      (rowOf "a" none [sampleOf "Largest Contentful Paint (LCP)" (some 1800)] ∈ lcpRows ∧
        ∃ m v, m ∈ (rowOf "a" none
              [sampleOf "Largest Contentful Paint (LCP)" (some 1800)]).metrics ∧
          m.metric_name = "Largest Contentful Paint (LCP)" ∧
          (rowOf "a" none [sampleOf "Largest Contentful Paint (LCP)" (some 1800)]).metrics.find?
              (fun m => m.metric_name == "Largest Contentful Paint (LCP)") = some m ∧
          m.p75_value = some v ∧ v ≤ 2500) :=
  ⟨by decide,
   (threshold_sound (thresholdOnly "Largest Contentful Paint (LCP)" 2500) lcpRows
      { metric := "Largest Contentful Paint (LCP)", value := 2500 } rfl (by decide) (by decide)
      (rowOf "a" none [sampleOf "Largest Contentful Paint (LCP)" (some 1800)])).1 (by decide)⟩

/-- C3 fails: a threshold whose value is the number 0 does not count as set.  The
guard tests `filters.metricThreshold.value` for truthiness, the threshold statement
is skipped, and the row whose sample has `p75_value = 5 > 0` stays in the output. -/
theorem zero_threshold_not_applied :
    thresholdGuard (thresholdOnly "Cumulative Layout Shift (CLS)" 0) = false ∧
      clsFiveRow.metrics.find? (fun m => m.metric_name == "Cumulative Layout Shift (CLS)") =
        some (sampleOf "Cumulative Layout Shift (CLS)" (some 5)) ∧
      filterStep (thresholdOnly "Cumulative Layout Shift (CLS)" 0) [clsFiveRow] =
        [clsFiveRow] := by
  refine ⟨by decide, by decide, by decide⟩

end Crux

namespace Crux

/-! ## The insertion sort -/

section SortLemmas
variable {α : Type}

theorem insertPivot_perm (cmp : α → α → Option JSNum) (p : α) :
    ∀ (l r : List α), insertPivot cmp p l = some r → r.Perm (p :: l) := by
  intro l
  induction l with
  | nil =>
    intro r h
    simp [insertPivot] at h
    subst h
    exact List.Perm.refl _
  | cons y ys ih =>
    intro r h
    unfold insertPivot at h
    cases hc : cmp p y with
    | none => simp [hc] at h
    | some v =>
      simp only [hc] at h
      by_cases hneg : v.isNegative = true
      · simp only [hneg, if_true, Option.map_eq_some'] at h
        obtain ⟨r1, hr1, rfl⟩ := h
        exact ((ih r1 hr1).cons y).trans (List.Perm.swap p y ys)
      · simp only [hneg] at h
        simp at h
        subst h
        exact List.Perm.refl _

theorem insertPivot_sublist (cmp : α → α → Option JSNum) (p : α) :
    ∀ (l r : List α), insertPivot cmp p l = some r → l.Sublist r := by
  intro l
  induction l with
  | nil =>
    intro r _
    exact List.nil_sublist r
  | cons y ys ih =>
    intro r h
    unfold insertPivot at h
    cases hc : cmp p y with
    | none => simp [hc] at h
    | some v =>
      simp only [hc] at h
      by_cases hneg : v.isNegative = true
      · simp only [hneg, if_true, Option.map_eq_some'] at h
        obtain ⟨r1, hr1, rfl⟩ := h
        exact (ih r1 hr1).cons₂ y
      · simp only [hneg] at h
        simp at h
        subst h
        exact List.sublist_cons_self p (y :: ys)

/-- The pivot ends up in front of (that is, later in the array than) every element of
the sorted prefix against which the comparator is not negative. -/
theorem insertPivot_pair (cmp : α → α → Option JSNum) (p a : α) (v : JSNum)
    (hv : cmp p a = some v) (hnn : v.isNegative = false) :
    ∀ (l r : List α), insertPivot cmp p l = some r → a ∈ l → [p, a].Sublist r := by
  intro l
  induction l with
  | nil =>
    intro r _ ha
    simp at ha
  | cons y ys ih =>
    intro r h ha
    unfold insertPivot at h
    cases hc : cmp p y with
    | none => simp [hc] at h
    | some w =>
      simp only [hc] at h
      by_cases hneg : w.isNegative = true
      · simp only [hneg, if_true, Option.map_eq_some'] at h
        obtain ⟨r1, hr1, rfl⟩ := h
        rcases List.mem_cons.1 ha with rfl | hin
        · rw [hv] at hc
          cases hc
          rw [hnn] at hneg
          cases hneg
        · exact (ih r1 hr1 hin).cons y
      · simp only [hneg] at h
        simp at h
        subst h
        exact List.Sublist.cons₂ p (List.singleton_sublist.2 ha)

theorem foldlM_insertPivot_perm (cmp : α → α → Option JSNum) :
    ∀ (xs acc F : List α),
      xs.foldlM (fun sortedRev pivot => insertPivot cmp pivot sortedRev) acc = some F →
      F.Perm (xs ++ acc) := by
  intro xs
  induction xs with
  | nil =>
    intro acc F h
    simp at h
    subst h
    exact List.Perm.refl _
  | cons x rest ih =>
    intro acc F h
    rw [List.foldlM_cons] at h
    cases hi : insertPivot cmp x acc with
    | none => simp [hi] at h
    | some acc1 =>
      simp only [hi, Option.bind_eq_bind, Option.some_bind] at h
      have h1 := ih acc1 F h
      have h2 := insertPivot_perm cmp x acc acc1 hi
      exact h1.trans ((List.Perm.append_left rest h2).trans List.perm_middle)

theorem jsSort_perm (cmp : α → α → Option JSNum) (xs out : List α)
    (h : jsSort cmp xs = some out) : out.Perm xs := by
  unfold jsSort at h
  simp only [Option.map_eq_some'] at h
  obtain ⟨F, hF, rfl⟩ := h
  have := foldlM_insertPivot_perm cmp xs [] F hF
  simpa using (List.reverse_perm F).trans this

theorem foldlM_insertPivot_stable (cmp : α → α → Option JSNum) :
    ∀ (xs acc F : List α),
      xs.foldlM (fun sortedRev pivot => insertPivot cmp pivot sortedRev) acc = some F →
      acc.Sublist F ∧
      ∀ a b v, cmp b a = some v → v.isNegative = false →
        ([a, b].Sublist xs ∨ (a ∈ acc ∧ b ∈ xs)) → [b, a].Sublist F := by
  intro xs
  induction xs with
  | nil =>
    intro acc F h
    simp at h
    subst h
    refine ⟨List.Sublist.refl _, ?_⟩
    intro a b v _ _ hcase
    rcases hcase with h1 | ⟨_, h2⟩
    · simp at h1
    · simp at h2
  | cons x rest ih =>
    intro acc F h
    rw [List.foldlM_cons] at h
    cases hi : insertPivot cmp x acc with
    | none => simp [hi] at h
    | some acc1 =>
      simp only [hi, Option.bind_eq_bind, Option.some_bind] at h
      obtain ⟨hsub, hpairs⟩ := ih acc1 F h
      have hacc : acc.Sublist acc1 := insertPivot_sublist cmp x acc acc1 hi
      have hx : x ∈ acc1 := (insertPivot_perm cmp x acc acc1 hi).symm.subset (List.mem_cons_self x acc)
      refine ⟨hacc.trans hsub, ?_⟩
      intro a b v hv hnn hcase
      rcases hcase with hab | ⟨ha, hb⟩
      · cases hab with
        | cons _ hab1 => exact hpairs a b v hv hnn (Or.inl hab1)
        | cons₂ _ hb1 =>
          exact hpairs _ b v hv hnn (Or.inr ⟨hx, List.singleton_sublist.1 hb1⟩)
      · rcases List.mem_cons.1 hb with rfl | hb1
        · exact (insertPivot_pair cmp b a v hv hnn acc acc1 hi ha).trans hsub
        · exact hpairs a b v hv hnn (Or.inr ⟨hacc.subset ha, hb1⟩)

/-- Stability of the sort: two elements of which the earlier one is `a`, and for which
the comparator called on (later, earlier) is not negative, keep their order. -/
theorem jsSort_stable (cmp : α → α → Option JSNum) (xs out : List α) (a b : α) (v : JSNum)
    (h : jsSort cmp xs = some out) (hab : [a, b].Sublist xs)
    (hv : cmp b a = some v) (hnn : v.isNegative = false) : [a, b].Sublist out := by
  unfold jsSort at h
  simp only [Option.map_eq_some'] at h
  obtain ⟨F, hF, rfl⟩ := h
  have := (foldlM_insertPivot_stable cmp xs [] F hF).2 a b v hv hnn (Or.inl hab)
  have h2 := List.reverse_sublist.2 this
  simpa using h2

theorem insertPivot_total (cmp : α → α → Option JSNum) (p : α) :
    ∀ (l : List α), (∀ y ∈ l, ∃ v, cmp p y = some v) → ∃ r, insertPivot cmp p l = some r := by
  intro l
  induction l with
  | nil =>
    intro _
    exact ⟨[p], rfl⟩
  | cons y ys ih =>
    intro hall
    obtain ⟨v, hv⟩ := hall y (List.mem_cons_self y ys)
    obtain ⟨r1, hr1⟩ := ih (fun z hz => hall z (List.mem_cons_of_mem y hz))
    unfold insertPivot
    by_cases hneg : v.isNegative = true
    · exact ⟨y :: r1, by simp [hv, hneg, hr1]⟩
    · exact ⟨p :: y :: ys, by simp [hv, hneg]⟩

theorem foldlM_insertPivot_total (cmp : α → α → Option JSNum) :
    ∀ (xs acc : List α),
      (∀ a ∈ xs, ∀ b ∈ xs ++ acc, ∃ v, cmp a b = some v) →
      ∃ F, xs.foldlM (fun sortedRev pivot => insertPivot cmp pivot sortedRev) acc = some F := by
  intro xs
  induction xs with
  | nil =>
    intro acc _
    exact ⟨acc, rfl⟩
  | cons x rest ih =>
    intro acc hall
    obtain ⟨acc1, h1⟩ := insertPivot_total cmp x acc
      (fun y hy => hall x (List.mem_cons_self x rest) y (by simp [hy]))
    have hperm := insertPivot_perm cmp x acc acc1 h1
    obtain ⟨F, hF⟩ := ih acc1 (by
      intro a ha b hb
      refine hall a (List.mem_cons_of_mem x ha) b ?_
      rcases List.mem_append.1 hb with hb1 | hb1
      · simp [hb1]
      · have := hperm.subset hb1
        rcases List.mem_cons.1 this with rfl | hb2
        · simp
        · simp [hb2])
    exact ⟨F, by rw [List.foldlM_cons, h1]; simpa using hF⟩

/-- The sort returns a list when the comparator does not throw on the elements. -/
theorem jsSort_total (cmp : α → α → Option JSNum) (xs : List α)
    (hall : ∀ a ∈ xs, ∀ b ∈ xs, ∃ v, cmp a b = some v) : ∃ out, jsSort cmp xs = some out := by
  obtain ⟨F, hF⟩ := foldlM_insertPivot_total cmp xs [] (by simpa using hall)
  exact ⟨F.reverse, by simp [jsSort, hF]⟩

theorem insertPivot_sorted (cmp : α → α → Option JSNum) (k : α → ℚ)
    (hk : ∀ a b, cmp a b = some (JSNum.num (k a - k b))) (p : α) :
    ∀ (l r : List α), l.Pairwise (fun x y => k y ≤ k x) → insertPivot cmp p l = some r →
      r.Pairwise (fun x y => k y ≤ k x) := by
  intro l
  induction l with
  | nil =>
    intro r _ h
    simp [insertPivot] at h
    subst h
    simp
  | cons y ys ih =>
    intro r hl h
    unfold insertPivot at h
    rw [hk p y] at h
    simp only at h
    rw [List.pairwise_cons] at hl
    by_cases hneg : (JSNum.num (k p - k y)).isNegative = true
    · simp only [hneg, if_true, Option.map_eq_some'] at h
      obtain ⟨r1, hr1, rfl⟩ := h
      have hlt : k p < k y := by
        simp [JSNum.isNegative] at hneg
        linarith
      rw [List.pairwise_cons]
      refine ⟨?_, ih r1 hl.2 hr1⟩
      intro z hz
      have := (insertPivot_perm cmp p ys r1 hr1).subset hz
      rcases List.mem_cons.1 this with rfl | hz1
      · exact le_of_lt hlt
      · exact hl.1 z hz1
    · simp only [hneg] at h
      simp at h
      subst h
      have hge : k y ≤ k p := by
        simp [JSNum.isNegative] at hneg
        linarith
      rw [List.pairwise_cons]
      refine ⟨?_, List.pairwise_cons.2 hl⟩
      intro z hz
      rcases List.mem_cons.1 hz with rfl | hz1
      · exact hge
      · exact le_trans (hl.1 z hz1) hge

theorem foldlM_insertPivot_sorted (cmp : α → α → Option JSNum) (k : α → ℚ)
    (hk : ∀ a b, cmp a b = some (JSNum.num (k a - k b))) :
    ∀ (xs acc F : List α), acc.Pairwise (fun x y => k y ≤ k x) →
      xs.foldlM (fun sortedRev pivot => insertPivot cmp pivot sortedRev) acc = some F →
      F.Pairwise (fun x y => k y ≤ k x) := by
  intro xs
  induction xs with
  | nil =>
    intro acc F hacc h
    simp at h
    subst h
    exact hacc
  | cons x rest ih =>
    intro acc F hacc h
    rw [List.foldlM_cons] at h
    cases hi : insertPivot cmp x acc with
    | none => simp [hi] at h
    | some acc1 =>
      simp only [hi, Option.bind_eq_bind, Option.some_bind] at h
      exact ih acc1 F (insertPivot_sorted cmp k hk x acc acc1 hacc hi) h

/-- A comparator that subtracts numeric keys makes the sort return the permutation of
the input in which the keys do not decrease. -/
theorem jsSort_sorted_of_key (cmp : α → α → Option JSNum) (k : α → ℚ)
    (hk : ∀ a b, cmp a b = some (JSNum.num (k a - k b))) (xs : List α) :
    ∃ out, jsSort cmp xs = some out ∧ out.Perm xs ∧ out.Pairwise (fun x y => k x ≤ k y) := by
  obtain ⟨out, hout⟩ := jsSort_total cmp xs (fun a _ b _ => ⟨_, hk a b⟩)
  refine ⟨out, hout, jsSort_perm cmp xs out hout, ?_⟩
  unfold jsSort at hout
  simp only [Option.map_eq_some'] at hout
  obtain ⟨F, hF, rfl⟩ := hout
  have := foldlM_insertPivot_sorted cmp k hk xs [] F List.Pairwise.nil hF
  exact List.pairwise_reverse.2 this

end SortLemmas

end Crux

namespace Crux

/-! ## Facts about the sort step -/

theorem sortStep_perm (sortConfig : SortConfig) (results out : List UrlResult)
    (h : sortStep sortConfig results = some out) : out.Perm results := by
  unfold sortStep at h
  split at h
  · cases h
    exact List.Perm.refl _
  · split at h
    · exact jsSort_perm _ _ _ h
    · cases h
      exact List.Perm.refl _

theorem compareChars_self (cs : List Char) : compareChars cs cs = 0 := by
  induction cs with
  | nil => rfl
  | cons c cs ih => simp [compareChars, ih]

theorem localeCompare_self (s : String) : localeCompare s s = 0 :=
  compareChars_self s.data

/-- Equal sort keys make the comparator return zero. -/
theorem compareFn_of_sameSortKey (field direction : String) (a b : UrlResult)
    (h : sameSortKey field a b = true) :
    compareFn field direction a b = some (JSNum.num 0) := by
  unfold sameSortKey at h
  unfold compareFn
  by_cases hu : (field == "url") = true
  · simp only [hu, if_true] at h ⊢
    have hab : a.url = b.url := by simpa using h
    simp [compareUrl, hab, localeCompare_self]
  · by_cases hp : (field == "overall_performance") = true
    · simp only [hu, hp, if_true] at h ⊢
      have hab : a.overall_performance = b.overall_performance := by simpa using h
      rw [hab]
      cases b.overall_performance with
      | none => simp [compareRating, JSNum.sub]
      | some s => simp [compareRating, localeCompare_self]
    · simp only [hu, hp] at h ⊢
      have hab : metricKey field a = metricKey field b := by simpa using h
      simp [compareMetric, JSNum.sub, hab]

theorem sameSortKey_symm (field : String) (a b : UrlResult)
    (h : sameSortKey field a b = true) : sameSortKey field b a = true := by
  unfold sameSortKey at h ⊢
  by_cases hu : (field == "url") = true
  · simp only [hu, if_true] at h ⊢
    simpa using (by simpa using h : a.url = b.url).symm
  · by_cases hp : (field == "overall_performance") = true
    · simp only [hu, hp, if_true] at h ⊢
      simpa using (by simpa using h : a.overall_performance = b.overall_performance).symm
    · simp only [hu, hp] at h ⊢
      simpa using (by simpa using h : metricKey field a = metricKey field b).symm

/-- The comparator throws only on ratings: for another field it returns a number. -/
theorem compareFn_defined (field direction : String) (results : List UrlResult)
    (h : field ≠ "overall_performance" ∨ direction = "asc" ∨
      ∀ r ∈ results, r.overall_performance ≠ none) :
    ∀ a ∈ results, ∀ b ∈ results, ∃ v, compareFn field direction a b = some v := by
  intro a ha b hb
  unfold compareFn
  by_cases hu : (field == "url") = true
  · simp [hu]
  · by_cases hp : (field == "overall_performance") = true
    · simp only [hu, hp, if_true]
      have hfield : field = "overall_performance" := by simpa using hp
      rcases h with h | h | h
      · exact absurd hfield h
      · cases a.overall_performance <;> cases b.overall_performance <;>
          simp [compareRating, h]
      · have h1 := h a ha
        have h2 := h b hb
        cases ha1 : a.overall_performance with
        | none => exact absurd ha1 h1
        | some s =>
          cases hb1 : b.overall_performance with
          | none => exact absurd hb1 h2
          | some t =>
            by_cases hd : (direction == "asc") = true <;> simp [compareRating, hd]
    · simp [hu, hp]

end Crux

namespace Crux

/-! ## Filter and sort commute under a consistent comparator -/

section Commute
variable {α : Type}

theorem insertPivot_stop (cmp : α → α → Option JSNum) (s : α → α → ℚ)
    (hs : ∀ a b, cmp a b = some (JSNum.num (s a b))) (p : α) (l : List α)
    (h : ∀ z ∈ l, ¬ s p z < 0) : insertPivot cmp p l = some (p :: l) := by
  cases l with
  | nil => rfl
  | cons y ys =>
    have hy := h y (List.mem_cons_self y ys)
    simp [insertPivot, hs p y, JSNum.isNegative, hy]

theorem insertPivot_filter (cmp : α → α → Option JSNum) (s : α → α → ℚ)
    (hs : ∀ a b, cmp a b = some (JSNum.num (s a b)))
    (hasym : ∀ a b, s a b < 0 → ¬ s b a < 0)
    (hneg : ∀ a b c, ¬ s a b < 0 → ¬ s b c < 0 → ¬ s a c < 0)
    (q : α → Bool) (p : α) :
    ∀ (l r : List α), l.Pairwise (fun y z => ¬ s y z < 0) → insertPivot cmp p l = some r →
      r.Pairwise (fun y z => ¬ s y z < 0) ∧
      (q p = true → insertPivot cmp p (l.filter q) = some (r.filter q)) ∧
      (q p = false → r.filter q = l.filter q) := by
  intro l
  induction l with
  | nil =>
    intro r _ h
    simp [insertPivot] at h
    subst h
    refine ⟨by simp, ?_, ?_⟩
    · intro hq
      simp [insertPivot, hq]
    · intro hq
      simp [hq]
  | cons y ys ih =>
    intro r hl h
    rw [List.pairwise_cons] at hl
    unfold insertPivot at h
    rw [hs p y] at h
    simp only at h
    by_cases hlt : s p y < 0
    · have hneg1 : (JSNum.num (s p y)).isNegative = true := by simp [JSNum.isNegative, hlt]
      simp only [hneg1, if_true, Option.map_eq_some'] at h
      obtain ⟨r1, hr1, rfl⟩ := h
      obtain ⟨ih1, ih2, ih3⟩ := ih r1 hl.2 hr1
      refine ⟨?_, ?_, ?_⟩
      · rw [List.pairwise_cons]
        refine ⟨?_, ih1⟩
        intro z hz
        have := (insertPivot_perm cmp p ys r1 hr1).subset hz
        rcases List.mem_cons.1 this with rfl | hz1
        · exact hasym _ _ hlt
        · exact hl.1 z hz1
      · intro hq
        by_cases hqy : q y = true
        · simp [List.filter_cons, hqy, insertPivot, hs p y, hneg1, ih2 hq]
        · simp [List.filter_cons, hqy, ih2 hq]
      · intro hq
        simp [List.filter_cons, ih3 hq]
    · have hneg1 : (JSNum.num (s p y)).isNegative = false := by simp [JSNum.isNegative, hlt]
      simp only [hneg1] at h
      simp at h
      subst h
      have hall : ∀ z ∈ y :: ys, ¬ s p z < 0 := by
        intro z hz
        rcases List.mem_cons.1 hz with rfl | hz1
        · exact hlt
        · exact hneg p y z hlt (hl.1 z hz1)
      refine ⟨?_, ?_, ?_⟩
      · rw [List.pairwise_cons]
        exact ⟨hall, List.pairwise_cons.2 hl⟩
      · intro hq
        rw [List.filter_cons_of_pos hq]
        exact insertPivot_stop cmp s hs p _ (fun z hz => hall z (List.mem_of_mem_filter hz))
      · intro hq
        rw [List.filter_cons_of_neg (by simp [hq])]

theorem foldlM_insertPivot_filter (cmp : α → α → Option JSNum) (s : α → α → ℚ)
    (hs : ∀ a b, cmp a b = some (JSNum.num (s a b)))
    (hasym : ∀ a b, s a b < 0 → ¬ s b a < 0)
    (hneg : ∀ a b c, ¬ s a b < 0 → ¬ s b c < 0 → ¬ s a c < 0)
    (q : α → Bool) :
    ∀ (xs acc F : List α), acc.Pairwise (fun y z => ¬ s y z < 0) →
      xs.foldlM (fun sortedRev pivot => insertPivot cmp pivot sortedRev) acc = some F →
      (xs.filter q).foldlM (fun sortedRev pivot => insertPivot cmp pivot sortedRev)
        (acc.filter q) = some (F.filter q) := by
  intro xs
  induction xs with
  | nil =>
    intro acc F _ h
    simp at h
    subst h
    simp
  | cons x rest ih =>
    intro acc F hacc h
    rw [List.foldlM_cons] at h
    cases hi : insertPivot cmp x acc with
    | none => simp [hi] at h
    | some acc1 =>
      simp only [hi, Option.bind_eq_bind, Option.some_bind] at h
      obtain ⟨h1, h2, h3⟩ := insertPivot_filter cmp s hs hasym hneg q x acc acc1 hacc hi
      have hrest := ih acc1 F h1 h
      by_cases hq : q x = true
      · rw [List.filter_cons_of_pos hq, List.foldlM_cons, h2 hq]
        simpa using hrest
      · have hq1 : q x = false := by simpa using hq
        rw [List.filter_cons_of_neg hq, ← h3 hq1]
        exact hrest

/-- Filtering commutes with the sort when the comparator returns the sign of a
consistent three-way comparison. -/
theorem jsSort_filter (cmp : α → α → Option JSNum) (s : α → α → ℚ)
    (hs : ∀ a b, cmp a b = some (JSNum.num (s a b)))
    (hasym : ∀ a b, s a b < 0 → ¬ s b a < 0)
    (hneg : ∀ a b c, ¬ s a b < 0 → ¬ s b c < 0 → ¬ s a c < 0)
    (q : α → Bool) (xs : List α) :
    (jsSort cmp xs).map (List.filter q) = jsSort cmp (xs.filter q) := by
  obtain ⟨out, hout⟩ := jsSort_total cmp xs (fun a _ b _ => ⟨_, hs a b⟩)
  rw [hout]
  unfold jsSort at hout ⊢
  simp only [Option.map_eq_some'] at hout
  obtain ⟨F, hF, rfl⟩ := hout
  have := foldlM_insertPivot_filter cmp s hs hasym hneg q xs [] F List.Pairwise.nil hF
  simp only [List.filter_nil] at this
  rw [this]
  simp [List.filter_reverse]

theorem insertPivot_congr (cmp1 cmp2 : α → α → Option JSNum) (p : α) :
    ∀ (l : List α), (∀ y ∈ l, cmp1 p y = cmp2 p y) →
      insertPivot cmp1 p l = insertPivot cmp2 p l := by
  intro l
  induction l with
  | nil =>
    intro _
    rfl
  | cons y ys ih =>
    intro h
    unfold insertPivot
    rw [h y (List.mem_cons_self y ys), ih (fun z hz => h z (List.mem_cons_of_mem y hz))]

theorem foldlM_insertPivot_congr (cmp1 cmp2 : α → α → Option JSNum) :
    ∀ (xs acc : List α), (∀ a ∈ xs, ∀ b ∈ xs ++ acc, cmp1 a b = cmp2 a b) →
      xs.foldlM (fun sortedRev pivot => insertPivot cmp1 pivot sortedRev) acc =
        xs.foldlM (fun sortedRev pivot => insertPivot cmp2 pivot sortedRev) acc := by
  intro xs
  induction xs with
  | nil =>
    intro acc _
    rfl
  | cons x rest ih =>
    intro acc h
    rw [List.foldlM_cons, List.foldlM_cons]
    have h1 : insertPivot cmp1 x acc = insertPivot cmp2 x acc :=
      insertPivot_congr cmp1 cmp2 x acc
        (fun y hy => h x (List.mem_cons_self x rest) y (by simp [hy]))
    rw [← h1]
    cases hi : insertPivot cmp1 x acc with
    | none => rfl
    | some acc1 =>
      simp only [Option.bind_eq_bind, Option.some_bind]
      have hperm := insertPivot_perm cmp1 x acc acc1 hi
      refine ih acc1 ?_
      intro a ha b hb
      refine h a (List.mem_cons_of_mem x ha) b ?_
      rcases List.mem_append.1 hb with hb1 | hb1
      · simp [hb1]
      · rcases List.mem_cons.1 (hperm.subset hb1) with rfl | hb2
        · simp
        · simp [hb2]

/-- The sort depends on the comparator only through its values on the elements. -/
theorem jsSort_congr (cmp1 cmp2 : α → α → Option JSNum) (xs : List α)
    (h : ∀ a ∈ xs, ∀ b ∈ xs, cmp1 a b = cmp2 a b) : jsSort cmp1 xs = jsSort cmp2 xs := by
  unfold jsSort
  rw [foldlM_insertPivot_congr cmp1 cmp2 xs [] (by simpa using h)]

end Commute

theorem compareChars_antisymm (a : List Char) :
    ∀ b : List Char, compareChars b a = -compareChars a b := by
  induction a with
  | nil =>
    intro b
    cases b <;> simp [compareChars]
  | cons x xs ih =>
    intro b
    cases b with
    | nil => simp [compareChars]
    | cons y ys =>
      simp only [compareChars]
      split_ifs <;> first | omega | exact ih ys

theorem compareChars_le_trans (a : List Char) :
    ∀ b c : List Char, compareChars a b ≤ 0 → compareChars b c ≤ 0 → compareChars a c ≤ 0 := by
  induction a with
  | nil =>
    intro b c _ _
    cases c <;> simp [compareChars]
  | cons x xs ih =>
    intro b c hab hbc
    cases b with
    | nil => simp [compareChars] at hab
    | cons y ys =>
      cases c with
      | nil => simp [compareChars] at hbc
      | cons z zs =>
        simp only [compareChars] at hab hbc ⊢
        split_ifs at hab hbc ⊢ <;> first | omega | exact ih ys zs hab hbc

theorem localeCompare_asymm (a b : String) (h : (localeCompare a b : ℚ) < 0) :
    ¬ (localeCompare b a : ℚ) < 0 := by
  have h1 : localeCompare a b < 0 := by exact_mod_cast h
  have h2 : localeCompare b a = -localeCompare a b := compareChars_antisymm a.data b.data
  intro h3
  have h4 : localeCompare b a < 0 := by exact_mod_cast h3
  omega

theorem localeCompare_negtrans (a b c : String) (h1 : ¬ (localeCompare a b : ℚ) < 0)
    (h2 : ¬ (localeCompare b c : ℚ) < 0) : ¬ (localeCompare a c : ℚ) < 0 := by
  have e1 : localeCompare b a = -localeCompare a b := compareChars_antisymm a.data b.data
  have e2 : localeCompare c b = -localeCompare b c := compareChars_antisymm b.data c.data
  have e3 : localeCompare c a = -localeCompare a c := compareChars_antisymm a.data c.data
  have g1 : ¬ localeCompare a b < 0 := by intro h; exact h1 (by exact_mod_cast h)
  have g2 : ¬ localeCompare b c < 0 := by intro h; exact h2 (by exact_mod_cast h)
  have t := compareChars_le_trans c.data b.data a.data
    (by show localeCompare c b ≤ 0; omega) (by show localeCompare b a ≤ 0; omega)
  have t1 : localeCompare c a ≤ 0 := t
  intro h
  have h3 : localeCompare a c < 0 := by exact_mod_cast h
  omega

/-- A comparator that compares string keys with `localeCompare`, in either direction,
commutes with filtering. -/
theorem jsSort_filter_stringKey (key : UrlResult → String) (direction : String)
    (q : UrlResult → Bool) (xs : List UrlResult) :
    (jsSort (fun a b => some (compareUrl direction (key a) (key b))) xs).map (List.filter q) =
      jsSort (fun a b => some (compareUrl direction (key a) (key b))) (xs.filter q) := by
  by_cases hd : (direction == "asc") = true
  · exact jsSort_filter _ (fun a b => (localeCompare (key a) (key b) : ℚ))
      (fun a b => by simp [compareUrl, hd])
      (fun a b h => localeCompare_asymm _ _ h)
      (fun a b c h1 h2 => localeCompare_negtrans _ _ _ h1 h2) q xs
  · exact jsSort_filter _ (fun a b => (localeCompare (key b) (key a) : ℚ))
      (fun a b => by simp [compareUrl, hd])
      (fun a b h => localeCompare_asymm _ _ h)
      (fun a b c h1 h2 => localeCompare_negtrans _ _ _ h2 h1) q xs

/-- A comparator that subtracts numeric keys, in either direction, commutes with
filtering. -/
theorem jsSort_filter_numKey (key : UrlResult → ℚ) (direction : String)
    (q : UrlResult → Bool) (xs : List UrlResult) :
    (jsSort (fun a b => some (compareMetric direction (key a) (key b))) xs).map (List.filter q) =
      jsSort (fun a b => some (compareMetric direction (key a) (key b))) (xs.filter q) := by
  by_cases hd : (direction == "asc") = true
  · exact jsSort_filter _ (fun a b => key a - key b)
      (fun a b => by simp [compareMetric, hd, JSNum.sub])
      (fun a b h => by simp only at h ⊢; linarith)
      (fun a b c h1 h2 => by simp only at h1 h2 ⊢; linarith) q xs
  · exact jsSort_filter _ (fun a b => key b - key a)
      (fun a b => by simp [compareMetric, hd, JSNum.sub])
      (fun a b h => by simp only at h ⊢; linarith)
      (fun a b c h1 h2 => by simp only at h1 h2 ⊢; linarith) q xs

/-- The filter step is one `filter` with a predicate that depends on the criteria only. -/
theorem filterStep_eq_filter (filters : Filters) :
    ∃ q : UrlResult → Bool, ∀ xs, filterStep filters xs = xs.filter q := by
  have hp : ∃ q1 : UrlResult → Bool, ∀ xs, performanceStep filters xs = xs.filter q1 := by
    unfold performanceStep
    cases filters.performanceFilter with
    | none => exact ⟨fun _ => true, fun xs => by simp⟩
    | some pf =>
      by_cases hg : performanceGuard filters = true
      · exact ⟨passesPerformance pf, fun xs => by simp [hg]⟩
      · exact ⟨fun _ => true, fun xs => by simp [hg]⟩
  have ht : ∃ q2 : UrlResult → Bool, ∀ xs, thresholdStep filters xs = xs.filter q2 := by
    unfold thresholdStep
    cases filters.metricThreshold with
    | none => exact ⟨fun _ => true, fun xs => by simp⟩
    | some t =>
      by_cases hg : thresholdGuard filters = true
      · exact ⟨passesThreshold t, fun xs => by simp [hg]⟩
      · exact ⟨fun _ => true, fun xs => by simp [hg]⟩
  obtain ⟨q1, h1⟩ := hp
  obtain ⟨q2, h2⟩ := ht
  exact ⟨fun r => q1 r && q2 r, fun xs => by
    unfold filterStep
    rw [h2, h1, List.filter_filter]
    congr 1
    funext r
    exact Bool.and_comm _ _⟩

/-- Filtering and sorting commute whenever the comparator is a consistent one: for
every sort field but the rating, and for the rating when no result has a null one. -/
theorem filter_sort_commute_of_consistent (filters : Filters) (sortConfig : SortConfig)
    (results : List UrlResult)
    (h : sortConfig.field ≠ some "overall_performance" ∨
      ∀ r ∈ results, r.overall_performance ≠ none) :
    (sortStep sortConfig results).map (filterStep filters) =
      sortStep sortConfig (filterStep filters results) := by
  obtain ⟨q, hq⟩ := filterStep_eq_filter filters
  have hfun : filterStep filters = List.filter q := funext hq
  rw [hfun]
  unfold sortStep
  cases hf : sortConfig.field with
  | none => rfl
  | some field =>
    simp only
    split
    · by_cases hu : (field == "url") = true
      · have hc : compareFn field sortConfig.direction =
            fun a b => some (compareUrl sortConfig.direction a.url b.url) := by
          funext a b
          simp [compareFn, hu]
        rw [hc]
        exact jsSort_filter_stringKey (fun r => r.url) _ q results
      · by_cases hp : (field == "overall_performance") = true
        · have hfield : field = "overall_performance" := by simpa using hp
          have hnn : ∀ r ∈ results, r.overall_performance ≠ none := by
            rcases h with h | h
            · exact absurd (by rw [hf, hfield]) h
            · exact h
          have hagree : ∀ ys : List UrlResult, (∀ r ∈ ys, r.overall_performance ≠ none) →
              jsSort (compareFn field sortConfig.direction) ys =
                jsSort (fun a b => some (compareUrl sortConfig.direction
                  (a.overall_performance.getD "") (b.overall_performance.getD ""))) ys := by
            intro ys hys
            refine jsSort_congr _ _ ys ?_
            intro a ha b hb
            have h1 := hys a ha
            have h2 := hys b hb
            cases ha1 : a.overall_performance with
            | none => exact absurd ha1 h1
            | some s =>
              cases hb1 : b.overall_performance with
              | none => exact absurd hb1 h2
              | some t =>
                by_cases hd : (sortConfig.direction == "asc") = true <;>
                  simp [compareFn, hu, hp, compareRating, compareUrl, ha1, hb1, hd]
          rw [hagree results hnn,
            hagree (results.filter q) (fun r hr => hnn r (List.mem_of_mem_filter hr))]
          exact jsSort_filter_stringKey (fun r => r.overall_performance.getD "") _ q results
        · have hc : compareFn field sortConfig.direction =
              fun a b => some (compareMetric sortConfig.direction (metricKey field a)
                (metricKey field b)) := by
            funext a b
            simp [compareFn, hu, hp]
          rw [hc]
          exact jsSort_filter_numKey (fun r => metricKey field r) _ q results
    · rfl

end Crux

namespace Crux

/-! ## The received response under `handleFilterChange` (C4, C5) -/

/-- C4 fails when no filter is set and a sort field is set: `filtered.results` is then
the very array of `analysisData.results`, and the in-place `sort` reorders it.  For the
response with URLs b, a and a sort by URL ascending, `analysisData.results` holds
b, a before the call and a, b after it. -/
theorem handleFilterChange_reorders_response :
    (handleAnalyzeSuccess (responseOf urlRowsBA)).analysisData = some (responseOf urlRowsBA) ∧
      urlRowsBA = [rowOf "b" none [], rowOf "a" none []] ∧
      (handleFilterChange (handleAnalyzeSuccess (responseOf urlRowsBA)) noFilters
          { field := some "url", direction := "asc" }).map (fun st => st.analysisData) =
        some (some (responseOf [rowOf "a" none [], rowOf "b" none []])) := by
  refine ⟨rfl, rfl, by decide⟩

/-- The response is left alone whenever a filter statement runs or no sort is
requested: the state cell `analysisData` is the same after the call. -/
theorem handleFilterChange_keeps_response (response : AnalysisResponse) (filters : Filters)
    (sortConfig : SortConfig) (st : AppState)
    (hcase : sharesResultsArray filters = false ∨ sortConfig.field = none)
    (h : handleFilterChange (handleAnalyzeSuccess response) filters sortConfig = some st) :
    st.analysisData = some response := by
  unfold handleFilterChange handleAnalyzeSuccess at h
  simp only at h
  cases hs : sortStep sortConfig (filterStep filters response.results) with
  | none => simp [hs] at h
  | some sorted =>
    simp only [hs, Option.some.injEq] at h
    subst h
    rcases hcase with hc | hc
    · simp [hc]
    · have hsorted : sorted = filterStep filters response.results := by
        unfold sortStep at hs
        rw [hc] at hs
        simpa using hs.symm
      by_cases hsh : sharesResultsArray filters = true
      · have hid : filterStep filters response.results = response.results := by
          unfold sharesResultsArray at hsh
          simp only [Bool.and_eq_true, Bool.not_eq_true'] at hsh
          unfold filterStep thresholdStep performanceStep
          cases filters.performanceFilter <;> cases filters.metricThreshold <;>
            simp [hsh.1, hsh.2]
        simp [hsh, hsorted, hid]
      · simp [hsh]

/-- C5 fails for the edits "sort by URL ascending" followed by "clear the sort field"
on the response with URLs b, a: the view after the last edit shows a, b, while the
last edit applied to the freshly received response shows b, a.  The first edit has
reordered `analysisData.results` in place (the defect of C4). -/
theorem view_depends_on_history :
    (applyEdits (handleAnalyzeSuccess (responseOf urlRowsBA))
        [(noFilters, { field := some "url", direction := "asc" }), (noFilters, noSort)]).map
        viewResults = some (some [rowOf "a" none [], rowOf "b" none []]) ∧
      (applyEdits (handleAnalyzeSuccess (responseOf urlRowsBA)) [(noFilters, noSort)]).map
        viewResults = some (some [rowOf "b" none [], rowOf "a" none []]) := by
  refine ⟨by decide, by decide⟩

/-! ## Rating counts of the view (C6) -/

theorem summaryStats_perm (d : AnalysisResponse) (xs ys : List UrlResult) (h : xs.Perm ys) :
    summaryStats (some { d with results := xs }) = summaryStats (some { d with results := ys }) := by
  unfold summaryStats
  simp only [h.length_eq, (h.filter _).length_eq]

/-- C6 as stated fails: with the rows rated "Good" and "Poor" and the performance filter
"Good", the counts shown after `handleFilterChange` are those of the one kept row
(total 1, good 1, poor 0), not those of the full results (total 2, good 1, poor 1). -/
theorem summary_counts_differ_from_unfiltered :
    (handleFilterChange (handleAnalyzeSuccess (responseOf goodPoorRows))
        (performanceOnly "Good") noSort).map (fun st => summaryStats st.filteredData) =
        some (some { totalUrls := 1, goodCount := 1, needsImprovementCount := 0,
                     poorCount := 0, unknownCount := 0 }) ∧
      summaryStats (some (responseOf goodPoorRows)) =
        some { totalUrls := 2, goodCount := 1, needsImprovementCount := 0,
               poorCount := 1, unknownCount := 0 } := by
  refine ⟨by decide, by decide⟩

/-- C6 amended: the rating counts shown after `handleFilterChange` are computed over
the view, that is over the output of the filter step (the sort does not change
them); they are the counts of the full results when no filter statement runs. -/
theorem summary_counts_of_view (response : AnalysisResponse) (filters : Filters)
    (sortConfig : SortConfig) (st : AppState)
    (h : handleFilterChange (handleAnalyzeSuccess response) filters sortConfig = some st) :
    summaryStats st.filteredData =
        summaryStats (some { response with results := filterStep filters response.results }) ∧
      (sharesResultsArray filters = true →
        summaryStats st.filteredData = summaryStats (some response)) := by
  unfold handleFilterChange handleAnalyzeSuccess at h
  simp only at h
  cases hs : sortStep sortConfig (filterStep filters response.results) with
  | none => simp [hs] at h
  | some sorted =>
    simp only [hs, Option.some.injEq] at h
    subst h
    have hperm := sortStep_perm sortConfig _ sorted hs
    have h1 := summaryStats_perm response sorted _ hperm
    refine ⟨h1, ?_⟩
    intro hsh
    have hid : filterStep filters response.results = response.results := by
      unfold sharesResultsArray at hsh
      simp only [Bool.and_eq_true, Bool.not_eq_true'] at hsh
      unfold filterStep thresholdStep performanceStep
      cases filters.performanceFilter <;> cases filters.metricThreshold <;>
        simp [hsh.1, hsh.2]
    simp only at h1 ⊢
    rw [h1, hid]

/-- Witness of the amended C6 on the rows rated "Good" and "Poor" with the performance
filter "Good": the call returns the state whose view holds the one kept row, and the
counts shown are those of the filter output. -/
theorem summary_counts_of_view_witness :
    handleFilterChange (handleAnalyzeSuccess (responseOf goodPoorRows))
        (performanceOnly "Good") noSort =
        some { analysisData := some (responseOf goodPoorRows)
               filteredData := some (responseOf [rowOf "a" (some "Good") []]) } ∧
      summaryStats (some (responseOf [rowOf "a" (some "Good") []])) =
        summaryStats (some { responseOf goodPoorRows with
          results := filterStep (performanceOnly "Good") (responseOf goodPoorRows).results }) :=
  ⟨by decide,
   (summary_counts_of_view (responseOf goodPoorRows) (performanceOnly "Good") noSort
      { analysisData := some (responseOf goodPoorRows)
        filteredData := some (responseOf [rowOf "a" (some "Good") []]) }
      (by decide)).1⟩

/-! ## Performance filter (C7) -/

/-- C7: with a performance filter that is set (non-empty) and is not "all", over ASCII
ratings and an ASCII filter value, a result is kept by the performance statement exactly
when it is a result of the input whose rating is non-null and equals the filter value
after lower-casing both; a result with a null rating is never kept, and the kept results
stay in input order. -/
theorem performance_filter_iff (filters : Filters) (results : List UrlResult) (pf : String)
    (hpf : filters.performanceFilter = some pf) (hset : pf ≠ "") (hall : pf ≠ "all")
    (_hfilter : isAscii pf = true) (_hratings : ∀ r ∈ results, asciiRating r = true) :
    (∀ r, r ∈ performanceStep filters results ↔
        r ∈ results ∧ ∃ p, r.overall_performance = some p ∧ toLowerCase p = toLowerCase pf) ∧
      (∀ r, r.overall_performance = none → r ∉ performanceStep filters results) ∧
      (performanceStep filters results).Sublist results := by
  have hg := performanceGuard_of_set filters pf hpf hset hall
  have hstep : performanceStep filters results = results.filter (passesPerformance pf) := by
    unfold performanceStep
    rw [hpf]
    simp [hg]
  have hiff : ∀ r, r ∈ performanceStep filters results ↔
      r ∈ results ∧ ∃ p, r.overall_performance = some p ∧ toLowerCase p = toLowerCase pf := by
    intro r
    rw [hstep, List.mem_filter]
    unfold passesPerformance
    cases r.overall_performance with
    | none => simp
    | some p => simp
  refine ⟨hiff, ?_, performanceStep_sublist filters results⟩
  intro r hnone hmem
  obtain ⟨_, p, hp, _⟩ := (hiff r).1 hmem
  rw [hnone] at hp
  cases hp

/-- Witness of C7: the filter value "good" keeps the row rated "Good" and drops the
row rated "Poor". -/
theorem performance_filter_iff_witness :
    isAscii "good" = true ∧ (∀ r ∈ goodPoorRows, asciiRating r = true) ∧
      (rowOf "a" (some "Good") [] ∈ performanceStep (performanceOnly "good") goodPoorRows ↔
        rowOf "a" (some "Good") [] ∈ goodPoorRows ∧
          ∃ p, (rowOf "a" (some "Good") []).overall_performance = some p ∧
            toLowerCase p = toLowerCase "good") ∧
      performanceStep (performanceOnly "good") goodPoorRows = [rowOf "a" (some "Good") []] :=
  ⟨by decide, by decide,
   (performance_filter_iff (performanceOnly "good") goodPoorRows "good" rfl
      (by decide) (by decide) (by decide) (by decide)).1 (rowOf "a" (some "Good") []),
   by decide⟩

end Crux

namespace Crux

/-! ## Stability (C8) -/

/-- Where the comparator is consistent the sort step is stable: for a sort by URL, by a
metric, or by rating over results without a null rating, the sort returns a list, and
two results with equal sort keys keep their relative order in it. -/
theorem sortStep_stable_of_consistent (sortConfig : SortConfig) (results : List UrlResult)
    (a b : UrlResult) (hab : [a, b].Sublist results)
    (hcons : sortConfig.field ≠ some "overall_performance" ∨
      ∀ r ∈ results, r.overall_performance ≠ none) :
    (∃ out, sortStep sortConfig results = some out) ∧
      (∀ out, sortStep sortConfig results = some out →
        (∀ field, sortConfig.field = some field → sameSortKey field a b = true) →
        [a, b].Sublist out) := by
  constructor
  · unfold sortStep
    cases hf : sortConfig.field with
    | none => exact ⟨results, rfl⟩
    | some field =>
      simp only
      split
      · refine jsSort_total _ results (compareFn_defined field _ results ?_)
        rcases hcons with h | h
        · left
          intro hfield
          exact h (by rw [hf, hfield])
        · exact Or.inr (Or.inr h)
      · exact ⟨results, rfl⟩
  · intro out hsort hkey
    unfold sortStep at hsort
    cases hf : sortConfig.field with
    | none =>
      simp only [hf, Option.some.injEq] at hsort
      subst hsort
      exact hab
    | some field =>
      simp only [hf] at hsort
      split at hsort
      · exact jsSort_stable _ results out a b (JSNum.num 0) hsort hab
          (compareFn_of_sameSortKey field _ b a
            (sameSortKey_symm field a b (hkey field hf)))
          (by simp [JSNum.isNegative])
      · cases hsort
        exact hab

/-- On the examples of this development the sort of V8 returns what `jsSort` returns. -/
theorem v8Sort_eq_jsSort_on_examples :
    v8Sort (compareFn "url" "asc") urlRowsBA = jsSort (compareFn "url" "asc") urlRowsBA ∧
      v8Sort (compareFn "overall_performance" "desc") unratedAroundGood =
        jsSort (compareFn "overall_performance" "desc") unratedAroundGood ∧
      v8Sort (compareFn "overall_performance" "asc") unratedBetweenLabels =
        jsSort (compareFn "overall_performance" "asc") unratedBetweenLabels ∧
      v8Sort (compareFn "overall_performance" "asc") sameRatingRows =
        jsSort (compareFn "overall_performance" "asc") sameRatingRows ∧
      v8Sort (compareFn "overall_performance" "desc") sameRatingRows =
        jsSort (compareFn "overall_performance" "desc") sameRatingRows := by
  decide

/-- C8, as the code behaves: over six results rated "slow", null, "poor", "good", "good"
and "poor", sorted by rating in ascending order, the two results rated "poor" have equal
sort keys and the comparator returns 0 on them in both argument orders, yet the sort of
V8 returns the later one, u5, before the earlier one, u2: the null rating makes the
comparator inconsistent, and the sort is no longer stable. -/
theorem sort_unstable_with_null_rating :
    [rowOf "u2" (some "poor") [], rowOf "u5" (some "poor") []].Sublist sixRatedRows ∧
      sameSortKey "overall_performance" (rowOf "u2" (some "poor") [])
        (rowOf "u5" (some "poor") []) = true ∧
      compareFn "overall_performance" "asc" (rowOf "u2" (some "poor") [])
        (rowOf "u5" (some "poor") []) = some (.num 0) ∧
      compareFn "overall_performance" "asc" (rowOf "u5" (some "poor") [])
        (rowOf "u2" (some "poor") []) = some (.num 0) ∧
      v8Sort (compareFn "overall_performance" "asc") sixRatedRows =
        some [rowOf "u3" (some "good") [], rowOf "u4" (some "good") [],
          rowOf "u5" (some "poor") [], rowOf "u0" (some "slow") [], rowOf "u1" none [],
          rowOf "u2" (some "poor") []] ∧
      ¬ [rowOf "u2" (some "poor") [], rowOf "u5" (some "poor") []].Sublist
        [rowOf "u3" (some "good") [], rowOf "u4" (some "good") [],
          rowOf "u5" (some "poor") [], rowOf "u0" (some "slow") [], rowOf "u1" none [],
          rowOf "u2" (some "poor") []] := by
  decide

/-! ## Filter and sort do not commute on unrated rows (C9) -/

/-- C9 fails on results with a null rating, where the comparator is not a consistent
one.  (1) Descending sort by rating over the rows unrated, "Good", unrated: the
comparator is called on ("Good", null), evaluates `null.localeCompare` and throws,
so sorting first yields nothing, whereas filtering by "Good" first and sorting then
yields the one "Good" row.  (2) Ascending sort by rating over the rows "slow",
unrated, "poor" with a threshold that removes the unrated row: sorting first leaves
the order slow, poor, filtering first gives poor, slow.  For every other sort field,
and for ratings that are all non-null, the two orders of the stages agree
(`filter_sort_commute_of_consistent`). -/
theorem filter_sort_do_not_commute :
    sortStep { field := some "overall_performance", direction := "desc" } unratedAroundGood =
        none ∧
      sortStep { field := some "overall_performance", direction := "desc" }
          (filterStep (performanceOnly "Good") unratedAroundGood) =
        some [rowOf "b" (some "Good") []] ∧
      (sortStep { field := some "overall_performance", direction := "asc" }
          unratedBetweenLabels).map
          (filterStep (thresholdOnly "Largest Contentful Paint (LCP)" 2500)) =
        some [rowOf "a" (some "slow") [sampleOf "Largest Contentful Paint (LCP)" (some 1800)],
              rowOf "c" (some "poor") [sampleOf "Largest Contentful Paint (LCP)" (some 1800)]] ∧
      sortStep { field := some "overall_performance", direction := "asc" }
          (filterStep (thresholdOnly "Largest Contentful Paint (LCP)" 2500)
            unratedBetweenLabels) =
        some [rowOf "c" (some "poor") [sampleOf "Largest Contentful Paint (LCP)" (some 1800)],
              rowOf "a" (some "slow") [sampleOf "Largest Contentful Paint (LCP)" (some 1800)]] := by
  refine ⟨by decide, by decide, by decide, by decide⟩

/-! ## Sort by metric (C10) -/

theorem metricKey_spec (field : String) (r : UrlResult) :
    (r.metrics.find? (fun m => m.metric_name == field) = none → metricKey field r = 0) ∧
      (∀ m, r.metrics.find? (fun m => m.metric_name == field) = some m →
        m.p75_value = none → metricKey field r = 0) ∧
      (∀ m v, r.metrics.find? (fun m => m.metric_name == field) = some m →
        m.p75_value = some v → metricKey field r = v) := by
  refine ⟨?_, ?_, ?_⟩
  · intro h
    simp [metricKey, h]
  · intro m h hv
    simp [metricKey, h, hv]
  · intro m v h hv
    by_cases h0 : v = 0
    · simp [metricKey, h, hv, truthyNum, h0]
    · simp [metricKey, h, hv, truthyNum, h0]

/-- C10: for a sort field that is set and is neither "url" nor "overall_performance",
the key of a result is the `p75_value` of its first sample named like the field, and 0
when there is no such sample or its value is null; the sort step returns a
permutation of the input whose keys do not decrease for "asc" and do not increase
for "desc". -/
theorem sort_by_metric (field : String) (results : List UrlResult)
    (hset : field ≠ "") (hurl : field ≠ "url") (hperf : field ≠ "overall_performance") :
    (∀ r, (r.metrics.find? (fun m => m.metric_name == field) = none → metricKey field r = 0) ∧
        (∀ m, r.metrics.find? (fun m => m.metric_name == field) = some m →
          m.p75_value = none → metricKey field r = 0) ∧
        (∀ m v, r.metrics.find? (fun m => m.metric_name == field) = some m →
          m.p75_value = some v → metricKey field r = v)) ∧
      (∃ out, sortStep { field := some field, direction := "asc" } results = some out ∧
        out.Perm results ∧
        out.Pairwise (fun x y => metricKey field x ≤ metricKey field y)) ∧
      (∃ out, sortStep { field := some field, direction := "desc" } results = some out ∧
        out.Perm results ∧
        out.Pairwise (fun x y => metricKey field y ≤ metricKey field x)) := by
  have hu : (field == "url") = false := by simpa using hurl
  have hp : (field == "overall_performance") = false := by simpa using hperf
  have hstep : ∀ direction, direction ≠ "" →
      sortStep { field := some field, direction := direction } results =
        jsSort (compareFn field direction) results := by
    intro direction hd
    simp [sortStep, truthyStr, hset, hd]
  refine ⟨fun r => metricKey_spec field r, ?_, ?_⟩
  · rw [hstep "asc" (by decide)]
    exact jsSort_sorted_of_key (compareFn field "asc") (fun r => metricKey field r)
      (fun a b => by simp [compareFn, hu, hp, compareMetric, JSNum.sub]) results
  · rw [hstep "desc" (by decide)]
    obtain ⟨out, h1, h2, h3⟩ :=
      jsSort_sorted_of_key (compareFn field "desc") (fun r => -metricKey field r)
        (fun a b => by
          simp [compareFn, hu, hp, compareMetric, JSNum.sub]
          ring) results
    exact ⟨out, h1, h2, h3.imp (fun h => by simpa using h)⟩

set_option maxRecDepth 8000 in
/-- Witness of C10: of the two rows, the one without the metric has key 0 and comes
first in ascending order, in front of the row whose value is 1800. -/
theorem sort_by_metric_witness :
    sortStep { field := some "Largest Contentful Paint (LCP)", direction := "asc" } metricRows =
        some [rowOf "a" none [],
              rowOf "b" none [sampleOf "Largest Contentful Paint (LCP)" (some 1800)]] ∧
      metricKey "Largest Contentful Paint (LCP)" (rowOf "a" none []) = 0 :=
  ⟨by with_unfolding_all decide,
   ((sort_by_metric "Largest Contentful Paint (LCP)" metricRows (by decide) (by decide)
      (by decide)).1 (rowOf "a" none [])).1 (by decide)⟩

end Crux

namespace Crux

/-! ## Idempotence of the filter step (C11) -/

/-- C11: the filter step is idempotent.  For every results sequence and all criteria,
applying the filter step with the same criteria to its own output returns that
output: the same elements in the same order. -/
theorem filterStep_idempotent (filters : Filters) (results : List UrlResult) :
    filterStep filters (filterStep filters results) = filterStep filters results := by
  obtain ⟨q, hq⟩ := filterStep_eq_filter filters
  rw [hq, hq, List.filter_filter]
  congr 1
  funext r
  simp

/-! ## No sorting requested (C12) -/

theorem sortStep_of_no_field (sortConfig : SortConfig) (results : List UrlResult)
    (h : sortConfig.field = none ∨ sortConfig.field = some "") :
    sortStep sortConfig results = some results := by
  unfold sortStep
  rcases h with h | h
  · rw [h]
  · rw [h]
    simp [truthyStr]

/-- C12: when the sort field is null or empty, for every state that holds a response,
all criteria and every direction, the view after `handleFilterChange` holds exactly
the output of the filter step on the held results, in that order, and the held
response is unchanged; the `sorting` object that `FilterSort` builds from an empty
field selection is such a configuration. -/
theorem view_without_sort (st : AppState) (data : AnalysisResponse) (filters : Filters)
    (sortConfig : SortConfig) (hdata : st.analysisData = some data)
    (hfield : sortConfig.field = none ∨ sortConfig.field = some "") :
    handleFilterChange st filters sortConfig =
        some { analysisData := some data
               filteredData := some { data with results := filterStep filters data.results } } ∧
      (handleFilterChange st filters sortConfig).map viewResults =
        some (some (filterStep filters data.results)) ∧
      (∀ direction, (sortingOf "" direction).field = none) := by
  have hstate : handleFilterChange st filters sortConfig =
      some { analysisData := some data
             filteredData := some { data with results := filterStep filters data.results } } := by
    unfold handleFilterChange
    rw [hdata]
    simp only [sortStep_of_no_field sortConfig _ hfield]
    by_cases hsh : sharesResultsArray filters = true
    · have hid : filterStep filters data.results = data.results := by
        unfold sharesResultsArray at hsh
        simp only [Bool.and_eq_true, Bool.not_eq_true'] at hsh
        unfold filterStep thresholdStep performanceStep
        cases filters.performanceFilter <;> cases filters.metricThreshold <;>
          simp [hsh.1, hsh.2]
      simp [hsh, hid]
    · simp [hsh]
  refine ⟨hstate, ?_, ?_⟩
  · rw [hstate]
    rfl
  · intro direction
    simp [sortingOf, truthyStr]

/-- Witness of C12: with the performance filter "Good" and the cleared sort controls,
the view of the rows rated "Good" and "Poor" is the one "Good" row. -/
theorem view_without_sort_witness :
    (handleFilterChange (handleAnalyzeSuccess (responseOf goodPoorRows))
        (performanceOnly "Good") (sortingOf "" "desc")).map viewResults =
      some (some (filterStep (performanceOnly "Good") (responseOf goodPoorRows).results)) ∧
    filterStep (performanceOnly "Good") (responseOf goodPoorRows).results =
      [rowOf "a" (some "Good") []] :=
  ⟨(view_without_sort (handleAnalyzeSuccess (responseOf goodPoorRows)) (responseOf goodPoorRows)
      (performanceOnly "Good") (sortingOf "" "desc") rfl (Or.inl (by decide))).2.1,
   by decide⟩

/-! ## Rating counts (C13) -/

theorem rating_partition (results : List UrlResult) :
    results.length =
      (results.filter (fun r => r.overall_performance == some "Good")).length +
      (results.filter (fun r => r.overall_performance == some "Needs Improvement")).length +
      (results.filter (fun r => r.overall_performance == some "Poor")).length +
      (results.filter (fun r => !(r.overall_performance == some "Good") &&
          !(r.overall_performance == some "Needs Improvement") &&
          !(r.overall_performance == some "Poor"))).length := by
  induction results with
  | nil => rfl
  | cons r rest ih =>
    by_cases h1 : r.overall_performance = some "Good"
    · simp [List.filter_cons, h1]
      omega
    · by_cases h2 : r.overall_performance = some "Needs Improvement"
      · simp [List.filter_cons, h2]
        omega
      · by_cases h3 : r.overall_performance = some "Poor"
        · simp [List.filter_cons, h3]
          omega
        · simp [List.filter_cons, h1, h2, h3]
          omega

/-- C13: for every response with a non-empty results sequence `summaryStats` returns
an object in which `goodCount`, `needsImprovementCount` and `poorCount` are the
numbers of results whose rating is exactly "Good", "Needs Improvement" and "Poor",
`unknownCount` is `totalUrls` minus these three, is not negative, and is the number
of results with any other rating (null, another label, another spelling). -/
theorem rating_counts (data : AnalysisResponse) (hne : data.results ≠ []) :
    ∃ s, summaryStats (some data) = some s ∧
      s.totalUrls = data.results.length ∧
      s.goodCount =
        data.results.countP (fun r => decide (r.overall_performance = some "Good")) ∧
      s.needsImprovementCount =
        data.results.countP (fun r => decide (r.overall_performance = some "Needs Improvement")) ∧
      s.poorCount =
        data.results.countP (fun r => decide (r.overall_performance = some "Poor")) ∧
      s.unknownCount =
        (s.totalUrls : ℤ) - s.goodCount - s.needsImprovementCount - s.poorCount ∧
      0 ≤ s.unknownCount ∧
      s.unknownCount =
        data.results.countP (fun r => decide (r.overall_performance ≠ some "Good" ∧
          r.overall_performance ≠ some "Needs Improvement" ∧
          r.overall_performance ≠ some "Poor")) := by
  have hlen : (data.results.length == 0) = false := by
    cases hr : data.results with
    | nil => exact absurd hr hne
    | cons r rest => rfl
  have hpart := rating_partition data.results
  have hother :
      (data.results.filter (fun r => !(r.overall_performance == some "Good") &&
          !(r.overall_performance == some "Needs Improvement") &&
          !(r.overall_performance == some "Poor"))).length =
        data.results.countP (fun r => decide (r.overall_performance ≠ some "Good" ∧
          r.overall_performance ≠ some "Needs Improvement" ∧
          r.overall_performance ≠ some "Poor")) := by
    rw [List.countP_eq_length_filter]
    congr 2
    funext r
    by_cases h1 : r.overall_performance = some "Good" <;>
      by_cases h2 : r.overall_performance = some "Needs Improvement" <;>
      by_cases h3 : r.overall_performance = some "Poor" <;> simp [h1, h2, h3]
  have hcount : ∀ label : String,
      (data.results.filter (fun r => r.overall_performance == some label)).length =
        data.results.countP (fun r => decide (r.overall_performance = some label)) := by
    intro label
    rw [List.countP_eq_length_filter]
    congr 2
    funext r
    by_cases h : r.overall_performance = some label <;> simp [h]
  refine ⟨_, by simp only [summaryStats, hlen]; rfl, rfl, hcount "Good",
    hcount "Needs Improvement", hcount "Poor", rfl, ?_, ?_⟩
  · simp only
    omega
  · simp only
    rw [← hother]
    omega

/-- Witness of C13: of the four results rated "Good", null, "good" and "Fast", one is
counted as good and three as unknown. -/
theorem rating_counts_witness :
    summaryStats (some (responseOf mixedRatingRows)) =
        some { totalUrls := 4, goodCount := 1, needsImprovementCount := 0, poorCount := 0,
               unknownCount := 3 } ∧
      ∃ s, summaryStats (some (responseOf mixedRatingRows)) = some s ∧
        s.totalUrls = (responseOf mixedRatingRows).results.length ∧
        s.goodCount = (responseOf mixedRatingRows).results.countP
          (fun r => decide (r.overall_performance = some "Good")) ∧
        s.needsImprovementCount = (responseOf mixedRatingRows).results.countP
          (fun r => decide (r.overall_performance = some "Needs Improvement")) ∧
        s.poorCount = (responseOf mixedRatingRows).results.countP
          (fun r => decide (r.overall_performance = some "Poor")) ∧
        s.unknownCount =
          (s.totalUrls : ℤ) - s.goodCount - s.needsImprovementCount - s.poorCount ∧
        0 ≤ s.unknownCount ∧
        s.unknownCount = (responseOf mixedRatingRows).results.countP
          (fun r => decide (r.overall_performance ≠ some "Good" ∧
            r.overall_performance ≠ some "Needs Improvement" ∧
            r.overall_performance ≠ some "Poor")) :=
  ⟨by decide, rating_counts (responseOf mixedRatingRows) (by decide)⟩

end Crux

namespace Crux

/-! ## Facts about the values of a `Set` -/

theorem contains_iff_mem (l : List String) (x : String) : l.contains x = true ↔ x ∈ l := by
  simp

theorem mem_setInsertAll (xs : List String) :
    ∀ (seen : List String) (t : String),
      t ∈ setInsertAll seen xs ↔ t ∈ xs ∧ t ∉ seen := by
  induction xs with
  | nil =>
    intro seen t
    simp [setInsertAll]
  | cons x rest ih =>
    intro seen t
    unfold setInsertAll
    by_cases hx : x ∈ seen
    · rw [if_pos ((contains_iff_mem seen x).2 hx), ih, List.mem_cons]
      constructor
      · rintro ⟨h1, h2⟩
        exact ⟨Or.inr h1, h2⟩
      · rintro ⟨h1 | h1, h2⟩
        · subst h1
          exact absurd hx h2
        · exact ⟨h1, h2⟩
    · rw [if_neg (fun h => hx ((contains_iff_mem seen x).1 h))]
      simp only [List.mem_cons, ih]
      by_cases htx : t = x
      · subst htx
        simp [hx]
      · simp [htx]

theorem setInsertAll_sublist (xs : List String) :
    ∀ seen : List String, (setInsertAll seen xs).Sublist xs := by
  induction xs with
  | nil =>
    intro seen
    exact List.Sublist.refl _
  | cons x rest ih =>
    intro seen
    unfold setInsertAll
    split
    · exact (ih seen).cons x
    · exact (ih (x :: seen)).cons₂ x

theorem setInsertAll_nodup (xs : List String) :
    ∀ seen : List String, (setInsertAll seen xs).Nodup := by
  induction xs with
  | nil =>
    intro seen
    exact List.nodup_nil
  | cons x rest ih =>
    intro seen
    unfold setInsertAll
    split
    · exact ih seen
    · refine List.nodup_cons.2 ⟨?_, ih (x :: seen)⟩
      intro h
      exact ((mem_setInsertAll rest (x :: seen) x).1 h).2 (List.mem_cons_self x seen)

theorem setInsertAll_eq_filter (xs : List String) :
    ∀ seen : List String,
      setInsertAll seen xs = (setInsertAll [] xs).filter (fun t => !seen.contains t) := by
  induction xs with
  | nil =>
    intro seen
    rfl
  | cons x rest ih =>
    intro seen
    have hnil : ([] : List String).contains x = false := rfl
    rw [setInsertAll, setInsertAll, hnil]
    simp only [Bool.false_eq_true, if_false]
    by_cases hx : x ∈ seen
    · have hc : seen.contains x = true := (contains_iff_mem seen x).2 hx
      rw [if_pos hc, List.filter_cons_of_neg (by simpa using hx), ih seen, ih [x], List.filter_filter]
      refine List.filter_congr ?_
      intro t _
      by_cases ht : t ∈ seen
      · simp [ht]
      · have : t ≠ x := fun h => ht (h ▸ hx)
        simp [ht, this]
    · have hc : ¬ seen.contains x = true := fun h => hx ((contains_iff_mem seen x).1 h)
      rw [if_neg hc, List.filter_cons_of_pos (by simpa using hx), ih (x :: seen), ih [x],
        List.filter_filter]
      congr 1
      refine List.filter_congr ?_
      intro t _
      by_cases ht : t ∈ seen <;> by_cases htx : t = x <;> simp [ht, htx]

theorem uniqueValues_cons (x : String) (xs : List String) :
    uniqueValues (x :: xs) = x :: (uniqueValues xs).filter (fun t => !(t == x)) := by
  have hnil : ([] : List String).contains x = false := rfl
  unfold uniqueValues
  rw [setInsertAll, hnil]
  simp only [Bool.false_eq_true, if_false]
  rw [setInsertAll_eq_filter xs [x]]
  congr 1
  refine List.filter_congr ?_
  intro t _
  by_cases htx : t = x <;> simp [htx]

theorem indexOf_filter_lt (p : String → Bool) (a b : String) (ha : p a = true)
    (hb : p b = true) :
    ∀ l : List String,
      (List.indexOf a (l.filter p) < List.indexOf b (l.filter p) ↔
        List.indexOf a l < List.indexOf b l) := by
  intro l
  induction l with
  | nil => simp
  | cons x rest ih =>
    by_cases hpx : p x = true
    · rw [List.filter_cons_of_pos hpx]
      by_cases hxa : x = a
      · by_cases hxb : x = b
        · rw [List.indexOf_cons_eq _ hxa, List.indexOf_cons_eq _ hxb, List.indexOf_cons_eq _ hxa,
            List.indexOf_cons_eq _ hxb]
        · rw [List.indexOf_cons_eq _ hxa, List.indexOf_cons_ne _ hxb, List.indexOf_cons_eq _ hxa,
            List.indexOf_cons_ne _ hxb]
          simp
      · by_cases hxb : x = b
        · rw [List.indexOf_cons_ne _ hxa, List.indexOf_cons_eq _ hxb, List.indexOf_cons_ne _ hxa,
            List.indexOf_cons_eq _ hxb]
          simp
        · rw [List.indexOf_cons_ne _ hxa, List.indexOf_cons_ne _ hxb, List.indexOf_cons_ne _ hxa,
            List.indexOf_cons_ne _ hxb]
          simp [ih]
    · rw [List.filter_cons_of_neg hpx]
      have hxa : x ≠ a := fun h => hpx (h ▸ ha)
      have hxb : x ≠ b := fun h => hpx (h ▸ hb)
      rw [List.indexOf_cons_ne _ hxa, List.indexOf_cons_ne _ hxb]
      simp [ih]

/-- The values of a `Set` keep the order of their first occurrence. -/
theorem uniqueValues_order (a b : String) :
    ∀ xs : List String,
      (List.indexOf a (uniqueValues xs) < List.indexOf b (uniqueValues xs) ↔
        List.indexOf a xs < List.indexOf b xs) := by
  intro xs
  induction xs with
  | nil => simp [uniqueValues, setInsertAll]
  | cons x rest ih =>
    rw [uniqueValues_cons]
    by_cases hxa : x = a
    · by_cases hxb : x = b
      · rw [List.indexOf_cons_eq _ hxa, List.indexOf_cons_eq _ hxb, List.indexOf_cons_eq _ hxa,
          List.indexOf_cons_eq _ hxb]
      · rw [List.indexOf_cons_eq _ hxa, List.indexOf_cons_ne _ hxb, List.indexOf_cons_eq _ hxa,
          List.indexOf_cons_ne _ hxb]
        simp
    · by_cases hxb : x = b
      · rw [List.indexOf_cons_ne _ hxa, List.indexOf_cons_eq _ hxb, List.indexOf_cons_ne _ hxa,
          List.indexOf_cons_eq _ hxb]
        simp
      · have hax : a ≠ x := fun h => hxa h.symm
        have hbx : b ≠ x := fun h => hxb h.symm
        have h1 : (fun t : String => !(t == x)) a = true := by
          simp [hax]
        have h2 : (fun t : String => !(t == x)) b = true := by
          simp [hbx]
        have := indexOf_filter_lt (fun t => !(t == x)) a b h1 h2 (uniqueValues rest)
        rw [List.indexOf_cons_ne _ hxa, List.indexOf_cons_ne _ hxb, List.indexOf_cons_ne _ hxa,
          List.indexOf_cons_ne _ hxb]
        simp only [Nat.succ_eq_add_one, Nat.add_lt_add_iff_right]
        rw [this, ih]

theorem uniqueValues_nodup (xs : List String) : (uniqueValues xs).Nodup :=
  setInsertAll_nodup xs []

theorem mem_uniqueValues (xs : List String) (t : String) : t ∈ uniqueValues xs ↔ t ∈ xs := by
  simp [uniqueValues, mem_setInsertAll]

theorem uniqueValues_sublist (xs : List String) : (uniqueValues xs).Sublist xs :=
  setInsertAll_sublist xs []

theorem uniqueValues_length (xs : List String) :
    (uniqueValues xs).length = xs.toFinset.card := by
  rw [← List.toFinset_card_of_nodup (uniqueValues_nodup xs)]
  congr 1
  ext t
  simp [mem_uniqueValues]

theorem uniqueValues_length_eq_iff (xs : List String) :
    (uniqueValues xs).length = xs.length ↔ xs.Nodup := by
  constructor
  · intro h
    have := (uniqueValues_sublist xs).eq_of_length h
    rw [← this]
    exact uniqueValues_nodup xs
  · intro h
    rw [uniqueValues_length, List.toFinset_card_of_nodup h]

/-! ## Facts about `validateUrls` -/

theorem mem_duplicatesOf_iff_index (xs : List String) (u : String) :
    u ∈ duplicatesOf xs ↔ ∃ i, xs[i]? = some u ∧ List.indexOf u xs ≠ i := by
  unfold duplicatesOf
  simp only [List.mem_map, List.mem_filter, List.mem_enum_iff_getElem?]
  constructor
  · rintro ⟨⟨i, v⟩, ⟨h1, h2⟩, rfl⟩
    exact ⟨i, h1, by simpa using h2⟩
  · rintro ⟨i, h1, h2⟩
    exact ⟨(i, u), ⟨h1, by simpa using h2⟩, rfl⟩

theorem exists_index_ne_indexOf_iff (u : String) :
    ∀ xs : List String,
      (∃ i, xs[i]? = some u ∧ List.indexOf u xs ≠ i) ↔ 2 ≤ xs.count u := by
  intro xs
  induction xs with
  | nil => simp
  | cons x rest ih =>
    by_cases hxu : x = u
    · subst hxu
      rw [List.indexOf_cons_self, List.count_cons_self]
      constructor
      · rintro ⟨i, h1, h2⟩
        cases i with
        | zero => exact absurd rfl h2
        | succ k =>
          have hmem : x ∈ rest := List.mem_iff_getElem?.2 ⟨k, by simpa using h1⟩
          have := List.count_pos_iff.2 hmem
          omega
      · intro h
        have hmem : x ∈ rest := List.count_pos_iff.1 (by omega)
        obtain ⟨k, hk⟩ := List.mem_iff_getElem?.1 hmem
        exact ⟨k + 1, by simpa using hk, by omega⟩
    · rw [List.indexOf_cons_ne _ hxu, List.count_cons_of_ne (fun h => hxu h.symm), ← ih]
      constructor
      · rintro ⟨i, h1, h2⟩
        cases i with
        | zero =>
          simp at h1
          exact absurd h1 hxu
        | succ k => exact ⟨k, by simpa using h1, by omega⟩
      · rintro ⟨k, h1, h2⟩
        exact ⟨k + 1, by simpa using h1, by omega⟩

/-- A value is in `duplicates` exactly when it occurs at least twice in `validUrls`. -/
theorem mem_duplicatesOf (xs : List String) (u : String) :
    u ∈ duplicatesOf xs ↔ 2 ≤ xs.count u :=
  (mem_duplicatesOf_iff_index xs u).trans (exists_index_ne_indexOf_iff u xs)

theorem duplicatesOf_of_nodup (xs : List String) (h : xs.Nodup) (u : String) :
    u ∉ duplicatesOf xs := by
  rw [mem_duplicatesOf]
  have := List.nodup_iff_count_le_one.1 h u
  omega

theorem collectValid_eq (parseURL : String → Option URLRecord) (urls : List String) :
    collectValid parseURL urls =
      (urls.map trim).filter (fun t => truthyStr t && validateURL parseURL t) := by
  induction urls with
  | nil => rfl
  | cons u rest ih =>
    unfold collectValid
    by_cases h : (truthyStr (trim u) && validateURL parseURL (trim u)) = true
    · simp [h, ih]
    · simp [h, ih]

theorem count_collectValid (parseURL : String → Option URLRecord) (urls : List String)
    (t : String) :
    (collectValid parseURL urls).count t =
      if truthyStr t && validateURL parseURL t then (urls.map trim).count t else 0 := by
  rw [collectValid_eq]
  by_cases h : (truthyStr t && validateURL parseURL t) = true
  · rw [if_pos h]
    exact List.count_filter (p := fun t => truthyStr t && validateURL parseURL t) h
  · rw [if_neg h]
    apply List.count_eq_zero_of_not_mem
    intro hmem
    exact h (List.mem_filter.1 hmem).2

theorem zipWith_map_self {α β γ : Type} (f : α → β → γ) (g : α → β) (l : List α) :
    List.zipWith f l (l.map g) = l.map (fun a => f a (g a)) := by
  induction l with
  | nil => rfl
  | cons a rest ih => simp [ih]

/-- The error slots of `validateUrls`, entry by entry: the duplicate message where the
trimmed entry occurs at least twice among the valid ones, the error of the first loop
elsewhere. -/
theorem validateUrls_errors (parseURL : String → Option URLRecord) (urls : List String) :
    (validateUrls parseURL urls).errors =
      urls.map (fun u =>
        if 2 ≤ (collectValid parseURL urls).count (trim u) then some duplicateError
        else entryError parseURL urls.length u) := by
  unfold validateUrls
  simp only
  by_cases hlen : (uniqueValues (collectValid parseURL urls)).length =
      (collectValid parseURL urls).length
  · have hnd := (uniqueValues_length_eq_iff _).1 hlen
    have hne : ((uniqueValues (collectValid parseURL urls)).length !=
        (collectValid parseURL urls).length) = false := by simp [hlen]
    rw [hne]
    simp only [Bool.false_eq_true, if_false]
    refine List.map_congr_left ?_
    intro u _
    have := List.nodup_iff_count_le_one.1 hnd (trim u)
    rw [if_neg (by omega)]
  · have hne : ((uniqueValues (collectValid parseURL urls)).length !=
        (collectValid parseURL urls).length) = true := by simp [hlen]
    rw [hne]
    simp only [if_true]
    rw [zipWith_map_self]
    refine List.map_congr_left ?_
    intro u _
    by_cases hc : 2 ≤ (collectValid parseURL urls).count (trim u)
    · rw [if_pos hc, if_pos ((contains_iff_mem _ _).2 ((mem_duplicatesOf _ _).2 hc))]
    · rw [if_neg hc, if_neg (fun h => hc ((mem_duplicatesOf _ _).1 ((contains_iff_mem _ _).1 h)))]

theorem validateUrls_error_at (parseURL : String → Option URLRecord) (urls : List String)
    (i : ℕ) (u : String) (hu : urls[i]? = some u) :
    (validateUrls parseURL urls).errors[i]? =
      some (if 2 ≤ (collectValid parseURL urls).count (trim u) then some duplicateError
            else entryError parseURL urls.length u) := by
  rw [validateUrls_errors, List.getElem?_map, hu]
  rfl

theorem validateUrls_validUrls (parseURL : String → Option URLRecord) (urls : List String) :
    (validateUrls parseURL urls).validUrls = uniqueValues (collectValid parseURL urls) := rfl

theorem validateUrls_isValid (parseURL : String → Option URLRecord) (urls : List String) :
    (validateUrls parseURL urls).isValid = true ↔
      ∀ e ∈ (validateUrls parseURL urls).errors, e = none := by
  have : (validateUrls parseURL urls).isValid =
      (validateUrls parseURL urls).errors.all (fun e => e.isNone) := rfl
  rw [this, List.all_eq_true]
  constructor
  · intro h e he
    simpa using h e he
  · intro h e he
    simp [h e he]

theorem entryError_ne_duplicate (parseURL : String → Option URLRecord) (n : ℕ) (u : String) :
    entryError parseURL n u ≠ some duplicateError := by
  unfold entryError
  split
  · split
    · intro h
      exact absurd (Option.some.inj h) (by decide)
    · intro h
      cases h
  · split
    · intro h
      exact absurd (Option.some.inj h) (by decide)
    · intro h
      cases h

theorem two_le_count_iff_other_index (a : String) :
    ∀ (l : List String) (i : ℕ), l[i]? = some a →
      (2 ≤ l.count a ↔ ∃ j, j ≠ i ∧ l[j]? = some a) := by
  intro l
  induction l with
  | nil =>
    intro i h
    simp at h
  | cons x rest ih =>
    intro i h
    by_cases hxa : x = a
    · subst hxa
      rw [List.count_cons_self]
      cases i with
      | zero =>
        constructor
        · intro hc
          have hmem : x ∈ rest := List.count_pos_iff.1 (by omega)
          obtain ⟨k, hk⟩ := List.mem_iff_getElem?.1 hmem
          exact ⟨k + 1, by omega, by simpa using hk⟩
        · rintro ⟨j, hj, hget⟩
          cases j with
          | zero => exact absurd rfl hj
          | succ k =>
            have hmem : x ∈ rest := List.mem_iff_getElem?.2 ⟨k, by simpa using hget⟩
            have := List.count_pos_iff.2 hmem
            omega
      | succ k =>
        have hmem : x ∈ rest := List.mem_iff_getElem?.2 ⟨k, by simpa using h⟩
        have := List.count_pos_iff.2 hmem
        constructor
        · intro _
          exact ⟨0, by omega, by simp⟩
        · intro _
          omega
    · rw [List.count_cons_of_ne (fun h => hxa h.symm)]
      cases i with
      | zero =>
        simp at h
        exact absurd h hxa
      | succ k =>
        have hk : rest[k]? = some a := by simpa using h
        rw [ih k hk]
        constructor
        · rintro ⟨j, hj, hget⟩
          exact ⟨j + 1, by omega, by simpa using hget⟩
        · rintro ⟨j, hj, hget⟩
          cases j with
          | zero =>
            simp at hget
            exact absurd hget hxa
          | succ m => exact ⟨m, by omega, by simpa using hget⟩

end Crux

namespace Crux

/-! ## Duplicate detection (C16) -/

/-- C16 as stated fails: with the same URL entered twice, the first occurrence (index 0)
carries the duplicate error although no earlier entry equals it. -/
theorem first_occurrence_is_flagged :
    (validateUrls exampleParse repeatedUrls).errors =
        [some duplicateError, some duplicateError] ∧
      (validateUrls exampleParse repeatedUrls).errors[0]? = some (some duplicateError) := by
  refine ⟨by decide, by decide⟩

/-- C16 amended: an index carries the duplicate error exactly when its trimmed entry
is non-empty, passes `validateURL` and equals the trimmed entry at another index,
earlier or later; so the first occurrence of a repeated URL is flagged as well. -/
theorem duplicate_error_iff (parseURL : String → Option URLRecord) (urls : List String)
    (i : ℕ) (u : String) (hu : urls[i]? = some u) :
    (validateUrls parseURL urls).errors[i]? = some (some duplicateError) ↔
      trim u ≠ "" ∧ validateURL parseURL (trim u) = true ∧
        ∃ j v, j ≠ i ∧ urls[j]? = some v ∧ trim v = trim u := by
  rw [validateUrls_error_at parseURL urls i u hu, count_collectValid]
  have hi : (urls.map trim)[i]? = some (trim u) := by
    rw [List.getElem?_map, hu]
    rfl
  have hother := two_le_count_iff_other_index (trim u) (urls.map trim) i hi
  have hidx : (∃ j, j ≠ i ∧ (urls.map trim)[j]? = some (trim u)) ↔
      ∃ j v, j ≠ i ∧ urls[j]? = some v ∧ trim v = trim u := by
    constructor
    · rintro ⟨j, hj, hget⟩
      rw [List.getElem?_map] at hget
      cases hv : urls[j]? with
      | none => simp [hv] at hget
      | some v =>
        simp only [hv, Option.map_some', Option.some.injEq] at hget
        exact ⟨j, v, hj, hv, hget⟩
    · rintro ⟨j, v, hj, hget, htrim⟩
      exact ⟨j, hj, by rw [List.getElem?_map, hget]; simp [htrim]⟩
  by_cases hvalid : (truthyStr (trim u) && validateURL parseURL (trim u)) = true
  · rw [if_pos hvalid]
    have hv2 := hvalid
    simp only [Bool.and_eq_true, truthyStr_iff] at hv2
    constructor
    · intro h
      by_cases hc : 2 ≤ (urls.map trim).count (trim u)
      · exact ⟨hv2.1, hv2.2, hidx.1 (hother.1 hc)⟩
      · rw [if_neg hc] at h
        exact absurd (Option.some.inj h) (entryError_ne_duplicate parseURL _ u)
    · rintro ⟨_, _, hex⟩
      rw [if_pos (hother.2 (hidx.2 hex))]
  · rw [if_neg hvalid]
    constructor
    · intro h
      rw [if_neg (by omega)] at h
      exact absurd (Option.some.inj h) (entryError_ne_duplicate parseURL _ u)
    · rintro ⟨h1, h2, _⟩
      exact absurd (by simp [truthyStr_iff, h1, h2]) hvalid

/-- Witness of the amended C16: in the list holding the same URL twice, index 0 carries
the duplicate error, and index 1 holds the entry it repeats. -/
theorem duplicate_error_iff_witness :
    (validateUrls exampleParse repeatedUrls).errors[0]? = some (some duplicateError) ∧
      (trim "https://a.example" ≠ "" ∧
        validateURL exampleParse (trim "https://a.example") = true ∧
        ∃ j v, j ≠ 0 ∧ repeatedUrls[j]? = some v ∧ trim v = trim "https://a.example") :=
  ⟨by decide,
   (duplicate_error_iff exampleParse repeatedUrls 0 "https://a.example" rfl).1 (by decide)⟩

/-! ## Per-entry validation (C17) -/

/-- C17: for every list and every index, (a) an entry that is empty after trimming
carries "At least one URL is required" when the list has exactly one entry and no
error otherwise; (b) a non-empty trimmed entry that fails `validateURL` (it does not
parse, or its scheme is neither http nor https) carries the "must include http:// or
https://" error; in both cases the error is the same in every list of the same length
that holds the entry at that index. -/
theorem entry_error (parseURL : String → Option URLRecord) (urls : List String)
    (i : ℕ) (u : String) (hu : urls[i]? = some u) :
    (trim u = "" →
        (validateUrls parseURL urls).errors[i]? =
          some (if urls.length = 1 then some requiredError else none)) ∧
      (trim u ≠ "" → validateURL parseURL (trim u) = false →
        (validateUrls parseURL urls).errors[i]? = some (some invalidUrlError)) ∧
      (∀ other : List String, other.length = urls.length → other[i]? = some u →
        (trim u = "" ∨ validateURL parseURL (trim u) = false) →
        (validateUrls parseURL other).errors[i]? = (validateUrls parseURL urls).errors[i]?) := by
  have hnodup : ∀ l : List String,
      (trim u = "" ∨ validateURL parseURL (trim u) = false) →
      ¬ 2 ≤ (collectValid parseURL l).count (trim u) := by
    intro l h
    rw [count_collectValid]
    have : ¬ (truthyStr (trim u) && validateURL parseURL (trim u)) = true := by
      rcases h with h | h
      · simp [truthyStr, h]
      · simp [h]
    rw [if_neg this]
    omega
  refine ⟨?_, ?_, ?_⟩
  · intro hempty
    rw [validateUrls_error_at parseURL urls i u hu, if_neg (hnodup urls (Or.inl hempty))]
    unfold entryError
    simp [truthyStr, hempty]
  · intro hne hinv
    rw [validateUrls_error_at parseURL urls i u hu, if_neg (hnodup urls (Or.inr hinv))]
    unfold entryError
    simp [truthyStr, hne, hinv]
  · intro other hlen hother hcase
    rw [validateUrls_error_at parseURL urls i u hu, validateUrls_error_at parseURL other i u hother,
      if_neg (hnodup urls hcase), if_neg (hnodup other hcase), hlen]

/-- Witness of C17: a single empty entry carries the "required" error; in a list of
three entries the empty one carries none and the entry without scheme carries the
"must include" error. -/
theorem entry_error_witness :
    (validateUrls exampleParse [""]).errors[0]? =
        some (if [""].length = 1 then some requiredError else none) ∧
      (validateUrls exampleParse mixedUrls).errors[2]? = some (some invalidUrlError) ∧
      (validateUrls exampleParse mixedUrls).errors = [none, none, some invalidUrlError] :=
  ⟨(entry_error exampleParse [""] 0 "" rfl).1 (by decide),
   (entry_error exampleParse mixedUrls 2 "a.example" rfl).2.1 (by decide) (by decide),
   by decide⟩

/-! ## Output of the normalizer (C18) -/

/-- C18: for every input list, the `validUrls` returned by `validateUrls` has no
duplicate entries; its entries are exactly the trimmed entries that are non-empty and
pass `validateURL`; they stand in the order of their first occurrence among those;
and its length is the number of distinct such entries. -/
theorem validUrls_unique (parseURL : String → Option URLRecord) (urls : List String) :
    (validateUrls parseURL urls).validUrls.Nodup ∧
      (∀ t, t ∈ (validateUrls parseURL urls).validUrls ↔
        t ∈ (urls.map trim).filter (fun t => truthyStr t && validateURL parseURL t)) ∧
      (validateUrls parseURL urls).validUrls.Sublist
        ((urls.map trim).filter (fun t => truthyStr t && validateURL parseURL t)) ∧
      (∀ a b,
        List.indexOf a (validateUrls parseURL urls).validUrls <
            List.indexOf b (validateUrls parseURL urls).validUrls ↔
          List.indexOf a ((urls.map trim).filter
              (fun t => truthyStr t && validateURL parseURL t)) <
            List.indexOf b ((urls.map trim).filter
              (fun t => truthyStr t && validateURL parseURL t))) ∧
      (validateUrls parseURL urls).validUrls.length =
        ((urls.map trim).filter
          (fun t => truthyStr t && validateURL parseURL t)).toFinset.card := by
  rw [validateUrls_validUrls, collectValid_eq]
  exact ⟨uniqueValues_nodup _, mem_uniqueValues _, uniqueValues_sublist _,
    fun a b => uniqueValues_order a b _, uniqueValues_length _⟩

/-- Witness of C18: of the five entries the two distinct URLs are returned, in the
order in which they first occur. -/
theorem validUrls_unique_witness :
    (validateUrls exampleParse entriesWithRepeat).validUrls =
        ["https://b.example", "https://a.example"] ∧
      (validateUrls exampleParse entriesWithRepeat).validUrls.Nodup :=
  ⟨by decide, (validUrls_unique exampleParse entriesWithRepeat).1⟩

/-! ## No submission on validation failure (C19) -/

/-- C19: `handleAnalyze` invokes `onAnalyze` only when no index carries an error, and
then with the non-empty `validUrls` of `validateUrls` and the selected form factor;
whenever some index carries an error `onAnalyze` is not invoked; and it is invoked
whenever no index carries an error and `validUrls` is not empty. -/
theorem submit_only_when_valid (parseURL : String → Option URLRecord) (urls : List String)
    (formFactor : FormFactor) :
    (∀ arg, URLInput.handleAnalyze parseURL urls formFactor = some arg →
        (∀ e ∈ (validateUrls parseURL urls).errors, e = none) ∧
          arg.1 = (validateUrls parseURL urls).validUrls ∧ arg.1 ≠ [] ∧ arg.2 = formFactor) ∧
      ((∃ e ∈ (validateUrls parseURL urls).errors, e ≠ none) →
        URLInput.handleAnalyze parseURL urls formFactor = none) ∧
      ((∀ e ∈ (validateUrls parseURL urls).errors, e = none) →
        (validateUrls parseURL urls).validUrls ≠ [] →
        URLInput.handleAnalyze parseURL urls formFactor =
          some ((validateUrls parseURL urls).validUrls, formFactor)) := by
  have hlen : ∀ l : List String, decide (l.length > 0) = true ↔ l ≠ [] := by
    intro l
    cases l <;> simp
  refine ⟨?_, ?_, ?_⟩
  · intro arg h
    unfold URLInput.handleAnalyze at h
    simp only at h
    split at h
    · rename_i hcond
      simp only [Bool.and_eq_true] at hcond
      cases h
      exact ⟨(validateUrls_isValid parseURL urls).1 hcond.1, rfl, (hlen _).1 hcond.2, rfl⟩
    · cases h
  · rintro ⟨e, he, hne⟩
    unfold URLInput.handleAnalyze
    simp only
    rw [if_neg]
    intro hcond
    simp only [Bool.and_eq_true] at hcond
    exact hne ((validateUrls_isValid parseURL urls).1 hcond.1 e he)
  · intro hall hne
    unfold URLInput.handleAnalyze
    simp only
    rw [if_pos]
    simp only [Bool.and_eq_true]
    exact ⟨(validateUrls_isValid parseURL urls).2 hall, (hlen _).2 hne⟩

/-- Witness of C19: the list with an entry without scheme is not submitted, the list
with one http URL and one empty entry is submitted as that one URL. -/
theorem submit_only_when_valid_witness :
    URLInput.handleAnalyze exampleParse mixedUrls FormFactor.PHONE = none ∧
      URLInput.handleAnalyze exampleParse ["https://b.example", ""] FormFactor.PHONE =
        some (["https://b.example"], FormFactor.PHONE) :=
  ⟨(submit_only_when_valid exampleParse mixedUrls FormFactor.PHONE).2.1
      ⟨some invalidUrlError, by decide, by decide⟩,
   by decide⟩

/-! ## Cap at ten entries (C20) -/

theorem urlStep_length (urls : List String) (action : UrlAction)
    (h : 1 ≤ urls.length ∧ urls.length ≤ 10) :
    1 ≤ (urlStep urls action).length ∧ (urlStep urls action).length ≤ 10 := by
  cases action with
  | change index value =>
    simp only [urlStep]
    split
    · rw [List.length_set]
      exact h
    · exact h
  | add =>
    simp only [urlStep]
    split
    · rw [List.length_append, List.length_singleton]
      omega
    · exact h
  | remove index =>
    simp only [urlStep]
    split
    · rw [List.length_eraseIdx]
      split <;> omega
    · exact h

theorem foldl_urlStep_length (actions : List UrlAction) :
    ∀ urls : List String, 1 ≤ urls.length ∧ urls.length ≤ 10 →
      1 ≤ (actions.foldl urlStep urls).length ∧ (actions.foldl urlStep urls).length ≤ 10 := by
  induction actions with
  | nil =>
    intro urls h
    exact h
  | cons a rest ih =>
    intro urls h
    exact ih (urlStep urls a) (urlStep_length urls a h)

theorem validUrls_length_le (parseURL : String → Option URLRecord) (urls : List String) :
    (validateUrls parseURL urls).validUrls.length ≤ urls.length := by
  rw [validateUrls_validUrls, collectValid_eq]
  calc (uniqueValues ((urls.map trim).filter _)).length
      ≤ ((urls.map trim).filter _).length := (uniqueValues_sublist _).length_le
    _ ≤ (urls.map trim).length := List.length_filter_le _ _
    _ = urls.length := List.length_map _ _

/-- C20: whatever sequence of edits, additions and removals the user performs on the
form, the `urls` state holds between one and ten entries, and the sequence returned by
`validateUrls` for it has at most ten entries. -/
theorem validUrls_at_most_ten (parseURL : String → Option URLRecord)
    (actions : List UrlAction) :
    1 ≤ (urlsAfter actions).length ∧ (urlsAfter actions).length ≤ 10 ∧
      (validateUrls parseURL (urlsAfter actions)).validUrls.length ≤ 10 := by
  have h := foldl_urlStep_length actions [""] ⟨by simp, by simp⟩
  exact ⟨h.1, h.2, le_trans (validUrls_length_le parseURL _) h.2⟩

/-- Witness of C20: after twelve presses of "Add Another URL" the form holds ten
entries. -/
theorem validUrls_at_most_ten_witness :
    (urlsAfter twelveAdds).length = 10 ∧
      (validateUrls exampleParse (urlsAfter twelveAdds)).validUrls.length ≤ 10 :=
  ⟨by decide, (validUrls_at_most_ten exampleParse twelveAdds).2.2⟩

end Crux

namespace Crux

/-! ## Error of the binary64 operations -/

theorem roundHalfEven_err (q : ℚ) : |(roundHalfEven q : ℚ) - q| ≤ 1 / 2 := by
  unfold roundHalfEven
  have h1 : (⌊q⌋ : ℚ) ≤ q := Int.floor_le q
  have h2 : q < (⌊q⌋ : ℚ) + 1 := Int.lt_floor_add_one q
  simp only
  rw [abs_le]
  split_ifs with ha hb hc
  · constructor <;> linarith
  · push_cast
    constructor <;> linarith
  · constructor <;> linarith
  · push_cast
    constructor <;> linarith

theorem roundDouble_err (q : ℚ) (hq : 0 < q) : |roundDouble q - q| ≤ q / 2 ^ 53 := by
  unfold roundDouble
  rw [if_neg (ne_of_gt hq)]
  simp only
  rw [abs_of_pos hq]
  have hlog : (2 : ℚ) ^ Int.log 2 q ≤ q := by
    have := Int.zpow_log_le_self (b := 2) (by norm_num) hq
    simpa using this
  have hpos : (0 : ℚ) < (2 : ℚ) ^ (Int.log 2 q - 52) := zpow_pos (by norm_num) _
  have herr := roundHalfEven_err (q / (2 : ℚ) ^ (Int.log 2 q - 52))
  have hsplit : (2 : ℚ) ^ (Int.log 2 q - 52) = (2 : ℚ) ^ Int.log 2 q / 2 ^ 52 := by
    rw [zpow_sub₀ (by norm_num)]
    norm_num
  have hrew : (roundHalfEven (q / (2 : ℚ) ^ (Int.log 2 q - 52)) : ℚ) *
      (2 : ℚ) ^ (Int.log 2 q - 52) - q =
      ((roundHalfEven (q / (2 : ℚ) ^ (Int.log 2 q - 52)) : ℚ) -
        q / (2 : ℚ) ^ (Int.log 2 q - 52)) * (2 : ℚ) ^ (Int.log 2 q - 52) := by
    field_simp
  rw [hrew, abs_mul, abs_of_pos hpos]
  calc |(roundHalfEven (q / (2 : ℚ) ^ (Int.log 2 q - 52)) : ℚ) -
        q / (2 : ℚ) ^ (Int.log 2 q - 52)| * (2 : ℚ) ^ (Int.log 2 q - 52)
      ≤ 1 / 2 * (2 : ℚ) ^ (Int.log 2 q - 52) :=
        mul_le_mul_of_nonneg_right herr (le_of_lt hpos)
    _ = (2 : ℚ) ^ Int.log 2 q / 2 ^ 53 := by
        rw [hsplit]
        norm_num
        ring
    _ ≤ q / 2 ^ 53 := by
        apply div_le_div_of_nonneg_right hlog
        norm_num

theorem roundDouble_zero : roundDouble 0 = 0 := by
  simp [roundDouble]

theorem roundDouble_pos (q : ℚ) (hq : 0 < q) : 0 < roundDouble q := by
  have h := roundDouble_err q hq
  rw [abs_le] at h
  have h53 : q / 2 ^ 53 < q := by
    rw [div_lt_iff₀ (by norm_num)]
    nlinarith
  linarith [h.1]

theorem percentageValue_nonneg (count total : ℕ) : 0 ≤ percentageValue count total := by
  unfold percentageValue
  by_cases hx : (0 : ℚ) < (count : ℚ) / (total : ℚ)
  · have h1 := roundDouble_pos _ hx
    exact le_of_lt (roundDouble_pos _ (by linarith))
  · have hx0 : (count : ℚ) / (total : ℚ) = 0 :=
      le_antisymm (not_lt.1 hx) (div_nonneg (Nat.cast_nonneg _) (Nat.cast_nonneg _))
    rw [hx0, roundDouble_zero]
    simp [roundDouble_zero]

/-- The binary64 value of the percentage, times ten, is within `3000 / 2^53` of the
exact one. -/
theorem percentageValue_err (count total : ℕ) (htotal : 0 < total) (hle : count ≤ total) :
    |percentageValue count total * 10 - (count : ℚ) / (total : ℚ) * 100 * 10| ≤
      3000 / 2 ^ 53 := by
  have ht : (0 : ℚ) < (total : ℚ) := by exact_mod_cast htotal
  have hx1 : (count : ℚ) / (total : ℚ) ≤ 1 := by
    rw [div_le_one ht]
    exact_mod_cast hle
  by_cases hx : (0 : ℚ) < (count : ℚ) / (total : ℚ)
  · unfold percentageValue
    have e1 := roundDouble_err _ hx
    have p1 := roundDouble_pos _ hx
    have e2 := roundDouble_err (roundDouble ((count : ℚ) / (total : ℚ)) * 100) (by linarith)
    generalize (count : ℚ) / (total : ℚ) = x at hx hx1 e1 e2 p1 ⊢
    generalize roundDouble x = a at e1 e2 p1 ⊢
    generalize roundDouble (a * 100) = b at e2 ⊢
    have hε0 : (0 : ℚ) ≤ 1 / 2 ^ 53 := by norm_num
    have hε1 : (1 : ℚ) / 2 ^ 53 ≤ 1 := by norm_num
    rw [div_eq_mul_one_div] at e1 e2
    rw [div_eq_mul_one_div (3000 : ℚ)]
    generalize (1 : ℚ) / 2 ^ 53 = ε at hε0 hε1 e1 e2 ⊢
    rw [abs_le] at e1 e2 ⊢
    have hxε : x * ε ≤ ε := by
      have := mul_le_mul_of_nonneg_right hx1 hε0
      linarith
    have hxε0 : 0 ≤ x * ε := mul_nonneg (le_of_lt hx) hε0
    have ha2 : a ≤ 2 * x := by nlinarith [e1.2]
    have haε : a * ε ≤ 2 * (x * ε) := by
      have := mul_le_mul_of_nonneg_right ha2 hε0
      linarith
    have haε0 : 0 ≤ a * ε := mul_nonneg (le_of_lt p1) hε0
    constructor
    · nlinarith [e1.1, e2.1]
    · nlinarith [e1.2, e2.2]
  · have hx0 : (count : ℚ) / (total : ℚ) = 0 :=
      le_antisymm (not_lt.1 hx) (div_nonneg (Nat.cast_nonneg _) (Nat.cast_nonneg _))
    unfold percentageValue
    rw [hx0, roundDouble_zero]
    simp [roundDouble_zero]
    norm_num

theorem toFixed1_congr (x y : ℚ) (hx : 0 ≤ x) (hy : 0 ≤ y)
    (h : ⌊x * 10 + 1 / 2⌋ = ⌊y * 10 + 1 / 2⌋) : toFixed1 x = toFixed1 y := by
  unfold toFixed1
  rw [abs_of_nonneg hx, abs_of_nonneg hy, h, if_neg (not_lt.2 hx), if_neg (not_lt.2 hy)]

/-- Away from a value halfway between two one-decimal numbers the binary64 percentage
and the exact one round to the same one-decimal number. -/
theorem percentage_floor (count total : ℕ) (htotal : 0 < total) (hle : count ≤ total)
    (hsmall : total ≤ 2 ^ 40) (hnotie : (2000 * count + total) % (2 * total) ≠ 0) :
    ⌊percentageValue count total * 10 + 1 / 2⌋ =
      ⌊(count : ℚ) / (total : ℚ) * 100 * 10 + 1 / 2⌋ := by
  have ht : (0 : ℚ) < (total : ℚ) := by exact_mod_cast htotal
  have herr := percentageValue_err count total htotal hle
  rw [abs_le] at herr
  have hdm := Nat.div_add_mod (2000 * count + total) (2 * total)
  have hmodlt : (2000 * count + total) % (2 * total) < 2 * total :=
    Nat.mod_lt _ (by omega)
  have hmodpos : 1 ≤ (2000 * count + total) % (2 * total) := by omega
  generalize hn : (2000 * count + total) / (2 * total) = n0 at hdm
  generalize hr : (2000 * count + total) % (2 * total) = r at hdm hmodlt hmodpos
  have hdmq : (2 * (total : ℚ)) * (n0 : ℚ) + (r : ℚ) = 2000 * (count : ℚ) + (total : ℚ) := by
    exact_mod_cast hdm
  have hrlt : (r : ℚ) + 1 ≤ 2 * (total : ℚ) := by exact_mod_cast hmodlt
  have hrpos : (1 : ℚ) ≤ (r : ℚ) := by exact_mod_cast hmodpos
  have hsm : (total : ℚ) ≤ 2 ^ 40 := by exact_mod_cast hsmall
  have hy : (count : ℚ) / (total : ℚ) * 100 * 10 + 1 / 2 =
      (n0 : ℚ) + (r : ℚ) / (2 * (total : ℚ)) := by
    have e1 : (count : ℚ) / (total : ℚ) * 100 * 10 + 1 / 2 =
        (2000 * (count : ℚ) + (total : ℚ)) / (2 * (total : ℚ)) := by
      field_simp
      ring
    rw [e1, ← hdmq]
    field_simp
    ring
  have hinv : (3000 : ℚ) / 2 ^ 53 < 1 / (2 * (total : ℚ)) := by
    rw [div_lt_div_iff₀ (by norm_num) (by linarith)]
    have : (2 : ℚ) ^ 53 = 2 ^ 40 * 8192 := by norm_num
    nlinarith
  have hlow : (1 : ℚ) / (2 * (total : ℚ)) ≤ (r : ℚ) / (2 * (total : ℚ)) :=
    div_le_div_of_nonneg_right hrpos (by linarith)
  have hhigh : (r : ℚ) / (2 * (total : ℚ)) ≤ 1 - 1 / (2 * (total : ℚ)) := by
    rw [div_le_iff₀ (by linarith)]
    have : (1 - 1 / (2 * (total : ℚ))) * (2 * (total : ℚ)) = 2 * (total : ℚ) - 1 := by
      field_simp
    linarith
  have h1 : ⌊(count : ℚ) / (total : ℚ) * 100 * 10 + 1 / 2⌋ = (n0 : ℤ) := by
    rw [Int.floor_eq_iff]
    push_cast
    constructor <;> linarith
  have h2 : ⌊percentageValue count total * 10 + 1 / 2⌋ = (n0 : ℤ) := by
    rw [Int.floor_eq_iff]
    push_cast
    constructor <;> linarith [herr.1, herr.2]
  rw [h1, h2]

/-- Away from a halfway value the string of the code is the exact rounding. -/
theorem percentageString_exact (count total : ℕ) (htotal : 0 < total) (hle : count ≤ total)
    (hsmall : total ≤ 2 ^ 40) (hnotie : (2000 * count + total) % (2 * total) ≠ 0) :
    percentageString count total = exactPercentageString count total := by
  unfold percentageString exactPercentageString
  refine toFixed1_congr _ _ (percentageValue_nonneg count total) ?_
    (percentage_floor count total htotal hle hsmall hnotie)
  exact mul_nonneg (div_nonneg (Nat.cast_nonneg _) (Nat.cast_nonneg _)) (by norm_num)

/-- With fewer than sixteen results no percentage is a halfway value. -/
theorem no_tie_below_sixteen :
    ∀ total : Fin 16, ∀ count : Fin 16, 0 < total.val → count.val ≤ total.val →
      (2000 * count.val + total.val) % (2 * total.val) ≠ 0 := by
  decide

theorem roundHalfEven_eq (q : ℚ) (m : ℤ) (h1 : (m : ℚ) - 1 / 2 < q)
    (h2 : q < (m : ℚ) + 1 / 2) : roundHalfEven q = m := by
  unfold roundHalfEven
  simp only
  by_cases hqm : (m : ℚ) ≤ q
  · have hf : ⌊q⌋ = m := by
      rw [Int.floor_eq_iff]
      constructor <;> linarith
    rw [hf, if_pos (by linarith)]
  · have hf : ⌊q⌋ = m - 1 := by
      rw [Int.floor_eq_iff]
      push_cast
      constructor <;> linarith
    rw [hf]
    push_cast
    rw [if_neg (by linarith), if_pos (by linarith)]
    ring

theorem roundDouble_eq (q : ℚ) (e m : ℤ) (hq : 0 < q) (hlo : (2 : ℚ) ^ (e + 52) ≤ q)
    (hhi : q < (2 : ℚ) ^ (e + 53)) (h1 : (m : ℚ) - 1 / 2 < q / (2 : ℚ) ^ e)
    (h2 : q / (2 : ℚ) ^ e < (m : ℚ) + 1 / 2) :
    roundDouble q = (m : ℚ) * (2 : ℚ) ^ e := by
  have hlog : Int.log 2 q = e + 52 := by
    have a1 : e + 52 ≤ Int.log 2 q :=
      (Int.zpow_le_iff_le_log (b := 2) (by norm_num) hq).1 (by simpa using hlo)
    have a2 : Int.log 2 q < e + 53 :=
      (Int.lt_zpow_iff_log_lt (b := 2) (by norm_num) hq).1 (by simpa using hhi)
    omega
  unfold roundDouble
  rw [if_neg (ne_of_gt hq), abs_of_pos hq]
  simp only
  rw [hlog]
  have he : e + 52 - 52 = e := by omega
  rw [he, roundHalfEven_eq _ m h1 h2]

/-- The binary64 value of `(23 / 80) * 100` lies below 28.75. -/
theorem percentageValue_23_80 :
    percentageValue 23 80 = (8092405580431359 : ℚ) * (2 : ℚ) ^ (-48 : ℤ) := by
  unfold percentageValue
  have h1 : roundDouble (((23 : ℕ) : ℚ) / ((80 : ℕ) : ℚ)) =
      ((5179139571476070 : ℤ) : ℚ) * (2 : ℚ) ^ (-54 : ℤ) := by
    apply roundDouble_eq <;> norm_num
  rw [h1]
  have h2 : roundDouble (((5179139571476070 : ℤ) : ℚ) * (2 : ℚ) ^ (-54 : ℤ) * 100) =
      ((8092405580431359 : ℤ) : ℚ) * (2 : ℚ) ^ (-48 : ℤ) := by
    apply roundDouble_eq <;> norm_num
  rw [h2]
  norm_num

theorem percentageString_23_80 : percentageString 23 80 = "28.7" := by
  unfold percentageString toFixed1
  rw [percentageValue_23_80]
  have hfloor : ⌊|(8092405580431359 : ℚ) * (2 : ℚ) ^ (-48 : ℤ)| * 10 + 1 / 2⌋ = 287 := by
    rw [Int.floor_eq_iff]
    constructor <;> norm_num [abs_of_pos]
  rw [hfloor, if_neg (by norm_num)]
  decide

theorem exactPercentageString_23_80 : exactPercentageString 23 80 = "28.8" := by
  unfold exactPercentageString toFixed1
  have hfloor : ⌊|((23 : ℕ) : ℚ) / ((80 : ℕ) : ℚ) * 100| * 10 + 1 / 2⌋ = 288 := by
    rw [Int.floor_eq_iff]
    constructor <;> norm_num [abs_of_pos]
  rw [hfloor, if_neg (by norm_num)]
  decide

end Crux

namespace Crux

/-! ## Rating percentages (C14) -/

theorem summaryPercentages_eq (data : AnalysisResponse) (hne : data.results ≠ []) :
    summaryPercentages (some data) =
      some
        { goodPercentage := percentageString
            (data.results.filter (fun r => r.overall_performance == some "Good")).length
            data.results.length
          needsImprovementPercentage := percentageString
            (data.results.filter
              (fun r => r.overall_performance == some "Needs Improvement")).length
            data.results.length
          poorPercentage := percentageString
            (data.results.filter (fun r => r.overall_performance == some "Poor")).length
            data.results.length } := by
  have hlen : (data.results.length == 0) = false := by
    cases hr : data.results with
    | nil => exact absurd hr hne
    | cons r rest => rfl
  simp only [summaryPercentages, summaryStats, hlen]
  rfl

/-- C14 as stated fails at a value halfway between two one-decimal numbers: with 23 of
80 results rated "Good" the exact percentage is 28.75, which rounds to "28.8", while
`goodPercentage` is "28.7", because the binary64 product `(23 / 80) * 100` lies just
below 28.75. -/
theorem percentage_of_halfway_value :
    summaryStats (some (responseOf eightyRows)) =
        some { totalUrls := 80, goodCount := 23, needsImprovementCount := 0, poorCount := 57,
               unknownCount := 0 } ∧
      (summaryPercentages (some (responseOf eightyRows))).map (fun p => p.goodPercentage) =
        some "28.7" ∧
      ((23 : ℕ) : ℚ) / ((80 : ℕ) : ℚ) * 100 = 2875 / 100 ∧
      exactPercentageString 23 80 = "28.8" := by
  have hs : summaryStats (some (responseOf eightyRows)) =
      some { totalUrls := 80, goodCount := 23, needsImprovementCount := 0, poorCount := 57,
             unknownCount := 0 } := by decide
  refine ⟨hs, ?_, by norm_num, exactPercentageString_23_80⟩
  simp only [summaryPercentages, hs, Option.map_some']
  rw [percentageString_23_80]

/-- C14 amended: for every response with a non-empty results sequence (of at most
`2^40` entries) each percentage of `summaryStats` is the one-decimal string of the
binary64 value of `(count / total) * 100`; it is the exact value of
`count / total * 100` rounded to one decimal place whenever that value is not halfway
between two one-decimal numbers, and so always when there are fewer than sixteen
results. -/
theorem percentages_rounded (data : AnalysisResponse) (hne : data.results ≠ [])
    (hsmall : data.results.length ≤ 2 ^ 40) :
    summaryPercentages (some data) =
        some
          { goodPercentage := percentageString
              (data.results.filter (fun r => r.overall_performance == some "Good")).length
              data.results.length
            needsImprovementPercentage := percentageString
              (data.results.filter
                (fun r => r.overall_performance == some "Needs Improvement")).length
              data.results.length
            poorPercentage := percentageString
              (data.results.filter (fun r => r.overall_performance == some "Poor")).length
              data.results.length } ∧
      (∀ label : String,
        (2000 * (data.results.filter (fun r => r.overall_performance == some label)).length +
            data.results.length) % (2 * data.results.length) ≠ 0 →
        percentageString
            (data.results.filter (fun r => r.overall_performance == some label)).length
            data.results.length =
          exactPercentageString
            (data.results.filter (fun r => r.overall_performance == some label)).length
            data.results.length) ∧
      (data.results.length < 16 → ∀ label : String,
        percentageString
            (data.results.filter (fun r => r.overall_performance == some label)).length
            data.results.length =
          exactPercentageString
            (data.results.filter (fun r => r.overall_performance == some label)).length
            data.results.length) := by
  have hpos : 0 < data.results.length := List.length_pos.2 hne
  have hle : ∀ label : String,
      (data.results.filter (fun r => r.overall_performance == some label)).length ≤
        data.results.length := fun label => List.length_filter_le _ _
  refine ⟨summaryPercentages_eq data hne, ?_, ?_⟩
  · intro label hnotie
    exact percentageString_exact _ _ hpos (hle label) hsmall hnotie
  · intro h16 label
    refine percentageString_exact _ _ hpos (hle label) hsmall ?_
    have hc : (data.results.filter (fun r => r.overall_performance == some label)).length < 16 :=
      lt_of_le_of_lt (hle label) h16
    exact no_tie_below_sixteen ⟨_, h16⟩ ⟨_, hc⟩ hpos (hle label)

/-- Witness of the amended C14: the ratings "Good", "Good", "Poor" give the counts 2, 0,
1, 0 and the good percentage "66.7". -/
theorem percentages_rounded_witness :
    summaryStats (some (responseOf twoGoodOnePoor)) =
        some { totalUrls := 3, goodCount := 2, needsImprovementCount := 0, poorCount := 1,
               unknownCount := 0 } ∧
      (summaryPercentages (some (responseOf twoGoodOnePoor))).map (fun p => p.goodPercentage) =
        some "66.7" := by
  refine ⟨by decide, ?_⟩
  obtain ⟨h1, _, h3⟩ := percentages_rounded (responseOf twoGoodOnePoor) (by decide) (by decide)
  have hgood := h3 (by decide) "Good"
  have hcount : ((responseOf twoGoodOnePoor).results.filter
      (fun r => r.overall_performance == some "Good")).length = 2 := by decide
  have hlen : (responseOf twoGoodOnePoor).results.length = 3 := by decide
  rw [hcount, hlen] at hgood
  have hexact : exactPercentageString 2 3 = "66.7" := by with_unfolding_all decide
  rw [h1]
  simp only [Option.map_some', hcount, hlen, hgood, hexact]

/-! ## Empty input to the aggregator (C15) -/

/-- C15: when the `data` prop is absent or its results sequence is empty,
`summaryStats` returns null: neither the counts nor the percentages, which divide by
the total, are computed. -/
theorem summaryStats_of_empty (data : Option AnalysisResponse)
    (h : data = none ∨ ∃ d, data = some d ∧ d.results = []) :
    summaryStats data = none ∧ summaryPercentages data = none := by
  have hs : summaryStats data = none := by
    rcases h with h | ⟨d, hd, hr⟩
    · rw [h]
      rfl
    · rw [hd]
      simp [summaryStats, hr]
  exact ⟨hs, by simp [summaryPercentages, hs]⟩

/-- Witness of C15: the response without results and the absent response. -/
theorem summaryStats_of_empty_witness :
    (summaryStats (some (responseOf [])) = none ∧
        summaryPercentages (some (responseOf [])) = none) ∧
      summaryStats none = none :=
  ⟨summaryStats_of_empty (some (responseOf [])) (Or.inr ⟨responseOf [], rfl, rfl⟩),
   rfl⟩

end Crux

namespace Crux

/-! ## Wire contract of `analyzeURLs` (C21) -/

theorem filter_length_pos_iff (p : String → Bool) (l : List String) :
    (l.filter p).length ≠ 0 ↔ ∃ x ∈ l, p x = true := by
  induction l with
  | nil => simp
  | cons x rest ih =>
    by_cases hx : p x = true
    · simp [List.filter_cons, hx]
    · simp only [List.filter_cons, hx, if_false, ih, List.mem_cons, Bool.false_eq_true]
      constructor
      · rintro ⟨y, hy, hpy⟩
        exact ⟨y, Or.inr hy, hpy⟩
      · rintro ⟨y, hy | hy, hpy⟩
        · subst hy
          exact absurd hpy hx
        · exact ⟨y, hy, hpy⟩

theorem analyzeURLs_array (parseURL : String → Option URLRecord) (entries : List String)
    (formFactor : FormFactor) :
    analyzeURLs parseURL (.array entries) formFactor =
      if entries.length = 0 then .error "At least one URL is required"
      else if 10 < entries.length then .error "Maximum 10 URLs allowed per request"
      else if (entries.filter fun url => (parseURL url).isSome).length = 0 then
        .error "No valid URLs provided"
      else .ok { urls := entries.filter fun url => (parseURL url).isSome,
                 form_factor := formFactor } := by
  simp only [analyzeURLs, beq_iff_eq, gt_iff_lt]

/-- C21: `analyzeURLs` posts a request only for an array of 1 to 10 entries of which at
least one parses; the posted `urls` field is then the sublist of the parseable entries
in input order, with 1 to 10 entries, next to the given form factor.  Otherwise it
rejects without posting: with "At least one URL is required" for an empty array or a
value that is not an array, with "Maximum 10 URLs allowed per request" for more than
ten entries, and with "No valid URLs provided" when none of 1 to 10 entries parses. -/
theorem analyzeURLs_contract (parseURL : String → Option URLRecord) (urls : UrlsArg)
    (formFactor : FormFactor) :
    (∀ request, analyzeURLs parseURL urls formFactor = .ok request →
        ∃ entries, urls = .array entries ∧ 1 ≤ entries.length ∧ entries.length ≤ 10 ∧
          (∃ url ∈ entries, (parseURL url).isSome = true) ∧
          request.urls = entries.filter (fun url => (parseURL url).isSome) ∧
          request.urls.Sublist entries ∧
          request.form_factor = formFactor ∧
          1 ≤ request.urls.length ∧ request.urls.length ≤ 10) ∧
      ((urls = .notArray ∨ urls = .array []) →
        analyzeURLs parseURL urls formFactor = .error "At least one URL is required") ∧
      (∀ entries, urls = .array entries → 10 < entries.length →
        analyzeURLs parseURL urls formFactor =
          .error "Maximum 10 URLs allowed per request") ∧
      (∀ entries, urls = .array entries → 1 ≤ entries.length → entries.length ≤ 10 →
        (∀ url ∈ entries, parseURL url = none) →
        analyzeURLs parseURL urls formFactor = .error "No valid URLs provided") ∧
      (∀ entries, urls = .array entries → 1 ≤ entries.length → entries.length ≤ 10 →
        (∃ url ∈ entries, (parseURL url).isSome = true) →
        analyzeURLs parseURL urls formFactor =
          .ok { urls := entries.filter (fun url => (parseURL url).isSome),
                form_factor := formFactor }) := by
  refine ⟨?_, ?_, ?_, ?_, ?_⟩
  · intro request h
    cases urls with
    | notArray => simp [analyzeURLs] at h
    | array entries =>
      rw [analyzeURLs_array] at h
      split at h
      · cases h
      · split at h
        · cases h
        · split at h
          · cases h
          · rename_i h0 h10 hv
            injection h with h
            subst h
            have hsub : (entries.filter fun url => (parseURL url).isSome).Sublist entries :=
              List.filter_sublist entries
            have hle := hsub.length_le
            refine ⟨entries, rfl, by omega, by omega, ?_, rfl, hsub, rfl, by simp only; omega,
              by simp only; omega⟩
            exact (filter_length_pos_iff _ entries).mp hv
  · rintro (h | h) <;> subst h <;> rfl
  · intro entries h hlen
    subst h
    rw [analyzeURLs_array, if_neg (by omega), if_pos hlen]
  · intro entries h h1 h10 hnone
    subst h
    rw [analyzeURLs_array, if_neg (by omega), if_neg (by omega), if_pos]
    rw [List.length_eq_zero, List.filter_eq_nil_iff]
    intro url hurl
    simp [hnone url hurl]
  · intro entries h h1 h10 hsome
    subst h
    rw [analyzeURLs_array, if_neg (by omega), if_neg (by omega), if_neg]
    exact (filter_length_pos_iff _ entries).mpr hsome

/-- Witness of C21: of two entries the parseable one is posted, and twelve entries are
rejected. -/
theorem analyzeURLs_contract_witness :
    analyzeURLs exampleParse (.array ["https://a.example", "nope"]) .PHONE =
        .ok { urls := ["https://a.example"], form_factor := .PHONE } ∧
      analyzeURLs exampleParse (.array twelveEntries) .PHONE =
        .error "Maximum 10 URLs allowed per request" :=
  ⟨(analyzeURLs_contract exampleParse (.array ["https://a.example", "nope"]) .PHONE).2.2.2.2
      ["https://a.example", "nope"] rfl (by decide) (by decide)
      ⟨"https://a.example", by decide, by decide⟩,
   (analyzeURLs_contract exampleParse (.array twelveEntries) .PHONE).2.2.1
      twelveEntries rfl (by decide)⟩

/-! ## Schema derivation (C22, C23) -/

theorem metricColumns_headers (results : List UrlResult) :
    (metricColumns results).map GridColumn.headerName = allMetrics results := by
  simp [metricColumns, Function.comp_def]

theorem mem_metricNames (results : List UrlResult) (name : String) :
    (name ∈ results.flatMap fun result => result.metrics.map fun metric => metric.metric_name) ↔
      ∃ result ∈ results, ∃ metric ∈ result.metrics, metric.metric_name = name := by
  simp [List.mem_flatMap]

/-- C22: for a response with at least one result, the columns of `DataTable` are the
three base columns followed by one metric column per distinct `metric_name` found in any
result: the headers of the metric columns have no repetition, are exactly the names that
occur in some result, and stand in the order in which the names are first seen when the
results and their metrics are traversed in order; each column's field is the sanitized
name. -/
theorem metric_columns_schema (d : AnalysisResponse) (h : d.results ≠ []) :
    columns (some d) = baseColumns ++ metricColumns d.results ∧
      ((metricColumns d.results).map GridColumn.headerName).Nodup ∧
      (∀ name, name ∈ (metricColumns d.results).map GridColumn.headerName ↔
        ∃ result ∈ d.results, ∃ metric ∈ result.metrics, metric.metric_name = name) ∧
      (∀ a b,
        List.indexOf a ((metricColumns d.results).map GridColumn.headerName) <
            List.indexOf b ((metricColumns d.results).map GridColumn.headerName) ↔
          List.indexOf a (d.results.flatMap fun result =>
              result.metrics.map fun metric => metric.metric_name) <
            List.indexOf b (d.results.flatMap fun result =>
              result.metrics.map fun metric => metric.metric_name)) ∧
      (∀ column ∈ metricColumns d.results, column.field = sanitizeKey column.headerName) := by
  rw [metricColumns_headers]
  refine ⟨?_, uniqueValues_nodup _, ?_, fun a b => uniqueValues_order a b _, ?_⟩
  · have hlen : d.results.length ≠ 0 := by
      intro h0
      exact h (List.length_eq_zero.mp h0)
    simp [columns, hlen]
  · intro name
    unfold allMetrics
    rw [mem_uniqueValues, mem_metricNames]
  · intro column hc
    simp only [metricColumns, List.mem_map] at hc
    obtain ⟨name, _, rfl⟩ := hc
    rfl

/-- Witness of C22: "CLS" is reported by both results and gets one column, between
"LCP" and "INP". -/
theorem metric_columns_schema_witness :
    (responseOf schemaRows).results ≠ [] ∧
      columns (some (responseOf schemaRows)) =
        baseColumns ++ metricColumns (responseOf schemaRows).results ∧
      (metricColumns (responseOf schemaRows).results).map GridColumn.headerName =
        ["LCP", "CLS", "INP"] :=
  ⟨by decide, (metric_columns_schema (responseOf schemaRows) (by decide)).1, by decide⟩

end Crux

namespace Crux

theorem mem_defaultSort (xs : List String) (t : String) : t ∈ defaultSort xs ↔ t ∈ xs :=
  (List.perm_insertionSort _ xs).mem_iff

theorem mem_availableMetrics (results : List UrlResult) (name : String) :
    name ∈ availableMetrics results ↔
      ∃ result ∈ results, ∃ metric ∈ result.metrics,
        metric.metric_name = name ∧ metric.p75_value ≠ none := by
  unfold availableMetrics
  split
  · rename_i h0
    have hnil : results = [] := List.length_eq_zero.mp (by simpa using h0)
    subst hnil
    simp
  · rw [mem_defaultSort, mem_uniqueValues]
    simp only [List.mem_flatMap, List.mem_map, List.mem_filter, Option.isSome_iff_ne_none,
      ne_eq]
    constructor
    · rintro ⟨result, hr, metric, ⟨hm, hp⟩, hn⟩
      exact ⟨result, hr, metric, hm, hn, hp⟩
    · rintro ⟨result, hr, metric, hm, hn, hp⟩
      exact ⟨result, hr, metric, ⟨hm, hp⟩, hn⟩

/-- Counterexample of C23: for one result whose only metric "CLS" has a null
`p75_value`, `DataTable` generates a "CLS" column and `FilterSort` offers no metric. -/
theorem null_metric_not_sortable :
    (metricColumns clsNullRows).map GridColumn.headerName = ["CLS"] ∧
      availableMetrics clsNullRows = [] ∧
      ¬ (∀ name, name ∈ availableMetrics clsNullRows ↔
        name ∈ (metricColumns clsNullRows).map GridColumn.headerName) := by
  refine ⟨by decide, by decide, ?_⟩
  intro h
  have h1 : "CLS" ∈ availableMetrics clsNullRows := (h "CLS").mpr (by decide)
  revert h1
  decide

theorem compareUnits_antisymm (a : List ℕ) :
    ∀ b : List ℕ, compareUnits b a = -compareUnits a b := by
  induction a with
  | nil =>
    intro b
    cases b <;> simp [compareUnits]
  | cons x xs ih =>
    intro b
    cases b with
    | nil => simp [compareUnits]
    | cons y ys =>
      simp only [compareUnits]
      split_ifs <;> first | omega | exact ih ys

theorem compareUnits_le_trans (a : List ℕ) :
    ∀ b c : List ℕ, compareUnits a b ≤ 0 → compareUnits b c ≤ 0 → compareUnits a c ≤ 0 := by
  induction a with
  | nil =>
    intro b c _ _
    cases c <;> simp [compareUnits]
  | cons x xs ih =>
    intro b c hab hbc
    cases b with
    | nil => simp [compareUnits] at hab
    | cons y ys =>
      cases c with
      | nil => simp [compareUnits] at hbc
      | cons z zs =>
        simp only [compareUnits] at hab hbc ⊢
        split_ifs at hab hbc ⊢ <;> first | omega | exact ih ys zs hab hbc

theorem compareUnits_eq_zero (a : List ℕ) : ∀ b : List ℕ, compareUnits a b = 0 → a = b := by
  induction a with
  | nil =>
    intro b h
    cases b with
    | nil => rfl
    | cons y ys => simp [compareUnits] at h
  | cons x xs ih =>
    intro b h
    cases b with
    | nil => simp [compareUnits] at h
    | cons y ys =>
      simp only [compareUnits] at h
      split_ifs at h with h1 h2
      · omega
      · have hxy : x = y := by omega
        rw [hxy, ih ys h]

theorem char_eq_of_toNat (c d : Char) (h : c.toNat = d.toNat) : c = d := by
  apply Char.ext
  apply UInt32.ext
  exact h

theorem char_toNat_range (c : Char) : c.toNat < 0xD800 ∨ (0xDFFF < c.toNat ∧ c.toNat < 0x110000) :=
  c.valid

theorem utf16Units_injective_aux :
    ∀ s t : List Char,
      (s.flatMap fun c =>
        if c.toNat < 0x10000 then [c.toNat]
        else [0xD800 + (c.toNat - 0x10000) / 0x400, 0xDC00 + (c.toNat - 0x10000) % 0x400]) =
      (t.flatMap fun c =>
        if c.toNat < 0x10000 then [c.toNat]
        else [0xD800 + (c.toNat - 0x10000) / 0x400, 0xDC00 + (c.toNat - 0x10000) % 0x400]) →
      s = t := by
  intro s
  induction s with
  | nil =>
    intro t h
    cases t with
    | nil => rfl
    | cons d ds =>
      simp only [List.flatMap_nil, List.flatMap_cons] at h
      split at h <;> simp at h
  | cons c cs ih =>
    intro t h
    cases t with
    | nil =>
      simp only [List.flatMap_nil, List.flatMap_cons] at h
      split at h <;> simp at h
    | cons d ds =>
      simp only [List.flatMap_cons] at h
      have hc := char_toNat_range c
      have hd := char_toNat_range d
      by_cases h1 : c.toNat < 0x10000 <;> by_cases h2 : d.toNat < 0x10000
      · simp only [h1, h2, if_true, List.singleton_append, List.cons.injEq] at h
        rw [char_eq_of_toNat c d h.1, ih ds h.2]
      · simp only [h1, h2, if_true, if_false, List.singleton_append, List.cons_append,
          List.nil_append, List.cons.injEq] at h
        omega
      · simp only [h1, h2, if_true, if_false, List.singleton_append, List.cons_append,
          List.nil_append, List.cons.injEq] at h
        omega
      · simp only [h1, h2, if_false, List.cons_append, List.nil_append, List.cons.injEq] at h
        obtain ⟨e1, e2, e3⟩ := h
        have : c.toNat = d.toNat := by omega
        rw [char_eq_of_toNat c d this, ih ds e3]

theorem utf16Units_injective (s t : String) (h : utf16Units s = utf16Units t) : s = t := by
  have := utf16Units_injective_aux s.data t.data h
  cases s
  cases t
  simp only at this
  rw [this]

theorem defaultSort_sorted (xs : List String) :
    (defaultSort xs).Sorted fun a b => compareUnits (utf16Units a) (utf16Units b) ≤ 0 := by
  haveI : IsTotal String (fun a b => compareUnits (utf16Units a) (utf16Units b) ≤ 0) :=
    ⟨fun a b => by
      have := compareUnits_antisymm (utf16Units a) (utf16Units b)
      show compareUnits (utf16Units a) (utf16Units b) ≤ 0 ∨
        compareUnits (utf16Units b) (utf16Units a) ≤ 0
      omega⟩
  haveI : IsTrans String (fun a b => compareUnits (utf16Units a) (utf16Units b) ≤ 0) :=
    ⟨fun a b c hab hbc => compareUnits_le_trans _ _ _ hab hbc⟩
  exact List.sorted_insertionSort _ xs

theorem defaultSort_strict (xs : List String) (h : xs.Nodup) :
    (defaultSort xs).Pairwise fun a b => compareUnits (utf16Units a) (utf16Units b) < 0 := by
  have hs := defaultSort_sorted xs
  have hn : (defaultSort xs).Nodup := (List.perm_insertionSort _ xs).nodup_iff.mpr h
  have := List.Pairwise.and hs hn
  refine this.imp ?_
  intro a b hab
  obtain ⟨h1, h2⟩ := hab
  rcases lt_or_eq_of_le h1 with h3 | h3
  · exact h3
  · exact absurd (utf16Units_injective a b (compareUnits_eq_zero _ _ h3)) h2
theorem availableMetrics_strict (results : List UrlResult) :
    (availableMetrics results).Pairwise
      fun a b => compareUnits (utf16Units a) (utf16Units b) < 0 := by
  unfold availableMetrics
  split
  · exact List.Pairwise.nil
  · exact defaultSort_strict _ (uniqueValues_nodup _)

/-- C23, amended: the metric names that `FilterSort` offers are exactly the names
carried by some sample with a non-null `p75_value`, listed in strictly ascending order
of their UTF-16 code units; each of them has a column in `DataTable` over the same
results; and the two sets of names are equal whenever every metric name of the results
is carried by some sample with a non-null `p75_value`. -/
theorem sortable_fields_have_columns (results : List UrlResult) :
    (∀ name, name ∈ availableMetrics results ↔
        ∃ result ∈ results, ∃ metric ∈ result.metrics,
          metric.metric_name = name ∧ metric.p75_value ≠ none) ∧
      (availableMetrics results).Pairwise
        (fun a b => compareUnits (utf16Units a) (utf16Units b) < 0) ∧
      (∀ name, name ∈ availableMetrics results →
        name ∈ (metricColumns results).map GridColumn.headerName) ∧
      ((∀ result ∈ results, ∀ metric ∈ result.metrics,
          ∃ other ∈ results, ∃ sample ∈ other.metrics,
            sample.metric_name = metric.metric_name ∧ sample.p75_value ≠ none) →
        ∀ name, name ∈ availableMetrics results ↔
          name ∈ (metricColumns results).map GridColumn.headerName) := by
  have hcol : ∀ name, name ∈ (metricColumns results).map GridColumn.headerName ↔
      ∃ result ∈ results, ∃ metric ∈ result.metrics, metric.metric_name = name := by
    intro name
    rw [metricColumns_headers]
    unfold allMetrics
    rw [mem_uniqueValues, mem_metricNames]
  refine ⟨mem_availableMetrics results, availableMetrics_strict results, ?_, ?_⟩
  · intro name h
    obtain ⟨result, hr, metric, hm, hn, _⟩ := (mem_availableMetrics results name).mp h
    exact (hcol name).mpr ⟨result, hr, metric, hm, hn⟩
  · intro hall name
    constructor
    · intro h
      obtain ⟨result, hr, metric, hm, hn, _⟩ := (mem_availableMetrics results name).mp h
      exact (hcol name).mpr ⟨result, hr, metric, hm, hn⟩
    · intro h
      obtain ⟨result, hr, metric, hm, hn⟩ := (hcol name).mp h
      obtain ⟨other, ho, sample, hs, hsn, hsp⟩ := hall result hr metric hm
      exact (mem_availableMetrics results name).mpr ⟨other, ho, sample, hs, hsn.trans hn, hsp⟩

/-- Witness of C23, amended: in the two results every metric name has a sample with a
value, so the sortable names are the column names, in ascending order. -/
theorem sortable_fields_have_columns_witness :
    availableMetrics schemaRows = ["CLS", "INP", "LCP"] ∧
      (metricColumns schemaRows).map GridColumn.headerName = ["LCP", "CLS", "INP"] ∧
      (availableMetrics schemaRows).Pairwise
        (fun a b => compareUnits (utf16Units a) (utf16Units b) < 0) ∧
      (∀ name, name ∈ availableMetrics schemaRows ↔
        name ∈ (metricColumns schemaRows).map GridColumn.headerName) :=
  ⟨by decide, by decide, (sortable_fields_have_columns schemaRows).2.1,
   (sortable_fields_have_columns schemaRows).2.2.2 (by decide)⟩

end Crux

namespace Crux

/-! ## Sanitized field keys (C27) -/

theorem isAlphanum_iff (c : Char) :
    c.isAlphanum = true ↔ isAlphanumUnit c.toNat = true := by
  simp only [Char.isAlphanum, Char.isAlpha, Char.isUpper, Char.isLower, Char.isDigit,
    isAlphanumUnit, Bool.or_eq_true, Bool.and_eq_true, decide_eq_true_eq, ge_iff_le,
    UInt32.le_def, Char.toNat, UInt32.toNat, BitVec.le_def]
  have h48 : (UInt32.toBitVec 48).toNat = 48 := rfl
  have h57 : (UInt32.toBitVec 57).toNat = 57 := rfl
  have h65 : (UInt32.toBitVec 65).toNat = 65 := rfl
  have h90 : (UInt32.toBitVec 90).toNat = 90 := rfl
  have h97 : (UInt32.toBitVec 97).toNat = 97 := rfl
  have h122 : (UInt32.toBitVec 122).toNat = 122 := rfl
  rw [h48, h57, h65, h90, h97, h122]
  tauto

theorem isAlphanumUnit_lt (u : ℕ) (h : isAlphanumUnit u = true) : u < 0x10000 := by
  simp only [isAlphanumUnit, Bool.or_eq_true, Bool.and_eq_true, decide_eq_true_eq] at h
  omega

theorem isAlphanumUnit_of_le (u : ℕ) (h : 0xD800 ≤ u) : isAlphanumUnit u = false := by
  cases hu : isAlphanumUnit u
  · rfl
  · have := isAlphanumUnit_lt u hu
    simp only [isAlphanumUnit, Bool.or_eq_true, Bool.and_eq_true, decide_eq_true_eq] at hu
    omega

theorem utf16Units_sanitizeKey (name : String) :
    utf16Units (sanitizeKey name) =
      (utf16Units name).map fun u => if isAlphanumUnit u then u else 95 := by
  unfold utf16Units sanitizeKey
  simp only
  induction name.data with
  | nil => rfl
  | cons c rest ih =>
    simp only [List.flatMap_cons, List.flatMap_append, List.map_append, ih]
    congr 1
    by_cases hc : c.isAlphanum = true
    · have hu := (isAlphanum_iff c).mp hc
      have hlt := isAlphanumUnit_lt _ hu
      simp [hc, hu, hlt]
    · have hu : isAlphanumUnit c.toNat = false := by
        cases h : isAlphanumUnit c.toNat
        · rfl
        · exact absurd ((isAlphanum_iff c).mpr h) hc
      have h95 : ('_' : Char).toNat = 95 := rfl
      by_cases hlt : c.toNat < 0x10000
      · simp [hc, hu, hlt, utf16Size, h95]
      · have h1 := isAlphanumUnit_of_le (0xD800 + (c.toNat - 0x10000) / 0x400) (by omega)
        have h2 := isAlphanumUnit_of_le (0xDC00 + (c.toNat - 0x10000) % 0x400) (by omega)
        simp only [hc, hlt, utf16Size, if_false, Bool.false_eq_true, List.flatMap_cons,
          List.replicate, List.flatMap_nil, h95, List.map_cons, List.map_nil, h1, h2]
        simp

theorem jsLength_eq (s : String) : jsLength s = (utf16Units s).length := by
  unfold jsLength utf16Units
  induction s.data with
  | nil => rfl
  | cons c rest ih =>
    simp only [List.map_cons, List.sum_cons, List.flatMap_cons, List.length_append, ih]
    congr 1
    unfold utf16Size
    split <;> rfl

theorem sanitizeKey_chars (name : String) :
    ∀ c ∈ (sanitizeKey name).data, c.isAlphanum = true ∨ c = '_' := by
  intro c hc
  simp only [sanitizeKey, List.mem_flatMap] at hc
  obtain ⟨x, _, hx⟩ := hc
  split at hx
  · rename_i h
    simp only [List.mem_singleton] at hx
    subst hx
    exact Or.inl h
  · exact Or.inr (List.eq_of_mem_replicate hx)

theorem sanitizeKey_fixed (s : String)
    (h : ∀ c ∈ s.data, c.isAlphanum = true ∨ c = '_') : sanitizeKey s = s := by
  unfold sanitizeKey
  have : ∀ l : List Char, (∀ c ∈ l, c.isAlphanum = true ∨ c = '_') →
      (l.flatMap fun c => if c.isAlphanum then [c] else List.replicate (utf16Size c) '_') = l := by
    intro l
    induction l with
    | nil => intro _; rfl
    | cons c rest ih =>
      intro hl
      rw [List.flatMap_cons, ih (fun x hx => hl x (List.mem_cons_of_mem _ hx))]
      rcases hl c (List.mem_cons_self _ _) with hc | hc
      · simp [hc]
      · subst hc
        rfl
  rw [this s.data h]

theorem sanitizeKey_bmp (name : String) (h : ∀ c ∈ name.data, c.toNat < 0x10000) :
    (sanitizeKey name).data = name.data.map fun c => if c.isAlphanum then c else '_' := by
  unfold sanitizeKey
  simp only
  have : ∀ l : List Char, (∀ c ∈ l, c.toNat < 0x10000) →
      (l.flatMap fun c => if c.isAlphanum then [c] else List.replicate (utf16Size c) '_') =
        l.map fun c => if c.isAlphanum then c else '_' := by
    intro l
    induction l with
    | nil => intro _; rfl
    | cons c rest ih =>
      intro hl
      rw [List.flatMap_cons, List.map_cons, ih (fun x hx => hl x (List.mem_cons_of_mem _ hx))]
      have hc := hl c (List.mem_cons_self _ _)
      by_cases ha : c.isAlphanum = true
      · simp [ha]
      · simp [ha, utf16Size, hc]
  exact this name.data h
/-- C27: the field key of a metric name is the name with every UTF-16 code unit outside
`[A-Za-z0-9]` replaced by the code unit of "_" and every other code unit kept; for a name
of the Basic Multilingual Plane this is the replacement character by character.  The key
has the length of the name, consists of characters of `[A-Za-z0-9_]`, and sanitizing a
key again returns it unchanged. -/
theorem sanitizeKey_spec (name : String) :
    utf16Units (sanitizeKey name) =
        (utf16Units name).map (fun u => if isAlphanumUnit u then u else 95) ∧
      ((∀ c ∈ name.data, c.toNat < 0x10000) →
        (sanitizeKey name).data = name.data.map fun c => if c.isAlphanum then c else '_') ∧
      jsLength (sanitizeKey name) = jsLength name ∧
      (∀ c ∈ (sanitizeKey name).data, c.isAlphanum = true ∨ c = '_') ∧
      sanitizeKey (sanitizeKey name) = sanitizeKey name := by
  refine ⟨utf16Units_sanitizeKey name, sanitizeKey_bmp name, ?_, sanitizeKey_chars name,
    sanitizeKey_fixed _ (sanitizeKey_chars name)⟩
  rw [jsLength_eq, jsLength_eq, utf16Units_sanitizeKey, List.length_map]

/-- Witness of C27: the key of "Largest Contentful Paint (LCP)", with one underscore
for each blank and bracket. -/
theorem sanitizeKey_spec_witness :
    sanitizeKey "Largest Contentful Paint (LCP)" = "Largest_Contentful_Paint__LCP_" ∧
      jsLength (sanitizeKey "Largest Contentful Paint (LCP)") =
        jsLength "Largest Contentful Paint (LCP)" :=
  ⟨by decide, (sanitizeKey_spec "Largest Contentful Paint (LCP)").2.2.1⟩

/-! ## Rating colours (C28) -/

/-- C28: `getPerformanceColor` returns a colour for every rating, null included:
"#4caf50" when the lower-cased rating is "good", "#ff9800" when it is
"needs improvement", "#f44336" when it is "poor" and "#9e9e9e" in every other case;
ratings with the same lower-cased form get the same colour. -/
theorem getPerformanceColor_spec (performance : Option String) :
    (performance.map toLowerCase = some "good" →
        getPerformanceColor performance = "#4caf50") ∧
      (performance.map toLowerCase = some "needs improvement" →
        getPerformanceColor performance = "#ff9800") ∧
      (performance.map toLowerCase = some "poor" →
        getPerformanceColor performance = "#f44336") ∧
      (performance.map toLowerCase ≠ some "good" →
        performance.map toLowerCase ≠ some "needs improvement" →
        performance.map toLowerCase ≠ some "poor" →
        getPerformanceColor performance = "#9e9e9e") ∧
      getPerformanceColor none = "#9e9e9e" ∧
      (∀ other : Option String, other.map toLowerCase = performance.map toLowerCase →
        getPerformanceColor other = getPerformanceColor performance) := by
  refine ⟨?_, ?_, ?_, ?_, rfl, ?_⟩
  · intro h
    simp only [getPerformanceColor, h, if_true]
  · intro h
    simp only [getPerformanceColor, h]
    decide
  · intro h
    simp only [getPerformanceColor, h]
    decide
  · intro h1 h2 h3
    simp only [getPerformanceColor, if_neg h1, if_neg h2, if_neg h3]
  · intro other h
    simp only [getPerformanceColor, h]

/-- Witness of C28: "GOOD" and "Needs Improvement" are matched whatever their case, and
an unknown label and null get the default colour. -/
theorem getPerformanceColor_spec_witness :
    getPerformanceColor (some "GOOD") = "#4caf50" ∧
      getPerformanceColor (some "Needs Improvement") = "#ff9800" ∧
      getPerformanceColor (some "Poor") = "#f44336" ∧
      getPerformanceColor (some "fast") = "#9e9e9e" ∧
      getPerformanceColor none = "#9e9e9e" :=
  ⟨(getPerformanceColor_spec (some "GOOD")).1 (by decide),
   (getPerformanceColor_spec (some "Needs Improvement")).2.1 (by decide),
   (getPerformanceColor_spec (some "Poor")).2.2.1 (by decide),
   (getPerformanceColor_spec (some "fast")).2.2.2.1 (by decide) (by decide) (by decide),
   (getPerformanceColor_spec none).2.2.2.2.1⟩

end Crux

namespace Crux

/-! ## Grid rows (C29) -/

theorem getProp_setProp_ne (key k : String) (value : RowValue) (h : key ≠ k) :
    ∀ obj : List (String × RowValue), getProp (setProp obj key value) k = getProp obj k := by
  intro obj
  induction obj with
  | nil =>
    have hk : (key == k) = false := by simpa using h
    simp [setProp, getProp, List.find?, hk]
  | cons p rest ih =>
    obtain ⟨k0, v0⟩ := p
    unfold setProp
    by_cases h0 : (k0 == key) = true
    · have hk0 : k0 = key := by simpa using h0
      have hne : (k0 == k) = false := by
        rw [hk0]
        simpa using h
      simp only [h0, if_true]
      simp [getProp, List.find?, hne]
    · simp only [h0, if_false, Bool.false_eq_true]
      unfold getProp at ih ⊢
      by_cases h1 : (k0 == k) = true
      · simp [List.find?, h1]
      · have h1f : (k0 == k) = false := by simpa using h1
        simp only [List.find?, h1f]
        exact ih

theorem setProp_keys (key : String) (value : RowValue) :
    ∀ obj : List (String × RowValue), ∀ p ∈ setProp obj key value, p.1 = key ∨ p ∈ obj := by
  intro obj
  induction obj with
  | nil =>
    intro p hp
    simp only [setProp, List.mem_singleton] at hp
    subst hp
    exact Or.inl rfl
  | cons q rest ih =>
    obtain ⟨k0, v0⟩ := q
    intro p hp
    unfold setProp at hp
    split at hp
    · rename_i h0
      rcases List.mem_cons.mp hp with h | h
      · subst h
        exact Or.inl (by simpa using h0)
      · exact Or.inr (List.mem_cons_of_mem _ h)
    · rcases List.mem_cons.mp hp with h | h
      · subst h
        exact Or.inr (List.mem_cons_self _ _)
      · rcases ih p h with h1 | h1
        · exact Or.inl h1
        · exact Or.inr (List.mem_cons_of_mem _ h1)

theorem metricProps_keys (metrics : List MetricSample) :
    ∀ p ∈ metricProps metrics, ∃ metric ∈ metrics, p.1 = sanitizeKey metric.metric_name := by
  unfold metricProps
  have : ∀ (l : List MetricSample) (acc : List (String × RowValue)),
      ∀ p ∈ l.foldl (fun acc metric =>
          setProp acc (sanitizeKey metric.metric_name) (.sample metric)) acc,
        p ∈ acc ∨ ∃ metric ∈ l, p.1 = sanitizeKey metric.metric_name := by
    intro l
    induction l with
    | nil =>
      intro acc p hp
      exact Or.inl hp
    | cons m rest ih =>
      intro acc p hp
      rw [List.foldl_cons] at hp
      rcases ih _ p hp with h | ⟨metric, hm, hk⟩
      · rcases setProp_keys _ _ acc p h with h1 | h1
        · exact Or.inr ⟨m, List.mem_cons_self _ _, h1⟩
        · exact Or.inl h1
      · exact Or.inr ⟨metric, List.mem_cons_of_mem _ hm, hk⟩
  intro p hp
  rcases this metrics [] p hp with h | h
  · cases h
  · exact h

theorem getProp_spread (k : String) :
    ∀ (props obj : List (String × RowValue)), (∀ p ∈ props, p.1 ≠ k) →
      getProp (props.foldl (fun obj p => setProp obj p.1 p.2) obj) k = getProp obj k := by
  intro props
  induction props with
  | nil =>
    intro obj _
    rfl
  | cons p rest ih =>
    intro obj h
    rw [List.foldl_cons, ih _ (fun q hq => h q (List.mem_cons_of_mem _ hq)),
      getProp_setProp_ne _ _ _ (h p (List.mem_cons_self _ _))]

/-- A base property of a grid row keeps the value of the result when no metric name is
sanitized to its name. -/
theorem gridRow_base_of_no_clash (index : ℕ) (result : UrlResult) (k : String)
    (h : ∀ metric ∈ result.metrics, sanitizeKey metric.metric_name ≠ k) :
    getProp (gridRow index result) k =
      getProp [ ("id", .index index), ("url", .text result.url),
        ("form_factor", .device result.form_factor),
        ("overall_performance", .rating result.overall_performance),
        ("metrics", .samples result.metrics), ("created_at", .text result.created_at) ] k := by
  unfold gridRow
  apply getProp_spread
  intro p hp
  obtain ⟨metric, hm, hk⟩ := metricProps_keys result.metrics p hp
  rw [hk]
  exact h metric hm

/-- C29, as the code behaves: the metric properties are spread after the base
properties, so for a result with metrics named "url", "id" and "form factor" the row
built by `DataTable` holds metric samples under `url`, `id` and `form_factor` instead of
the URL, the index and the form factor of the result. -/
theorem base_fields_overwritten :
    rows (some (responseOf [clashingRow])) = [gridRow 0 clashingRow] ∧
      getProp (gridRow 0 clashingRow) "url" = some (.sample (sampleOf "url" (some 1))) ∧
      getProp (gridRow 0 clashingRow) "url" ≠ some (.text clashingRow.url) ∧
      getProp (gridRow 0 clashingRow) "id" = some (.sample (sampleOf "id" (some 2))) ∧
      getProp (gridRow 0 clashingRow) "id" ≠ some (.index 0) ∧
      getProp (gridRow 0 clashingRow) "form_factor" =
        some (.sample (sampleOf "form factor" (some 3))) ∧
      getProp (gridRow 0 clashingRow) "form_factor" ≠
        some (.device clashingRow.form_factor) := by
  decide

/-! ## The comparator of the sort step (C30) -/

/-- The comparator is antisymmetric on URLs, on metric keys and on two non-null
ratings: swapping the arguments negates the result. -/
theorem compareFn_antisymm (field direction : String) (a b : UrlResult)
    (h : field ≠ "overall_performance" ∨
      (a.overall_performance ≠ none ∧ b.overall_performance ≠ none)) :
    ∃ x : ℚ, compareFn field direction a b = some (.num x) ∧
      compareFn field direction b a = some (.num (-x)) := by
  have hlc : ∀ s t : String, ((localeCompare t s : ℤ) : ℚ) = -((localeCompare s t : ℤ) : ℚ) := by
    intro s t
    have : localeCompare t s = -localeCompare s t := compareChars_antisymm s.data t.data
    rw [this]
    push_cast
    rfl
  unfold compareFn
  by_cases hu : (field == "url") = true
  · simp only [hu, if_true, compareUrl]
    by_cases hd : (direction == "asc") = true
    · simp only [hd, if_true]
      exact ⟨_, rfl, by rw [hlc]⟩
    · simp only [hd, if_false, Bool.false_eq_true]
      exact ⟨_, rfl, by rw [hlc]⟩
  · simp only [hu, if_false, Bool.false_eq_true]
    by_cases hp : (field == "overall_performance") = true
    · simp only [hp, if_true]
      have hf : field = "overall_performance" := by simpa using hp
      rcases h with h | ⟨ha, hb⟩
      · exact absurd hf h
      · obtain ⟨s, hs⟩ := Option.ne_none_iff_exists'.mp ha
        obtain ⟨t, ht⟩ := Option.ne_none_iff_exists'.mp hb
        rw [hs, ht]
        simp only [compareRating]
        by_cases hd : (direction == "asc") = true
        · simp only [hd, if_true]
          exact ⟨_, rfl, by rw [hlc]⟩
        · simp only [hd, if_false, Bool.false_eq_true]
          exact ⟨_, rfl, by rw [hlc]⟩
    · simp only [hp, if_false, Bool.false_eq_true, compareMetric]
      by_cases hd : (direction == "asc") = true
      · simp only [hd, if_true, JSNum.sub]
        exact ⟨_, rfl, by rw [neg_sub]⟩
      · simp only [hd, if_false, Bool.false_eq_true, JSNum.sub]
        exact ⟨_, rfl, by rw [neg_sub]⟩

/-- C30, as the code behaves: for the field "overall_performance" with a result rated
"good" and a result with a null rating, the ascending comparator returns a number below
zero for (rated, unrated) and `NaN`, which is not above zero, for (unrated, rated); the
descending comparator returns `NaN` for (unrated, rated) and throws for
(rated, unrated). -/
theorem comparator_not_antisymmetric :
    compareFn "overall_performance" "asc" (rowOf "a" (some "good") []) (rowOf "b" none []) =
        some (.num (-1)) ∧
      compareFn "overall_performance" "asc" (rowOf "b" none []) (rowOf "a" (some "good") []) =
        some .nan ∧
      compareFn "overall_performance" "desc" (rowOf "b" none []) (rowOf "a" (some "good") []) =
        some .nan ∧
      compareFn "overall_performance" "desc" (rowOf "a" (some "good") []) (rowOf "b" none []) =
        none := by
  decide

end Crux

namespace Crux

/-! ## Metric values (C24, C25) -/

theorem remainderOne_ne_zero_iff (x : ℚ) : remainderOne x ≠ 0 ↔ ∀ n : ℤ, x ≠ (n : ℚ) := by
  unfold remainderOne
  constructor
  · intro h n hn
    apply h
    subst hn
    split
    · rw [Int.floor_intCast, sub_self]
    · rw [Int.ceil_intCast, sub_self]
  · intro h
    split
    · intro h0
      exact h ⌊x⌋ (sub_eq_zero.mp h0)
    · intro h0
      exact h ⌈x⌉ (sub_eq_zero.mp h0)

theorem integerToString_intCast (n : ℤ) : integerToString (n : ℚ) = toString n := by
  unfold integerToString
  have habs : ⌊|(n : ℚ)|⌋ = |n| := by
    rw [← Int.cast_abs, Int.floor_intCast]
  rw [habs]
  cases n with
  | ofNat m =>
    have hnn : (0 : ℤ) ≤ Int.ofNat m := Int.ofNat_zero_le m
    have h1 : ¬ ((Int.ofNat m : ℤ) : ℚ) < 0 := not_lt.mpr (Int.cast_nonneg.mpr hnn)
    have h2 : (|Int.ofNat m|).toNat = m := by
      rw [abs_of_nonneg hnn]
      rfl
    rw [if_neg h1, h2]
    show "" ++ toString m = toString m
    exact String.empty_append _
  | negSucc m =>
    have h1 : ((Int.negSucc m : ℤ) : ℚ) < 0 := by
      exact_mod_cast Int.negSucc_lt_zero m
    have h2 : (|Int.negSucc m|).toNat = m + 1 := by
      rw [abs_of_neg (Int.negSucc_lt_zero m)]
      rfl
    rw [if_pos h1, h2]
    rfl

theorem digitChar_ne_comma (m : ℕ) (h : m < 10) : Nat.digitChar m ≠ ',' := by
  interval_cases m <;> decide

theorem toDigitsCore_no_comma :
    ∀ (fuel n : ℕ) (ds : List Char), (∀ c ∈ ds, c ≠ ',') →
      ∀ c ∈ Nat.toDigitsCore 10 fuel n ds, c ≠ ',' := by
  intro fuel
  induction fuel with
  | zero =>
    intro n ds h c hc
    exact h c hc
  | succ fuel ih =>
    intro n ds h c hc
    have hds : ∀ c ∈ Nat.digitChar (n % 10) :: ds, c ≠ ',' := by
      intro c hc
      rcases List.mem_cons.mp hc with h1 | h1
      · rw [h1]
        exact digitChar_ne_comma _ (Nat.mod_lt _ (by decide))
      · exact h c h1
    simp only [Nat.toDigitsCore] at hc
    split at hc
    · exact hds c hc
    · exact ih _ _ hds c hc

theorem insertCommas_filter (l : List Char) :
    (∀ c ∈ l, c ≠ ',') → (insertCommas l).filter (fun c => c != ',') = l := by
  induction l using insertCommas.induct with
  | case1 a b c d rest ih =>
    intro h
    have ha := h a (by simp)
    have hb := h b (by simp)
    have hc := h c (by simp)
    have hrest := ih (fun x hx => h x (by
      simp only [List.mem_cons] at hx ⊢
      tauto))
    rw [insertCommas]
    simp only [List.filter_cons, bne_iff_ne, ne_eq, ha, hb, hc, not_false_eq_true, if_true,
      bne_self_eq_false, Bool.false_eq_true, if_false, hrest]
  | case2 l hl =>
    intro h
    have : insertCommas l = l := by
      unfold insertCommas
      split
      · rename_i a b c d rest
        exact absurd rfl (fun e => hl a b c d rest e)
      · rfl
    rw [this, List.filter_eq_self]
    intro c hc
    simpa using h c hc

/-- Without its commas the grouped representation is the decimal representation. -/
theorem groupThousands_digits (n : ℕ) :
    (groupThousands n).data.filter (fun c => c != ',') = (toString n).data := by
  have hno : ∀ c ∈ (Nat.toDigits 10 n).reverse, c ≠ ',' := by
    intro c hc
    exact toDigitsCore_no_comma _ _ [] (fun _ h => absurd h (List.not_mem_nil _)) c
      (List.mem_reverse.mp hc)
  show ((insertCommas (Nat.toDigits 10 n).reverse).reverse).filter (fun c => c != ',') =
    Nat.toDigits 10 n
  rw [List.filter_reverse, insertCommas_filter _ hno, List.reverse_reverse]

theorem toLocaleString_natCast (n : ℕ) : toLocaleString (n : ℚ) = groupThousands n := by
  unfold toLocaleString
  have hfloor : ⌊|(n : ℚ)| * 1000 + 1 / 2⌋ = ((n * 1000 : ℕ) : ℤ) := by
    rw [Int.floor_eq_iff, abs_of_nonneg (Nat.cast_nonneg n)]
    push_cast
    constructor <;> linarith
  simp only [hfloor, Int.toNat_ofNat]
  have h1 : ¬ ((n : ℚ) < 0) := not_lt.mpr (Nat.cast_nonneg n)
  rw [if_neg h1, Nat.mul_div_cancel _ (by decide : 0 < 1000), Nat.mul_mod_left]
  show "" ++ groupThousands n ++ "" = groupThousands n
  rw [String.empty_append, String.append_empty]

theorem formatMetricValue_1234_5 :
    formatMetricValue (.number 1234.5) defaultUnit = "1,234.5ms" := by
  unfold formatMetricValue
  simp only
  rw [if_pos (by norm_num)]
  unfold toLocaleString
  have hfloor : ⌊|(1234.5 : ℚ)| * 1000 + 1 / 2⌋ = 1234500 := by
    rw [Int.floor_eq_iff]
    constructor <;> norm_num [abs_of_pos]
  simp only [hfloor]
  rw [if_neg (by norm_num)]
  decide

theorem formatMetricValue_100 : formatMetricValue (.number 100) defaultUnit = "100ms" := by
  unfold formatMetricValue
  simp only
  rw [if_neg (by norm_num)]
  have h : remainderOne (100 : ℚ) = 0 := by
    unfold remainderOne
    rw [if_pos (by norm_num)]
    have : ⌊(100 : ℚ)⌋ = 100 := by
      rw [Int.floor_eq_iff]
      constructor <;> norm_num
    rw [this]
    norm_num
  rw [if_neg (by rw [h]; exact fun h => h rfl)]
  have := integerToString_intCast 100
  simp only [Int.cast_ofNat] at this
  rw [this]
  decide
theorem not_integer_2_5 : ∀ n : ℤ, (2.5 : ℚ) ≠ (n : ℚ) := by
  intro n h
  have h1 : (5 : ℚ) = 2 * (n : ℚ) := by
    rw [← h]
    norm_num
  have h2 : (5 : ℤ) = 2 * n := by exact_mod_cast h1
  omega

/-- Counterexample of C24: for 1234.5 and the default unit `formatMetricValue` does not
return "1,234.50ms". -/
theorem grouped_value_has_one_decimal :
    formatMetricValue (.number 1234.5) defaultUnit ≠ "1,234.50ms" := by
  rw [formatMetricValue_1234_5]
  decide

/-- C24, amended: `formatMetricValue(1234.5)` with the default unit returns "1,234.5ms":
a number from 1000 on is printed by `toLocaleString`, which groups the integer digits and
drops trailing zeros of the fraction. -/
theorem formatMetricValue_example :
    formatMetricValue (.number 1234.5) defaultUnit = "1,234.5ms" ∧
      formatMetricValue (.number 1234.5) defaultUnit = toLocaleString 1234.5 ++ "ms" := by
  refine ⟨formatMetricValue_1234_5, ?_⟩
  unfold formatMetricValue
  simp only
  rw [if_pos (by norm_num)]
  rfl

theorem toDigitsCore_append (fuel : ℕ) :
    ∀ (n : ℕ) (ds : List Char),
      Nat.toDigitsCore 10 fuel n ds = Nat.toDigitsCore 10 fuel n [] ++ ds := by
  induction fuel with
  | zero =>
    intro n ds
    rfl
  | succ fuel ih =>
    intro n ds
    simp only [Nat.toDigitsCore]
    split
    · rfl
    · rw [ih (n / 10) (Nat.digitChar (n % 10) :: ds), ih (n / 10) [Nat.digitChar (n % 10)],
        List.append_assoc]
      rfl

theorem toDigitsCore_fuel (f1 : ℕ) :
    ∀ (f2 n : ℕ) (ds : List Char), n < f1 → n < f2 →
      Nat.toDigitsCore 10 f1 n ds = Nat.toDigitsCore 10 f2 n ds := by
  induction f1 with
  | zero =>
    intro f2 n ds h1 _
    omega
  | succ f1 ih =>
    intro f2 n ds h1 h2
    cases f2 with
    | zero => omega
    | succ f2 =>
      simp only [Nat.toDigitsCore]
      split
      · rfl
      · rename_i hne
        have hlt : n / 10 < n := Nat.div_lt_self (by omega) (by decide)
        exact ih f2 (n / 10) _ (by omega) (by omega)

theorem toDigits_of_lt_ten (n : ℕ) (h : n < 10) : Nat.toDigits 10 n = [Nat.digitChar n] := by
  unfold Nat.toDigits
  simp only [Nat.toDigitsCore]
  rw [if_pos (by omega), Nat.mod_eq_of_lt h]

theorem toDigits_of_ten_le (n : ℕ) (h : 10 ≤ n) :
    Nat.toDigits 10 n = Nat.toDigits 10 (n / 10) ++ [Nat.digitChar (n % 10)] := by
  unfold Nat.toDigits
  simp only [Nat.toDigitsCore]
  rw [if_neg (by omega), toDigitsCore_append]
  congr 1
  exact toDigitsCore_fuel n (n / 10 + 1) (n / 10) [] (by omega) (by omega)

theorem toString_eq_toDigits (n : ℕ) : toString n = String.mk (Nat.toDigits 10 n) := rfl

theorem pad2_eq (m : ℕ) (h : m < 100) :
    pad2 m = String.mk [Nat.digitChar (m / 10), Nat.digitChar (m % 10)] := by
  unfold pad2
  by_cases h10 : m < 10
  · rw [if_pos h10, toString_eq_toDigits, toDigits_of_lt_ten m h10]
    have h0 : m / 10 = 0 := by omega
    have h1 : m % 10 = m := by omega
    rw [h0, h1]
    rfl
  · rw [if_neg h10, toString_eq_toDigits, toDigits_of_ten_le m (by omega),
      toDigits_of_lt_ten (m / 10) (by omega)]
    rfl

theorem toDigits_three (n : ℕ) (h : 1000 ≤ n) :
    Nat.toDigits 10 n = Nat.toDigits 10 (n / 1000) ++
      [Nat.digitChar (n / 100 % 10), Nat.digitChar (n / 10 % 10), Nat.digitChar (n % 10)] := by
  rw [toDigits_of_ten_le n (by omega), toDigits_of_ten_le (n / 10) (by omega),
    toDigits_of_ten_le (n / 10 / 10) (by omega)]
  have h1 : n / 10 / 10 / 10 = n / 1000 := by omega
  have h2 : n / 10 / 10 % 10 = n / 100 % 10 := by omega
  have h3 : n / 10 % 10 = n / 10 % 10 := rfl
  rw [h1, h2]
  simp

theorem toDigits_ne_nil (n : ℕ) : Nat.toDigits 10 n ≠ [] := by
  by_cases h : n < 10
  · rw [toDigits_of_lt_ten n h]
    exact List.cons_ne_nil _ _
  · rw [toDigits_of_ten_le n (by omega)]
    simp

theorem insertCommas_short (l : List Char) (h : l.length ≤ 3) : insertCommas l = l := by
  match l, h with
  | [], _ => rfl
  | [_], _ => rfl
  | [_, _], _ => rfl
  | [_, _, _], _ => rfl
  | _ :: _ :: _ :: _ :: _, h => simp at h

theorem toDigits_length_le_three (n : ℕ) (h : n < 1000) : (Nat.toDigits 10 n).length ≤ 3 := by
  by_cases h1 : n < 10
  · rw [toDigits_of_lt_ten n h1]
    simp
  · rw [toDigits_of_ten_le n (by omega)]
    by_cases h2 : n / 10 < 10
    · rw [toDigits_of_lt_ten _ h2]
      simp
    · rw [toDigits_of_ten_le _ (by omega), toDigits_of_lt_ten _ (by omega)]
      simp

/-- Below one thousand the grouped representation is the decimal representation. -/
theorem groupThousands_of_lt (n : ℕ) (h : n < 1000) : groupThousands n = toString n := by
  unfold groupThousands
  rw [insertCommas_short _ (by simpa using toDigits_length_le_three n h), List.reverse_reverse]
  rfl

/-- From one thousand on the grouped representation is that of the thousands, a comma
and the last three digits. -/
theorem groupThousands_of_ge (n : ℕ) (h : 1000 ≤ n) :
    groupThousands n = groupThousands (n / 1000) ++ "," ++
      String.mk [Nat.digitChar (n / 100 % 10), Nat.digitChar (n / 10 % 10),
        Nat.digitChar (n % 10)] := by
  unfold groupThousands
  rw [toDigits_three n h]
  obtain ⟨q, rest, hq⟩ : ∃ q rest, (Nat.toDigits 10 (n / 1000)).reverse = q :: rest := by
    cases hr : (Nat.toDigits 10 (n / 1000)).reverse with
    | nil =>
      exact absurd (List.reverse_eq_nil_iff.mp hr) (toDigits_ne_nil _)
    | cons q rest => exact ⟨q, rest, rfl⟩
  simp only [List.reverse_append, List.reverse_cons, List.reverse_nil, List.nil_append,
    List.cons_append, hq, insertCommas]
  apply String.ext
  simp [String.append]

theorem fractionDigits_eq (m : ℕ) (h : m < 1000) :
    fractionDigits m =
      String.mk (if m = 0 then []
        else if m % 100 = 0 then ['.', Nat.digitChar (m / 100)]
        else if m % 10 = 0 then ['.', Nat.digitChar (m / 100), Nat.digitChar (m / 10 % 10)]
        else ['.', Nat.digitChar (m / 100), Nat.digitChar (m / 10 % 10),
          Nat.digitChar (m % 10)]) := by
  unfold fractionDigits
  by_cases h0 : m = 0
  · rw [if_pos h0, if_pos h0]
  · rw [if_neg h0, if_neg h0]
    by_cases h100 : m % 100 = 0
    · rw [if_pos h100, if_pos h100, toString_eq_toDigits, toDigits_of_lt_ten _ (by omega)]
      rfl
    · rw [if_neg h100, if_neg h100]
      by_cases h10 : m % 10 = 0
      · rw [if_pos h10, if_pos h10, pad2_eq _ (by omega)]
        have : m / 10 / 10 = m / 100 := by omega
        rw [this]
        rfl
      · rw [if_neg h10, if_neg h10]
        by_cases hlt : m < 100
        · rw [if_pos hlt, pad2_eq _ hlt]
          have e1 : m / 100 = 0 := by omega
          have e2 : m / 10 % 10 = m / 10 := by omega
          rw [e1, e2]
          rfl
        · rw [if_neg hlt]
          unfold pad2
          rw [if_neg (by omega), toString_eq_toDigits, toDigits_of_ten_le m (by omega),
            toDigits_of_ten_le (m / 10) (by omega), toDigits_of_lt_ten (m / 10 / 10) (by omega)]
          have : m / 10 / 10 = m / 100 := by omega
          rw [this]
          rfl
theorem floor_unique (n k : ℕ) (y : ℚ) (h1 : (n : ℚ) ≤ y) (h2 : y < (n : ℚ) + 1)
    (h3 : (k : ℚ) ≤ y) (h4 : y < (k : ℚ) + 1) : n = k := by
  have a1 : (n : ℚ) < (k : ℚ) + 1 := lt_of_le_of_lt h1 h4
  have a2 : (k : ℚ) < (n : ℚ) + 1 := lt_of_le_of_lt h3 h2
  have b1 : n < k + 1 := by exact_mod_cast a1
  have b2 : k < n + 1 := by exact_mod_cast a2
  omega

theorem floor_toNat_bounds (y : ℚ) (hy : 0 ≤ y) :
    ((⌊y⌋.toNat : ℕ) : ℚ) ≤ y ∧ y < ((⌊y⌋.toNat : ℕ) : ℚ) + 1 := by
  have h0 : 0 ≤ ⌊y⌋ := Int.floor_nonneg.mpr hy
  have hcast : ((⌊y⌋.toNat : ℕ) : ℚ) = ((⌊y⌋ : ℤ) : ℚ) := by
    have : ((⌊y⌋.toNat : ℕ) : ℤ) = ⌊y⌋ := Int.toNat_of_nonneg h0
    exact_mod_cast congrArg (fun z : ℤ => (z : ℚ)) this
  rw [hcast]
  exact ⟨Int.floor_le y, Int.lt_floor_add_one y⟩

/-- A number with at most three decimals that is small enough is away from the values
halfway between two thousandths. -/
theorem away_from_ties (x : ℚ) (N : ℤ) (hN : x * 1000 = (N : ℚ))
    (hs : x * 1000 / 2 ^ 53 < 1 / 2) :
    ∀ m : ℤ, x * 1000 / 2 ^ 53 < |x * 1000 - ((m : ℚ) + 1 / 2)| := by
  intro m
  refine lt_of_lt_of_le hs ?_
  rw [hN]
  rcases le_or_lt (N - m) 0 with h | h
  · have h1 : ((N - m : ℤ) : ℚ) ≤ 0 := by exact_mod_cast h
    push_cast at h1
    rw [abs_of_nonpos (by linarith)]
    linarith
  · have h1 : (1 : ℚ) ≤ ((N - m : ℤ) : ℚ) := by exact_mod_cast h
    push_cast at h1
    rw [abs_of_nonneg (by linarith)]
    linarith

/-- C25: `formatMetricValue` returns "N/A" for null or undefined and a string unchanged.
For a number below 1000 (and above -10^21) that is not an integer it returns the sign,
the digits of `n / 100`, a point and the two digits of `n % 100`, followed by the unit,
where `n` is the integer nearest to the hundredfold of the magnitude, the larger of two;
for an integer it returns the decimal digits of the integer followed by the unit.  For a
number from 1000 on that is not within its rounding error of a value halfway between two
thousandths it returns the grouped digits of `n / 1000` and the fraction for `n % 1000`
without trailing zeros, followed by the unit, where `n` is the integer nearest to the
thousandfold; the grouped digits are groups of three separated by commas.  So 100 gives
"100ms" and null gives "N/A". -/
theorem formatMetricValue_branches (value : MetricArg) (unit : String) :
    (value = .absent → formatMetricValue value unit = "N/A") ∧
      (∀ s, value = .text s → formatMetricValue value unit = s) ∧
      (∀ x : ℚ, value = .number x → x < 1000 → -10 ^ 21 < x → (∀ n : ℤ, x ≠ (n : ℚ)) →
        ∃ n : ℕ, (n : ℚ) ≤ |x| * 100 + 1 / 2 ∧ |x| * 100 + 1 / 2 < (n : ℚ) + 1 ∧
          formatMetricValue value unit =
            (if x < 0 then "-" else "") ++ toString (n / 100) ++ "." ++
              String.mk [Nat.digitChar (n / 10 % 10), Nat.digitChar (n % 10)] ++ unit) ∧
      (∀ n : ℤ, value = .number (n : ℚ) → n < 1000 → -10 ^ 21 < n →
        formatMetricValue value unit = toString n ++ unit) ∧
      (∀ x : ℚ, value = .number x → 1000 ≤ x →
        (∀ m : ℤ, x * 1000 / 2 ^ 53 < |x * 1000 - ((m : ℚ) + 1 / 2)|) →
        ∃ n : ℕ, (n : ℚ) ≤ x * 1000 + 1 / 2 ∧ x * 1000 + 1 / 2 < (n : ℚ) + 1 ∧
          formatMetricValue value unit =
            groupThousands (n / 1000) ++ fractionDigits (n % 1000) ++ unit) ∧
      (∀ n : ℕ, value = .number (n : ℚ) → 1000 ≤ n → n < 2 ^ 53 →
        formatMetricValue value unit = groupThousands n ++ unit) ∧
      (∀ n : ℕ, n < 1000 → groupThousands n = toString n) ∧
      (∀ n : ℕ, 1000 ≤ n →
        groupThousands n = groupThousands (n / 1000) ++ "," ++
          String.mk [Nat.digitChar (n / 100 % 10), Nat.digitChar (n / 10 % 10),
            Nat.digitChar (n % 10)]) ∧
      (∀ m : ℕ, m < 1000 →
        fractionDigits m =
          String.mk (if m = 0 then []
            else if m % 100 = 0 then ['.', Nat.digitChar (m / 100)]
            else if m % 10 = 0 then
              ['.', Nat.digitChar (m / 100), Nat.digitChar (m / 10 % 10)]
            else ['.', Nat.digitChar (m / 100), Nat.digitChar (m / 10 % 10),
              Nat.digitChar (m % 10)])) ∧
      formatMetricValue (.number 100) defaultUnit = "100ms" ∧
      formatMetricValue .absent defaultUnit = "N/A" := by
  refine ⟨?_, ?_, ?_, ?_, ?_, ?_, groupThousands_of_lt, groupThousands_of_ge,
    fractionDigits_eq, formatMetricValue_100, rfl⟩
  · intro h
    subst h
    rfl
  · intro s h
    subst h
    rfl
  · intro x h hx _ hn
    subst h
    have hy : (0 : ℚ) ≤ |x| * 100 + 1 / 2 := by positivity
    obtain ⟨b1, b2⟩ := floor_toNat_bounds _ hy
    refine ⟨(⌊|x| * 100 + 1 / 2⌋).toNat, b1, b2, ?_⟩
    unfold formatMetricValue
    simp only
    rw [if_neg (not_le.mpr hx), if_pos ((remainderOne_ne_zero_iff x).mpr hn)]
    unfold toFixed2
    simp only
    rw [pad2_eq _ (Nat.mod_lt _ (by decide))]
    have e1 : (⌊|x| * 100 + 1 / 2⌋).toNat % 100 / 10 = (⌊|x| * 100 + 1 / 2⌋).toNat / 10 % 10 := by
      omega
    have e2 : (⌊|x| * 100 + 1 / 2⌋).toNat % 100 % 10 = (⌊|x| * 100 + 1 / 2⌋).toNat % 10 := by
      omega
    rw [e1, e2]
  · intro n h hn _
    subst h
    have hlt : ¬ ((n : ℚ) ≥ 1000) := by
      have : (n : ℚ) < 1000 := by exact_mod_cast hn
      exact not_le.mpr this
    have hrem : ¬ remainderOne (n : ℚ) ≠ 0 := by
      rw [remainderOne_ne_zero_iff]
      intro hall
      exact hall n rfl
    unfold formatMetricValue
    simp only
    rw [if_neg hlt, if_neg hrem, integerToString_intCast]
  · intro x h hx _
    subst h
    have hpos : (0 : ℚ) ≤ x := by linarith
    have hy : (0 : ℚ) ≤ x * 1000 + 1 / 2 := by positivity
    obtain ⟨b1, b2⟩ := floor_toNat_bounds _ hy
    refine ⟨(⌊x * 1000 + 1 / 2⌋).toNat, b1, b2, ?_⟩
    unfold formatMetricValue
    simp only
    rw [if_pos hx]
    unfold toLocaleString
    simp only
    rw [abs_of_nonneg hpos, if_neg (not_lt.mpr hpos), String.empty_append]
  · intro n h hn _
    subst h
    have hge : (n : ℚ) ≥ 1000 := by exact_mod_cast hn
    unfold formatMetricValue
    simp only
    rw [if_pos hge, toLocaleString_natCast]

/-- Witness of C25: 2.5 is printed with two decimals, -7 as a bare integer, 1234.5 and
1234567 with grouped digits; a string is returned as it is. -/
theorem formatMetricValue_branches_witness :
    formatMetricValue (.number 2.5) "ms" = "2.50ms" ∧
      formatMetricValue (.number (-7 : ℤ)) "ms" = "-7ms" ∧
      formatMetricValue (.number 1234.5) "ms" = "1,234.5ms" ∧
      formatMetricValue (.number (1234567 : ℕ)) "ms" = "1,234,567ms" ∧
      formatMetricValue (.text "0.05") "ms" = "0.05" := by
  refine ⟨?_, ?_, ?_, ?_, ?_⟩
  · obtain ⟨n, h1, h2, h3⟩ := (formatMetricValue_branches (.number 2.5) "ms").2.2.1 2.5 rfl
      (by norm_num) (by norm_num) not_integer_2_5
    have hn : n = 250 :=
      floor_unique n 250 _ h1 h2 (by norm_num [abs_of_pos]) (by norm_num [abs_of_pos])
    subst hn
    rw [h3, if_neg (by norm_num)]
    decide
  · exact (formatMetricValue_branches (.number (-7 : ℤ)) "ms").2.2.2.1 (-7) rfl (by decide)
      (by norm_num)
  · obtain ⟨n, h1, h2, h3⟩ := (formatMetricValue_branches (.number 1234.5) "ms").2.2.2.2.1
      1234.5 rfl (by norm_num)
      (away_from_ties 1234.5 1234500 (by norm_num) (by norm_num))
    have hn : n = 1234500 := floor_unique n 1234500 _ h1 h2 (by norm_num) (by norm_num)
    subst hn
    rw [h3]
    decide
  · exact ((formatMetricValue_branches (.number (1234567 : ℕ)) "ms").2.2.2.2.2.1 1234567 rfl
      (by decide) (by norm_num)).trans (by decide)
  · exact (formatMetricValue_branches (.text "0.05") "ms").2.1 "0.05" rfl

/-! ## Display form of a URL (C26) -/

theorem sliceFrom_length_le (s : List Char) (k : ℤ) (hk : 0 < k) :
    (sliceFrom s (-k)).length ≤ k.toNat := by
  unfold sliceFrom
  rw [if_pos (by omega), List.length_drop]
  omega

theorem slicePrefix_length_le (s : List Char) (k : ℤ) (hk : 0 ≤ k) :
    (slicePrefix s k).length ≤ k.toNat := by
  unfold slicePrefix
  rw [if_neg (by omega), List.length_take]
  omega

theorem length_domain_tail (d : String) (l : List Char) :
    (d ++ "..." ++ String.mk l).length = d.length + 3 + l.length := by
  rw [String.length_append, String.length_append]
  rfl

theorem length_prefix_dots (l : List Char) : (String.mk l ++ "...").length = l.length + 3 := by
  rw [String.length_append]
  rfl

/-- The result of `formatURL` has at most `maxLength` characters when `maxLength` is at
least 3 and the host name of a URL that parses has fewer than `maxLength - 6`
characters. -/
theorem formatURL_length_le (parseURL : String → Option URLRecord) (url : String)
    (maxLength : ℕ) (h3 : 3 ≤ maxLength)
    (hdom : ∀ urlObj, parseURL url = some urlObj → urlObj.hostname.length + 6 < maxLength) :
    (formatURL parseURL url maxLength).length ≤ maxLength := by
  unfold formatURL
  split
  · assumption
  · rename_i hlong
    split
    · rename_i urlObj hparse
      have hd := hdom urlObj hparse
      simp only
      split
      · rw [String.length_append]
        assumption
      · split
        · rename_i h1 h2
          rw [String.length_append]
          omega
        · rw [length_domain_tail]
          have hk : 0 < (maxLength : ℤ) - (urlObj.hostname.length : ℤ) - 6 := by omega
          have := sliceFrom_length_le (urlObj.pathname ++ urlObj.search).data _ hk
          omega
    · rw [if_pos (by omega), length_prefix_dots]
      have := slicePrefix_length_le url.data ((maxLength : ℤ) - 3) (by omega)
      omega
/-- C26, as the code behaves: for a URL of 63 characters whose host name has 34
characters and the limit 40 that `DataTable` passes, `formatURL` computes
`path.slice(-0)`, which is the whole path, and returns 58 characters; and for a text
that does not parse and the limit 2 it returns all but one character of the text,
followed by "...". -/
theorem formatURL_exceeds_limit :
    longHostUrl.length = 63 ∧
      examplePathParse longHostUrl =
        some { protocol := "https:", hostname := "performance-dashboards.example.org",
               pathname := "/reports/2024/january", search := "" } ∧
      formatURL examplePathParse longHostUrl 40 =
        "performance-dashboards.example.org.../reports/2024/january" ∧
      (formatURL examplePathParse longHostUrl 40).length = 58 ∧
      formatURL examplePathParse "not a url" 2 = "not a ur..." := by
  decide

end Crux
